import Mathlib

/-! Computer club: a shallow embedding of `service/computerclub.go` and `service/queue.go`.

Modelling conventions.

* `time.Time` values all come from `time.Parse("15:04", _)`, so they are whole
  minutes of one day; a time is the number of minutes since midnight, from 0
  to 1439.  `Hour()` and `Minute()` are quotient and remainder by 60.
* A `time.Duration` is an `int64` of nanoseconds.  `t.Sub(u)` of two times of
  one day is their exact difference (it is negative when a leave is stamped
  earlier than the seating); the `+=` on an entry of the usage ledger wraps
  around (`wrapInt`).  An entry is a whole number of minutes as long as it has
  not wrapped.
* The conversions `int(d.Hours())` and `int(d.Minutes())` go through
  `float64`.  They are modelled by the exact quotients truncated toward zero:
  the minutes of `d` (`Minutes`) and their quotient by 60; `calculatePrice`
  takes the duration as these whole minutes, and `int(d.Minutes()) % 60` is
  Go's truncated remainder.  This is what the `float64` computation returns
  on every value that a ledger entry can take: such a value is a sum of whole
  minutes reduced modulo `2^64` (`billed_entry_whole_minutes`), so it lies on
  a minute (hour) boundary or at least `2^11` ns (`2^13` ns) away from the
  next one, while the rounding of `Minutes()` (`Hours()`) on an `int64` moves
  the result by less than the equivalent of `2^10` ns.
* Go `int` is a 64-bit two's complement integer.  `freeTables` starts at the
  table count, which can be any `int`; its increments and decrements wrap
  around (`wrapInt`), and so does the price product
  `(hours + k) * costOfHour`.  The `Size` of the queue starts at zero and moves
  by one per event; it is kept as an unbounded integer.
* A Go map is an association list without repeated keys.  The order of the
  list is not observable except through `range`, whose order Go leaves
  unspecified; the one `range` whose order reaches the output (the billing
  loop) takes that order as a parameter (`RangeOrder`).
* `*Node` pointers are indices into a heap of allocated nodes; `nil` is `none`.
  A nil dereference (a Go panic) makes the operation return `none`.
-/

namespace ComputerClub

/-! ## Basic types and constants -/

abbrev INPUT_ACTION := Int
abbrev OUTPUT_ACTION := Int
abbrev ERROR_MESSAGE := String
abbrev client := String
abbrev table := Int
/-- A time of day, as delivered by `time.Parse("15:04", _)`: the minutes since
midnight, from `00:00` to `23:59`. -/
abbrev Time := Fin 1440
/-- A `time.Duration`: a count of nanoseconds held in an `int64`. -/
abbrev Duration := Int

def CLIENT_IN : INPUT_ACTION := 1
def CLIENT_TABLE : INPUT_ACTION := 2
def CLIENT_WAIT : INPUT_ACTION := 3
def CLIENT_OUT : INPUT_ACTION := 4

def CLIENT_EXIT : OUTPUT_ACTION := 11
def CLIENT_POP_QUEUE : OUTPUT_ACTION := 12
def ERROR : OUTPUT_ACTION := 13

def YOU_SHALL_NOT_PASS : ERROR_MESSAGE := "YouShallNotPass"
def CLIENT_UNKNOWN : ERROR_MESSAGE := "ClientUnknown"
def PLACE_IS_BUSY : ERROR_MESSAGE := "PlaceIsBusy"
def NOT_OPEN_YET : ERROR_MESSAGE := "NotOpenYet"
def I_CAN_WAIT_NO_LONGER : ERROR_MESSAGE := "ICanWaitNoLonger"

/-- Two's complement wrap-around of a 64-bit integer (a Go `int`, an `int64`). -/
def wrapInt (x : Int) : Int := (x + 2 ^ 63) % 2 ^ 64 - 2 ^ 63

/-- The values a Go `int`, or an `int64`, can hold. -/
def isInt (x : Int) : Prop := -(2 ^ 63) ≤ x ∧ x < 2 ^ 63

/-! ## Formatting (`fmt.Sprintf`) -/

/-- The verb `%d`. -/
def fmtD (n : Int) : String := toString n

/-- The verb `%02d`: zero padding to width two; a minus sign counts for the width. -/
def fmt02d (n : Int) : String :=
  if n < 0 then toString n
  else if n < 10 then "0" ++ toString n
  else toString n

def Hour (t : Time) : Int := ((t.val / 60 : Nat) : Int)
def Minute (t : Time) : Int := ((t.val % 60 : Nat) : Int)

/-- The constant `time.Minute`: the nanoseconds of one minute. -/
def minuteNs : Duration := 60000000000

/-- The call `t.Sub(u)`.  Both times lie in one day, so the difference is far
from the bounds at which `Sub` saturates. -/
def Sub (t u : Time) : Duration := ((t.val : Int) - (u.val : Int)) * minuteNs

/-- The conversion `int(d.Minutes())`: the minutes of `d`, truncated toward zero. -/
def Minutes (d : Duration) : Int := Int.tdiv d minuteNs

/-- The format `"%02d:%02d"` applied to `t.Hour(), t.Minute()`. -/
def fmtTime (t : Time) : String := fmt02d (Hour t) ++ ":" ++ fmt02d (Minute t)

/-- The format `"%02d:%02d %d %s"`. -/
def fmtEvent (t : Time) (action : OUTPUT_ACTION) (s : String) : String :=
  fmtTime t ++ " " ++ fmtD action ++ " " ++ s

/-- The format `"%02d:%02d %d %s %d"`. -/
def fmtEventTable (t : Time) (action : OUTPUT_ACTION) (s : String) (tb : table) : String :=
  fmtTime t ++ " " ++ fmtD action ++ " " ++ s ++ " " ++ fmtD tb

/-! ## Go maps -/

abbrev GoMap (κ ν : Type) := List (κ × ν)

namespace GoMap

variable {κ ν : Type} [DecidableEq κ]

/-- The lookup `v, ok := m[k]`. -/
def lookup : GoMap κ ν → κ → Option ν
  | [], _ => none
  | (k1, v1) :: m, k => if k1 = k then some v1 else lookup m k

/-- The assignment `m[k] = v`. -/
def store : GoMap κ ν → κ → ν → GoMap κ ν
  | [], k, v => [(k, v)]
  | (k1, v1) :: m, k, v => if k1 = k then (k, v) :: m else (k1, v1) :: store m k v

/-- The builtin `delete(m, k)`. -/
def remove (m : GoMap κ ν) (k : κ) : GoMap κ ν := m.filter (fun p => decide (p.1 ≠ k))

def keys (m : GoMap κ ν) : List κ := m.map Prod.fst

end GoMap

/-! ## The queue (`service/queue.go`) -/

structure Node where
  Value : client
  Next : Option Nat
deriving DecidableEq, Repr

structure Queue where
  /-- Allocated nodes; a pointer is an index into this list. -/
  heap : List Node
  Head : Option Nat
  Tail : Option Nat
  Size : Int
deriving DecidableEq, Repr

def NewQueue : Queue := { heap := [], Head := none, Tail := none, Size := 0 }

/-- The store `p.Next = next` through a pointer `p`. -/
def setNext (heap : List Node) (p : Nat) (next : Option Nat) : List Node :=
  heap.modify (fun n => { n with Next := next }) p

def Queue.Enqueue (q : Queue) (value : client) : Option Queue :=
  let node := q.heap.length
  let heap := q.heap ++ [{ Value := value, Next := none }]
  match q.Head with
  | none => some { heap := heap, Head := some node, Tail := some node, Size := q.Size + 1 }
  | some _ =>
    match q.Tail with
    | none => none
    | some t =>
      some { heap := setNext heap t (some node), Head := q.Head, Tail := some node,
             Size := q.Size + 1 }

def Queue.Dequeue (q : Queue) : Option (client × Bool × Queue) :=
  match q.Head with
  | none => some ("", false, q)
  | some h =>
    match q.heap[h]? with
    | none => none
    | some n =>
      let tail := if n.Next = none then none else q.Tail
      some (n.Value, true, { heap := q.heap, Head := n.Next, Tail := tail, Size := q.Size - 1 })

/-! ## The club (`service/computerclub.go`) -/

structure event where
  time : Time
  action : INPUT_ACTION
  client : ComputerClub.client
  table : ComputerClub.table
  source : String
deriving DecidableEq, Repr

structure computerClub where
  clients : GoMap client table
  tablesAndStartTime : GoMap table Time
  tablesAndHours : GoMap table Duration
  events : List event
  startTime : Time
  endTime : Time
  costOfHour : Int
  freeTables : Int
  countOfTables : Int
  queueOfClients : Queue
  outputs : List String
  outputsAfterEnd : List String
deriving DecidableEq, Repr

/-- The order in which `range` visits the entries of the usage ledger.  Go does
not specify it; any function returning a permutation of the entries is a
possible behaviour of the runtime. -/
abbrev RangeOrder := GoMap table Duration → GoMap table Duration

/-- The state built by `parseConfig` from the three configuration lines. -/
def parseConfig (numTables : Int) (start end_ : Time) (costOfHour : Int) : computerClub :=
  { clients := [], tablesAndStartTime := [], tablesAndHours := [], events := [],
    startTime := start, endTime := end_, costOfHour := costOfHour,
    freeTables := numTables, countOfTables := numTables,
    queueOfClients := NewQueue, outputs := [], outputsAfterEnd := [] }

/-- The state after `SetInput`: configuration parsed, events stored. -/
def SetInput (numTables : Int) (start end_ : Time) (costOfHour : Int)
    (events : List event) : computerClub :=
  { parseConfig numTables start end_ costOfHour with events := events }

def initOutputs (c : computerClub) : computerClub :=
  { c with outputs := [fmtTime c.startTime], outputsAfterEnd := [] }

def filterByTime (c : computerClub) (e : event) : computerClub × Bool :=
  if c.startTime > e.time then
    ({ c with outputs := c.outputs ++ [e.source, fmtEvent e.time ERROR NOT_OPEN_YET] }, false)
  else if c.endTime < e.time then
    ({ c with outputsAfterEnd :=
        c.outputsAfterEnd ++ [e.source, fmtEvent e.time ERROR NOT_OPEN_YET] }, false)
  else (c, true)

def handleClientIn (c : computerClub) (e : event) : computerClub :=
  match GoMap.lookup c.clients e.client with
  | some _ => { c with outputs := c.outputs ++ [fmtEvent e.time ERROR YOU_SHALL_NOT_PASS] }
  | none => { c with clients := GoMap.store c.clients e.client 0 }

def handleClientTable (c : computerClub) (e : event) : computerClub :=
  match GoMap.lookup c.clients e.client with
  | none => { c with outputs := c.outputs ++ [fmtEvent e.time ERROR CLIENT_UNKNOWN] }
  | some _ =>
    match GoMap.lookup c.tablesAndStartTime e.table with
    | some _ => { c with outputs := c.outputs ++ [fmtEvent e.time ERROR PLACE_IS_BUSY] }
    | none =>
      { c with tablesAndStartTime := GoMap.store c.tablesAndStartTime e.table e.time,
               clients := GoMap.store c.clients e.client e.table,
               freeTables := wrapInt (c.freeTables - 1) }

def handleClientWait (c : computerClub) (e : event) : Option computerClub :=
  if c.freeTables > 0 then
    some { c with outputs := c.outputs ++ [fmtEvent e.time ERROR I_CAN_WAIT_NO_LONGER] }
  else if c.queueOfClients.Size = c.countOfTables then
    some { c with outputs := c.outputs ++ [fmtEvent e.time CLIENT_EXIT e.client] }
  else
    (c.queueOfClients.Enqueue e.client).map fun q => { c with queueOfClients := q }

def updateTableUsage (c : computerClub) (val : table) (currentTime : Time) : computerClub :=
  match GoMap.lookup c.tablesAndStartTime val with
  | some startTime =>
    let diff : Duration := Sub currentTime startTime
    let total : Duration := wrapInt ((GoMap.lookup c.tablesAndHours val).getD 0 + diff)
    { c with tablesAndHours := GoMap.store c.tablesAndHours val total }
  | none => c

def processQueue (c : computerClub) (e : event) (val : table) : Option computerClub :=
  if c.queueOfClients.Size > 0 then
    match c.queueOfClients.Dequeue with
    | none => none
    | some (cl, ok, q) =>
      let c1 := { c with queueOfClients := q }
      if ok then
        some { c1 with
          clients := GoMap.store (GoMap.store c1.clients cl val) cl val,
          outputs := c1.outputs ++ [fmtEventTable e.time CLIENT_POP_QUEUE cl val],
          tablesAndStartTime := GoMap.store c1.tablesAndStartTime val e.time,
          freeTables := wrapInt (c1.freeTables - 1) }
      else some c1
  else some c

def handleClientOut (c : computerClub) (e : event) : Option computerClub :=
  match GoMap.lookup c.clients e.client with
  | none => some { c with outputs := c.outputs ++ [fmtEvent e.time ERROR CLIENT_UNKNOWN] }
  | some val =>
    let c1 := updateTableUsage c val e.time
    let c2 := { c1 with tablesAndStartTime := GoMap.remove c1.tablesAndStartTime val }
    let c3 := { c2 with freeTables := wrapInt (c2.freeTables + 1) }
    (processQueue c3 e val).map fun c4 =>
      { c4 with clients := GoMap.remove c4.clients e.client }

def processEvent (c : computerClub) (e : event) : Option computerClub :=
  if e.action = CLIENT_IN then some (handleClientIn c e)
  else if e.action = CLIENT_TABLE then some (handleClientTable c e)
  else if e.action = CLIENT_WAIT then handleClientWait c e
  else if e.action = CLIENT_OUT then handleClientOut c e
  else some c

/-- One iteration of the loop of `ProcessInput`. -/
def processOne (c : computerClub) (e : event) : Option computerClub :=
  match filterByTime c e with
  | (c1, false) => some c1
  | (c1, true) => processEvent { c1 with outputs := c1.outputs ++ [e.source] } e

/-- The loop of `ProcessInput` over a list of events. -/
def processEvents (c : computerClub) : List event → Option computerClub
  | [] => some c
  | e :: es =>
    match processOne c e with
    | none => none
    | some c1 => processEvents c1 es

/-- The price of a duration, given by its whole minutes `int(duration.Minutes())`;
of these `int(duration.Hours())` is the quotient by 60. -/
def calculatePrice (c : computerClub) (duration : Int) : Int :=
  let hours := Int.tdiv duration 60
  let minutes := Int.tmod duration 60
  if minutes > 30 then wrapInt ((hours + 2) * c.costOfHour)
  else wrapInt ((hours + 1) * c.costOfHour)

/-- The `less` function handed to `sort.Slice`: Go's `<` on strings, the
lexicographic order (on code points, which is the byte order of UTF-8). -/
def clientLess (a b : client) : Bool := decide (a.data < b.data)

/-- Insertion of `x` into a list ordered by `clientLess`. -/
def insertClient (x : client) : List client → List client
  | [] => [x]
  | y :: ys => if clientLess y x then y :: insertClient x ys else x :: y :: ys

/-- The call `sort.Slice(sortedClients, less)` with `less` the string order.
The keys of a map are distinct, so every sorting algorithm returns the same
slice. -/
def sortClients : List client → List client
  | [] => []
  | x :: xs => insertClient x (sortClients xs)

/-- The format `"%d %d %02d:%02d"` of a billing line, applied to the table,
`calculatePrice(duration)`, `int(duration.Hours())` and
`int(duration.Minutes()) % 60`. -/
def billingLine (c : computerClub) (p : table × Duration) : String :=
  fmtD p.1 ++ " " ++ fmtD (calculatePrice c (Minutes p.2)) ++ " " ++
    fmt02d (Int.tdiv (Minutes p.2) 60) ++ ":" ++ fmt02d (Int.tmod (Minutes p.2) 60)

/-- The loop `for table := range c.tablesAndStartTime` of `processEndOfDay`,
over the tables `ks`; its updates touch distinct ledger entries. -/
def flushUsage (c : computerClub) (ks : List table) : computerClub :=
  ks.foldl (fun acc tb => updateTableUsage acc tb acc.endTime) c

def processEndOfDay (ro : RangeOrder) (c : computerClub) : computerClub :=
  let sortedClients := sortClients (GoMap.keys c.clients)
  let c1 := { c with outputs :=
    c.outputs ++ sortedClients.map (fun cl => fmtEvent c.endTime CLIENT_EXIT cl) }
  let c2 := { c1 with outputs := c1.outputs ++ [fmtTime c1.endTime] }
  let c3 := flushUsage c2 (GoMap.keys c2.tablesAndStartTime)
  let c4 := { c3 with outputs := c3.outputs ++ (ro c3.tablesAndHours).map (billingLine c3) }
  { c4 with outputs := c4.outputs ++ c4.outputsAfterEnd }

def ProcessInput (ro : RangeOrder) (c : computerClub) : Option computerClub :=
  (processEvents (initOutputs c) c.events).map (processEndOfDay ro)

def GetOutput (c : computerClub) : List String := c.outputs

/-! ## The worked example (`example_test.go`) -/

def hm (h m : Nat) : Time := Fin.ofNat (h * 60 + m)

def exampleEvents : List event :=
  [ ⟨hm 8 48, 1, "client1", 0, "08:48 1 client1"⟩,
    ⟨hm 9 41, 1, "client1", 0, "09:41 1 client1"⟩,
    ⟨hm 9 48, 1, "client2", 0, "09:48 1 client2"⟩,
    ⟨hm 9 52, 3, "client1", 0, "09:52 3 client1"⟩,
    ⟨hm 9 54, 2, "client1", 1, "09:54 2 client1 1"⟩,
    ⟨hm 10 25, 2, "client2", 2, "10:25 2 client2 2"⟩,
    ⟨hm 10 58, 1, "client3", 0, "10:58 1 client3"⟩,
    ⟨hm 10 59, 2, "client3", 3, "10:59 2 client3 3"⟩,
    ⟨hm 11 30, 1, "client4", 0, "11:30 1 client4"⟩,
    ⟨hm 11 35, 2, "client4", 2, "11:35 2 client4 2"⟩,
    ⟨hm 11 45, 3, "client4", 0, "11:45 3 client4"⟩,
    ⟨hm 12 33, 4, "client1", 0, "12:33 4 client1"⟩,
    ⟨hm 12 43, 4, "client2", 0, "12:43 4 client2"⟩,
    ⟨hm 15 52, 4, "client4", 0, "15:52 4 client4"⟩ ]

def exampleClub : computerClub := SetInput 3 (hm 9 0) (hm 19 0) 10 exampleEvents

def exampleOutput : List String :=
  [ "09:00", "08:48 1 client1", "08:48 13 NotOpenYet", "09:41 1 client1",
    "09:48 1 client2", "09:52 3 client1", "09:52 13 ICanWaitNoLonger",
    "09:54 2 client1 1", "10:25 2 client2 2", "10:58 1 client3", "10:59 2 client3 3",
    "11:30 1 client4", "11:35 2 client4 2", "11:35 13 PlaceIsBusy", "11:45 3 client4",
    "12:33 4 client1", "12:33 12 client4 1", "12:43 4 client2", "15:52 4 client4",
    "19:00 11 client3", "19:00", "1 70 05:58", "2 30 02:18", "3 90 08:01" ]

/-! ## Specification-side definitions -/

/-- The billed amount in the words of the specification: `(⌊D/60⌋+1)·R` when
`D mod 60 ≤ 30`, otherwise `(⌊D/60⌋+2)·R`. -/
def billedAmount (D R : Int) : Int :=
  if D % 60 ≤ 30 then (D / 60 + 1) * R else (D / 60 + 2) * R

/-- The list of client ids that the specification takes a wait queue to be. -/
abbrev SpecQueue := List client

def specEnqueue (l : SpecQueue) (x : client) : SpecQueue := l ++ [x]

def specDequeue : SpecQueue → client × Bool × SpecQueue
  | [] => ("", false, [])
  | x :: xs => (x, true, xs)

def specSize (l : SpecQueue) : Int := (l.length : Int)

/-- The nodes reachable from pointer `p` carry the values `l` in order, the
last of them has a nil `Next`, and `last` points to it. -/
def chain (heap : List Node) (last : Option Nat) : Option Nat → List client → Prop
  | p, [] => p = none
  | p, x :: xs => ∃ i n, p = some i ∧ heap[i]? = some n ∧ n.Value = x ∧
      chain heap last n.Next xs ∧ (xs = [] → last = some i)

/-- The abstraction relation: the linked queue `q` represents the list `l`. -/
def Repr (q : Queue) (l : SpecQueue) : Prop :=
  chain q.heap q.Tail q.Head l ∧ q.Size = specSize l ∧ (l = [] → q.Tail = none)

/-- Dequeue `n` times, collecting the returned clients. -/
def dequeueN : Nat → Queue → Option (List client × Queue)
  | 0, q => some ([], q)
  | n + 1, q =>
    match q.Dequeue with
    | some (x, true, q1) => (dequeueN n q1).map fun r => (x :: r.1, r.2)
    | _ => none

/-- Enqueue the clients `xs` one after the other. -/
def enqueueAll : Queue → List client → Option Queue
  | q, [] => some q
  | q, x :: xs =>
    match q.Enqueue x with
    | some q1 => enqueueAll q1 xs
    | none => none

/-! ## Concrete runs -/

/-- One table; a client arrives and leaves without sitting down. -/
def walkThroughClub : computerClub :=
  SetInput 1 (hm 9 0) (hm 19 0) 10
    [ ⟨hm 9 0, 1, "a", 0, "09:00 1 a"⟩,
      ⟨hm 9 10, 4, "a", 0, "09:10 4 a"⟩ ]

/-- A `range` over the usage ledger that starts at its second entry. -/
def rangeFromSecond : RangeOrder := fun m => m.rotate 1

/-- Two tables used one after the other. -/
def twoTablesClub : computerClub :=
  SetInput 2 (hm 9 0) (hm 19 0) 10
    [ ⟨hm 9 0, 1, "a", 0, "09:00 1 a"⟩,
      ⟨hm 9 0, 2, "a", 1, "09:00 2 a 1"⟩,
      ⟨hm 10 0, 4, "a", 0, "10:00 4 a"⟩,
      ⟨hm 10 0, 1, "b", 0, "10:00 1 b"⟩,
      ⟨hm 10 0, 2, "b", 2, "10:00 2 b 2"⟩,
      ⟨hm 10 30, 4, "b", 0, "10:30 4 b"⟩ ]

/-- A club at closing time with two clients inside. -/
def closingClub : computerClub :=
  { parseConfig 2 (hm 9 0) (hm 19 0) 10 with
    clients := [("zed", 0), ("amy", 1)], tablesAndStartTime := [(1, hm 18 0)],
    freeTables := 1, outputs := ["09:00"] }

/-- The state of the club when the loop of `ProcessInput` has handled the first
`k` events. -/
def stateAfter (c : computerClub) (k : Nat) : Option computerClub :=
  processEvents (initOutputs c) (c.events.take k)

/-- The queue is well formed and holds at most `N` clients. -/
def QueueInv (N : Int) (c : computerClub) : Prop :=
  c.countOfTables = N ∧ c.queueOfClients.Size ≤ N ∧ ∃ l, Repr c.queueOfClients l

/-- The bookkeeping behind a non-negative free-table counter: occupied tables
are distinct and lie in `0..N`, so do the tables recorded for clients, and the
counter plus the number of occupied tables is at least `N`, and at least
`N + 1` while the sentinel table 0 is occupied. -/
def FreeInv (N : Int) (c : computerClub) : Prop :=
  c.countOfTables = N ∧ (∃ l, Repr c.queueOfClients l) ∧
  (GoMap.keys c.tablesAndStartTime).Nodup ∧
  (∀ k : Int, k ∈ GoMap.keys c.tablesAndStartTime → 0 ≤ k ∧ k ≤ N) ∧
  (∀ (x : client) (k : Int), (x, k) ∈ c.clients → 0 ≤ k ∧ k ≤ N) ∧
  N + (if (0 : Int) ∈ GoMap.keys c.tablesAndStartTime then 1 else 0)
    ≤ c.freeTables + (c.tablesAndStartTime.length : Int)

/-- A club with one table taken; a second client is waiting. -/
def busyClub : computerClub :=
  { parseConfig 1 (hm 9 0) (hm 19 0) 10 with
    clients := [("a", 1), ("b", 0)], tablesAndStartTime := [(1, hm 9 30)],
    freeTables := 0, outputs := ["09:00"] }

/-- A client without a seat asks for the taken table. -/
def busyEvent : event := ⟨hm 10 0, 2, "b", 1, "10:00 2 b 1"⟩

def busyClubAfter : computerClub :=
  { busyClub with outputs := ["09:00", "10:00 2 b 1", "10:00 13 PlaceIsBusy"] }

/-- Replace the buffer of deferred lines. -/
def withAfterEnd (a : List String) (c : computerClub) : computerClub :=
  { c with outputsAfterEnd := a }

/-- The test of `filterByTime` that sends an event to the deferred buffer: the
event is not before opening and is after closing. -/
def isDeferred (start end_ : Time) (e : event) : Bool :=
  decide (¬ start > e.time ∧ end_ < e.time)

/-- The deferred lines of the events `evs`: text and NotOpenYet error of every
event that `filterByTime` defers, in input order. -/
def deferredLines (start end_ : Time) (evs : List event) : List String :=
  ((evs.filter (isDeferred start end_)).map
    (fun e => [e.source, fmtTime e.time ++ " 13 NotOpenYet"])).flatten

/-- The deferred lines in the words of the claim: text and NotOpenYet error of
every event timestamped after closing time, in input order. -/
def afterClosingLines (end_ : Time) (evs : List event) : List String :=
  ((evs.filter (fun e => decide (end_ < e.time))).map
    (fun e => [e.source, fmtTime e.time ++ " 13 NotOpenYet"])).flatten

/-- A club whose closing time precedes its opening time, and one event between
the two. -/
def nightClub : computerClub :=
  SetInput 2 (hm 22 0) (hm 6 0) 10 [ ⟨hm 12 0, 1, "a", 0, "12:00 1 a"⟩ ]

/-- Two tables; a seated client asks for the other table. -/
def reseatClub : computerClub :=
  SetInput 2 (hm 9 0) (hm 19 0) 10
    [ ⟨hm 9 0, 1, "a", 0, "09:00 1 a"⟩,
      ⟨hm 9 10, 2, "a", 1, "09:10 2 a 1"⟩,
      ⟨hm 9 20, 2, "a", 2, "09:20 2 a 2"⟩ ]

/-- One table, taken; one client waiting, so the queue is full; a third client
asks to wait. -/
def fullQueueClub : computerClub :=
  SetInput 1 (hm 9 0) (hm 19 0) 10
    [ ⟨hm 9 0, 1, "a", 0, "09:00 1 a"⟩,
      ⟨hm 9 0, 2, "a", 1, "09:00 2 a 1"⟩,
      ⟨hm 9 10, 1, "b", 0, "09:10 1 b"⟩,
      ⟨hm 9 10, 3, "b", 0, "09:10 3 b"⟩,
      ⟨hm 9 20, 1, "d", 0, "09:20 1 d"⟩,
      ⟨hm 9 20, 3, "d", 0, "09:20 3 d"⟩ ]

/-- One table, taken; one client waiting; a third client arrives and leaves
without sitting down. -/
def unseatedLeaverClub : computerClub :=
  SetInput 1 (hm 9 0) (hm 19 0) 10
    [ ⟨hm 9 0, 1, "a", 0, "09:00 1 a"⟩,
      ⟨hm 9 0, 2, "a", 1, "09:00 2 a 1"⟩,
      ⟨hm 9 10, 1, "b", 0, "09:10 1 b"⟩,
      ⟨hm 9 10, 3, "b", 0, "09:10 3 b"⟩,
      ⟨hm 9 20, 1, "d", 0, "09:20 1 d"⟩,
      ⟨hm 9 30, 4, "d", 0, "09:30 4 d"⟩ ]

/-- An event stamped with the opening time of `nightClub`. -/
def nightOpeningEvent : event := ⟨hm 22 0, 1, "a", 0, "22:00 1 a"⟩

/-- The accumulated usage of table `T`: the ledger entry `c.tablesAndHours[T]`,
zero when there is none. -/
def usage (c : computerClub) (T : Int) : Int := (GoMap.lookup c.tablesAndHours T).getD 0

/-- The effect of one loop iteration on a club whose queue holds the clients
`l`: either only the output buffers change (filtered event, error, forced exit
at a full queue, unknown action), or the event is an accepted arrival, an
accepted seating, an accepted join of the queue, or a leave, without or with a
client popped from the queue. -/
inductive Step (c : computerClub) (e : event) (l : SpecQueue) :
    computerClub → SpecQueue → Prop
  | quiet (o oa : List String) :
      Step c e l { c with outputs := o, outputsAfterEnd := oa } l
  | arrive :
      (filterByTime c e).2 = true → e.action = CLIENT_IN →
      GoMap.lookup c.clients e.client = none →
      Step c e l { c with outputs := c.outputs ++ [e.source],
                          clients := GoMap.store c.clients e.client 0 } l
  | sit (t0 : Int) :
      (filterByTime c e).2 = true → e.action = CLIENT_TABLE →
      GoMap.lookup c.clients e.client = some t0 →
      GoMap.lookup c.tablesAndStartTime e.table = none →
      Step c e l { c with outputs := c.outputs ++ [e.source],
                          tablesAndStartTime := GoMap.store c.tablesAndStartTime e.table e.time,
                          clients := GoMap.store c.clients e.client e.table,
                          freeTables := wrapInt (c.freeTables - 1) } l
  | wait (q1 : Queue) :
      (filterByTime c e).2 = true → e.action = CLIENT_WAIT →
      ¬ c.freeTables > 0 → ¬ c.queueOfClients.Size = c.countOfTables →
      Repr q1 (l ++ [e.client]) →
      Step c e l { c with outputs := c.outputs ++ [e.source], queueOfClients := q1 }
        (l ++ [e.client])
  | leaveEmpty (val : Int) :
      (filterByTime c e).2 = true → e.action = CLIENT_OUT →
      GoMap.lookup c.clients e.client = some val → l = [] →
      Step c e l { c with outputs := c.outputs ++ [e.source],
                          tablesAndHours := (updateTableUsage c val e.time).tablesAndHours,
                          tablesAndStartTime := GoMap.remove c.tablesAndStartTime val,
                          freeTables := wrapInt (c.freeTables + 1),
                          clients := GoMap.remove c.clients e.client } l
  | leavePop (val : Int) (x : client) (xs : SpecQueue) (q1 : Queue) :
      (filterByTime c e).2 = true → e.action = CLIENT_OUT →
      GoMap.lookup c.clients e.client = some val → l = x :: xs → Repr q1 xs →
      Step c e l { c with outputs := c.outputs ++ [e.source] ++
                            [fmtEventTable e.time CLIENT_POP_QUEUE x val],
                          tablesAndHours := (updateTableUsage c val e.time).tablesAndHours,
                          tablesAndStartTime :=
                            GoMap.store (GoMap.remove c.tablesAndStartTime val) val e.time,
                          freeTables := wrapInt (wrapInt (c.freeTables + 1) - 1),
                          clients :=
                            GoMap.remove (GoMap.store (GoMap.store c.clients x val) x val)
                              e.client,
                          queueOfClients := q1 } xs

/-- The values met when following `Next` from pointer `p`, for at most `n` nodes. -/
def walk (heap : List Node) : Nat → Option Nat → List client
  | 0, _ => []
  | _ + 1, none => []
  | n + 1, some i =>
    match heap[i]? with
    | none => []
    | some nd => nd.Value :: walk heap n nd.Next

/-- The clients waiting in the queue, front first: the first `Size` values met
from `Head`. -/
def Queue.toList (q : Queue) : List client := walk q.heap q.Size.toNat q.Head

/-- One table; the seated client joins the queue and then leaves. -/
def selfQueuedClub : computerClub :=
  SetInput 1 (hm 9 0) (hm 19 0) 10
    [ ⟨hm 9 0, 1, "a", 0, "09:00 1 a"⟩,
      ⟨hm 9 0, 2, "a", 1, "09:00 2 a 1"⟩,
      ⟨hm 9 10, 3, "a", 0, "09:10 3 a"⟩,
      ⟨hm 9 30, 4, "a", 0, "09:30 4 a"⟩ ]

/-- The billing lines that `processEndOfDay` appends after the closing-time
line: one per entry of the ledger as it is after the flush of the tables still
occupied, in `range` order. -/
def billingLines (ro : RangeOrder) (c : computerClub) : List String :=
  (ro (flushUsage c (GoMap.keys c.tablesAndStartTime)).tablesAndHours).map (billingLine c)

/-- A club at closing time in which every table has been released. -/
def settledClub : computerClub :=
  { parseConfig 2 (hm 9 0) (hm 19 0) 10 with
    tablesAndHours := [(1, 60 * minuteNs), (2, 30 * minuteNs)], outputs := ["09:00"] }

/-- Table `T` has been occupied at some point up to state `c`: it has a ledger
entry or it is occupied now. -/
def touched (c : computerClub) (T : Int) : Prop :=
  T ∈ GoMap.keys c.tablesAndHours ∨ T ∈ GoMap.keys c.tablesAndStartTime

/-- One table, taken; a client who never arrived asks to wait. -/
def strangerClub : computerClub :=
  SetInput 1 (hm 9 0) (hm 19 0) 10
    [ ⟨hm 9 0, 1, "a", 0, "09:00 1 a"⟩,
      ⟨hm 9 0, 2, "a", 1, "09:00 2 a 1"⟩,
      ⟨hm 9 10, 3, "b", 0, "09:10 3 b"⟩ ]

/-- The client id `x` is absent from the registry. -/
def absent (c : computerClub) (x : client) : Bool := (GoMap.lookup c.clients x).isNone

/-- The client id `x` is in the wait queue. -/
def waiting (c : computerClub) (x : client) : Bool := decide (x ∈ c.queueOfClients.toList)

/-- The client id `x` occupies a table: the registry maps it to a table that
the occupancy map holds as occupied. -/
def occupying (c : computerClub) (x : client) : Bool :=
  match GoMap.lookup c.clients x with
  | some T => (GoMap.lookup c.tablesAndStartTime T).isSome
  | none => false

/-- The event respects the discipline of the queue in state `c`.  Inside
opening hours: a JoinQueue comes only from a client that is registered,
unseated (registry value 0) and not already waiting; a SitAtTable comes only
from a client that is not waiting and names a table other than 0; a Leave
that arrives while clients are waiting comes only from a client that is not a
registered unseated one. -/
def eventOK (c : computerClub) (e : event) : Bool :=
  if (filterByTime c e).2 then
    if e.action = CLIENT_WAIT then
      decide (GoMap.lookup c.clients e.client = some 0) &&
        decide (e.client ∉ c.queueOfClients.toList)
    else if e.action = CLIENT_TABLE then
      decide (e.client ∉ c.queueOfClients.toList) && decide (e.table ≠ 0)
    else if e.action = CLIENT_OUT then
      decide (c.queueOfClients.toList = [] ∨ GoMap.lookup c.clients e.client ≠ some 0)
    else true
  else true

/-- Every event of the list respects the discipline of the queue in the state
in which the loop handles it. -/
def disciplined : computerClub → List event → Bool
  | _, [] => true
  | c, e :: es =>
    eventOK c e &&
      match processOne c e with
      | some c1 => disciplined c1 es
      | none => true

/-- Two tables, both taken; a client joins the queue twice, then a table is
released. -/
def doubleJoinClub : computerClub :=
  SetInput 2 (hm 9 0) (hm 19 0) 10
    [ ⟨hm 9 0, 1, "a", 0, "09:00 1 a"⟩,
      ⟨hm 9 0, 2, "a", 1, "09:00 2 a 1"⟩,
      ⟨hm 9 5, 1, "d", 0, "09:05 1 d"⟩,
      ⟨hm 9 5, 2, "d", 2, "09:05 2 d 2"⟩,
      ⟨hm 9 10, 1, "b", 0, "09:10 1 b"⟩,
      ⟨hm 9 10, 3, "b", 0, "09:10 3 b"⟩,
      ⟨hm 9 20, 3, "b", 0, "09:20 3 b"⟩,
      ⟨hm 9 30, 4, "a", 0, "09:30 4 a"⟩ ]

/-- One table, taken; the waiting client sits down at a table numbered 2. -/
def waitingSitsClub : computerClub :=
  SetInput 1 (hm 9 0) (hm 19 0) 10
    [ ⟨hm 9 0, 1, "a", 0, "09:00 1 a"⟩,
      ⟨hm 9 0, 2, "a", 1, "09:00 2 a 1"⟩,
      ⟨hm 9 10, 1, "b", 0, "09:10 1 b"⟩,
      ⟨hm 9 10, 3, "b", 0, "09:10 3 b"⟩,
      ⟨hm 9 20, 2, "b", 2, "09:20 2 b 2"⟩ ]

/-- One table; a client sits down at a table numbered 0 and then joins the
queue. -/
def tableZeroClub : computerClub :=
  SetInput 1 (hm 9 0) (hm 19 0) 10
    [ ⟨hm 9 0, 1, "a", 0, "09:00 1 a"⟩,
      ⟨hm 9 0, 2, "a", 0, "09:00 2 a 0"⟩,
      ⟨hm 9 10, 3, "a", 0, "09:10 3 a"⟩ ]

/-- Two tables, both taken; two clients wait; the second of them leaves. -/
def waitingLeavesClub : computerClub :=
  SetInput 2 (hm 9 0) (hm 19 0) 10
    [ ⟨hm 9 0, 1, "a", 0, "09:00 1 a"⟩,
      ⟨hm 9 0, 2, "a", 1, "09:00 2 a 1"⟩,
      ⟨hm 9 5, 1, "d", 0, "09:05 1 d"⟩,
      ⟨hm 9 5, 2, "d", 2, "09:05 2 d 2"⟩,
      ⟨hm 9 10, 1, "b", 0, "09:10 1 b"⟩,
      ⟨hm 9 10, 3, "b", 0, "09:10 3 b"⟩,
      ⟨hm 9 20, 1, "g", 0, "09:20 1 g"⟩,
      ⟨hm 9 20, 3, "g", 0, "09:20 3 g"⟩,
      ⟨hm 9 30, 4, "g", 0, "09:30 4 g"⟩ ]

/-- The run of `unseatedLeaverClub`, after which the client popped to table 0
joins the queue again. -/
def rejoinClub : computerClub :=
  SetInput 1 (hm 9 0) (hm 19 0) 10
    [ ⟨hm 9 0, 1, "a", 0, "09:00 1 a"⟩,
      ⟨hm 9 0, 2, "a", 1, "09:00 2 a 1"⟩,
      ⟨hm 9 10, 1, "b", 0, "09:10 1 b"⟩,
      ⟨hm 9 10, 3, "b", 0, "09:10 3 b"⟩,
      ⟨hm 9 20, 1, "d", 0, "09:20 1 d"⟩,
      ⟨hm 9 30, 4, "d", 0, "09:30 4 d"⟩,
      ⟨hm 9 40, 3, "b", 0, "09:40 3 b"⟩ ]

/-- The worked example after its first eleven events: tables 1, 2 and 3 are
taken and `client4` is waiting. -/
def waitingClub : computerClub :=
  { clients := [("client1", 1), ("client2", 2), ("client3", 3), ("client4", 0)],
    tablesAndStartTime := [(1, hm 9 54), (2, hm 10 25), (3, hm 10 59)],
    tablesAndHours := [],
    events := exampleEvents,
    startTime := hm 9 0, endTime := hm 19 0, costOfHour := 10,
    freeTables := 0, countOfTables := 3,
    queueOfClients := { heap := [⟨"client4", none⟩], Head := some 0, Tail := some 0, Size := 1 },
    outputs := exampleOutput.take 15,
    outputsAfterEnd := [] }

/-- The twelfth event of the worked example: `client1` leaves table 1. -/
def waitingLeave : event := ⟨hm 12 33, 4, "client1", 0, "12:33 4 client1"⟩

/-- The summed lengths of a list of intervals `(start, end)`. -/
def intervalsLength (l : List (Time × Time)) : Duration :=
  (l.map fun p => Sub p.2 p.1).sum

/-- The occupancy interval of table `T` that the loop iteration from `c` to
`c1` at event `e` closes: if `T` is occupied since `s` in `c` and is not
occupied since `s` any more in `c1` (it was released, and possibly handed to
the client popped from the queue), the interval from `s` to the time of `e`. -/
def closedInterval (T : Int) (c c1 : computerClub) (e : event) : List (Time × Time) :=
  match GoMap.lookup c.tablesAndStartTime T with
  | some s => if GoMap.lookup c1.tablesAndStartTime T = some s then [] else [(s, e.time)]
  | none => []

/-- The occupancy intervals of table `T` over the run of the events `evs` from
state `c`, as the occupancy map records them: one interval for every release
of `T` by an event, and, if `T` is still occupied after the last event, the
interval from its occupancy start to closing time. -/
def occupancyIntervals (T : Int) : computerClub → List event → List (Time × Time)
  | c, [] =>
    match GoMap.lookup c.tablesAndStartTime T with
    | some s => [(s, c.endTime)]
    | none => []
  | c, e :: es =>
    match processOne c e with
    | some c1 => closedInterval T c c1 e ++ occupancyIntervals T c1 es
    | none => []

/-- Bounds on the ledger when no event so far is stamped later than `b`: a
ledger entry is not negative; an occupied table is occupied since a time that
is at most `b` and at most closing time, and its entry is at most the time
from midnight to that start; the entry of a table that is not occupied is at
most the time from midnight to `b`. -/
def UsageInv (b : Time) (c : computerClub) : Prop :=
  ∀ T : Int, 0 ≤ usage c T ∧
    (∀ s : Time, GoMap.lookup c.tablesAndStartTime T = some s →
      s ≤ b ∧ s ≤ c.endTime ∧ usage c T ≤ (s.val : Int) * minuteNs) ∧
    (GoMap.lookup c.tablesAndStartTime T = none → usage c T ≤ (b.val : Int) * minuteNs)

/-- The largest table count that a Go `int` holds; a client arrives and leaves
without sitting down. -/
def maxTablesClub : computerClub :=
  SetInput 9223372036854775807 (hm 9 0) (hm 19 0) 10
    [ ⟨hm 9 0, 1, "a", 0, "09:00 1 a"⟩,
      ⟨hm 9 10, 4, "a", 0, "09:10 4 a"⟩ ]

/-- The seated client of `busyClub` leaves after closing time. -/
def lateLeave : event := ⟨hm 19 30, 4, "a", 0, "19:30 4 a"⟩

/-! # Verification -/

theorem wrapInt_of_isInt {x : Int} (h : isInt x) : wrapInt x = x := by
  unfold isInt at h
  unfold wrapInt
  omega

/-- C3: for a total duration of `D ≥ 0` minutes, `calculatePrice` returns the
billed amount of the specification, `(⌊D/60⌋+1)·R` or `(⌊D/60⌋+2)·R` according
to `D mod 60 ≤ 30`, as a Go `int` (the product taken in 64-bit arithmetic, and
equal to the exact product whenever that fits); for `D = 0, 30, 31, 60, 90, 91`
the amounts are `R, R, 2R, 2R, 2R, 3R`. -/
theorem calculatePrice_eq_billedAmount (c : computerClub) (D : Int) (hD : 0 ≤ D) :
    calculatePrice c D = wrapInt (billedAmount D c.costOfHour) ∧
    (isInt (billedAmount D c.costOfHour) → calculatePrice c D = billedAmount D c.costOfHour) ∧
    (∀ p ∈ [((0 : Int), (1 : Int)), (30, 1), (31, 2), (60, 2), (90, 2), (91, 3)],
      D = p.1 → billedAmount D c.costOfHour = p.2 * c.costOfHour) := by
  have hdiv : Int.tdiv D 60 = D / 60 := Int.tdiv_eq_ediv hD (by norm_num)
  have hmod : Int.tmod D 60 = D % 60 := Int.tmod_eq_emod hD (by norm_num)
  have h1 : calculatePrice c D = wrapInt (billedAmount D c.costOfHour) := by
    unfold calculatePrice billedAmount
    simp only [hdiv, hmod]
    by_cases h : D % 60 ≤ 30
    · have h2 : ¬ (D % 60 > 30) := by omega
      simp [h, h2]
    · have h2 : D % 60 > 30 := by omega
      simp [h, h2]
  refine ⟨h1, fun hfit => by rw [h1, wrapInt_of_isInt hfit], ?_⟩
  intro p hp hDp
  simp only [List.mem_cons, List.mem_singleton, List.not_mem_nil, or_false] at hp
  rcases hp with rfl | rfl | rfl | rfl | rfl | rfl <;> subst hDp <;> simp [billedAmount]

theorem calculatePrice_eq_billedAmount_witness :
    (0 : Int) ≤ 91 ∧ calculatePrice exampleClub 91 = wrapInt (billedAmount 91 10) :=
  ⟨by decide, (calculatePrice_eq_billedAmount exampleClub 91 (by decide)).1⟩

/-! ## The queue refines a list -/

theorem chain_last {heap : List Node} {last : Option Nat} :
    ∀ {l : List client} {p : Option Nat}, chain heap last p l → l ≠ [] →
      ∃ t n, last = some t ∧ heap[t]? = some n ∧ n.Next = none := by
  intro l
  induction l with
  | nil => intro p _ h; exact absurd rfl h
  | cons x xs ih =>
    intro p h _
    obtain ⟨i, n, _, hget, _, hch, hlast⟩ := h
    by_cases hxs : xs = []
    · subst hxs
      exact ⟨i, n, hlast rfl, hget, hch⟩
    · exact ih hch hxs

theorem chain_head_some {heap : List Node} {last p : Option Nat} {x : client}
    {xs : List client} (h : chain heap last p (x :: xs)) : ∃ i, p = some i := by
  obtain ⟨i, _, hp, _⟩ := h
  exact ⟨i, hp⟩

theorem chain_enqueue {heap : List Node} {t : Nat} (x : client) :
    ∀ {l : List client} {p : Option Nat}, chain heap (some t) p l → l ≠ [] →
      chain (setNext (heap ++ [{ Value := x, Next := none }]) t (some heap.length))
        (some heap.length) p (l ++ [x]) := by
  intro l
  induction l with
  | nil => intro p _ h; exact absurd rfl h
  | cons y ys ih =>
    intro p h _
    obtain ⟨i, n, hp, hget, hv, hch, hlast⟩ := h
    have hi : i < heap.length := (List.getElem?_eq_some.1 hget).1
    by_cases hys : ys = []
    · subst hys
      have hit : t = i := by
        have := hlast rfl
        simpa using this
      subst hit
      refine ⟨t, { n with Next := some heap.length }, hp, ?_, hv, ?_, ?_⟩
      · simp [setNext, List.getElem?_append_left hi, hget]
      · refine ⟨heap.length, { Value := x, Next := none }, rfl, ?_, rfl, rfl, fun _ => rfl⟩
        have hne : t ≠ heap.length := Nat.ne_of_lt hi
        simp [setNext, List.getElem?_modify_ne _ _ hne]
      · intro h; simp at h
    · obtain ⟨t1, n1, ht1, hget1, hnext1⟩ := chain_last hch hys
      have ht : t1 = t := by simpa using ht1.symm
      subst ht
      have hne : t1 ≠ i := by
        intro hti
        subst hti
        rw [hget] at hget1
        cases hget1
        cases ys with
        | nil => exact hys rfl
        | cons z zs =>
          obtain ⟨j, hj⟩ := chain_head_some hch
          rw [hnext1] at hj
          cases hj
      refine ⟨i, n, hp, ?_, hv, ih hch hys, ?_⟩
      · simp [setNext, List.getElem?_modify_ne _ _ hne, List.getElem?_append_left hi, hget]
      · intro h; simp at h

theorem repr_new : Repr NewQueue [] := ⟨rfl, rfl, fun _ => rfl⟩

theorem repr_enqueue {q : Queue} {l : SpecQueue} (x : client) (h : Repr q l) :
    ∃ q1, q.Enqueue x = some q1 ∧ Repr q1 (specEnqueue l x) := by
  obtain ⟨hch, hsize, htail⟩ := h
  cases l with
  | nil =>
    have hhead : q.Head = none := hch
    refine ⟨_, by simp [Queue.Enqueue, hhead]; rfl, ?_, ?_, ?_⟩
    · exact ⟨q.heap.length, { Value := x, Next := none }, rfl, by simp, rfl, rfl, fun _ => rfl⟩
    · simp [specSize, specEnqueue] at hsize ⊢
      omega
    · intro h; simp [specEnqueue] at h
  | cons y ys =>
    obtain ⟨i, hi⟩ := chain_head_some hch
    obtain ⟨t, n, ht, _, _⟩ := chain_last hch (List.cons_ne_nil y ys)
    refine ⟨_, by simp [Queue.Enqueue, hi, ht]; rfl, ?_, ?_, ?_⟩
    · rw [ht, hi] at hch
      exact chain_enqueue x hch (List.cons_ne_nil y ys)
    · simp [specSize, specEnqueue] at hsize ⊢
      omega
    · intro h; simp [specEnqueue] at h

theorem repr_dequeue_cons {q : Queue} {x : client} {xs : SpecQueue} (h : Repr q (x :: xs)) :
    ∃ q1, q.Dequeue = some (x, true, q1) ∧ Repr q1 xs := by
  obtain ⟨hch, hsize, _⟩ := h
  obtain ⟨i, n, hp, hget, hv, hch1, _⟩ := hch
  refine ⟨{ heap := q.heap, Head := n.Next,
            Tail := if n.Next = none then none else q.Tail, Size := q.Size - 1 }, ?_, ?_, ?_, ?_⟩
  · simp [Queue.Dequeue, hp, hget, hv]
  · cases xs with
    | nil => exact hch1
    | cons z zs =>
      obtain ⟨j, hj⟩ := chain_head_some hch1
      simpa [hj] using hch1
  · simp [specSize] at hsize ⊢
    omega
  · intro hxs
    subst hxs
    have : n.Next = none := hch1
    simp [this]

theorem repr_dequeue_nil {q : Queue} (h : Repr q []) : q.Dequeue = some ("", false, q) := by
  have hhead : q.Head = none := h.1
  simp [Queue.Dequeue, hhead]

theorem repr_enqueueAll : ∀ (xs : List client) {q : Queue} {l : SpecQueue}, Repr q l →
    ∃ q1, enqueueAll q xs = some q1 ∧ Repr q1 (l ++ xs) := by
  intro xs
  induction xs with
  | nil => intro q l h; exact ⟨q, rfl, by simpa using h⟩
  | cons x xs ih =>
    intro q l h
    obtain ⟨q1, he, hr⟩ := repr_enqueue x h
    obtain ⟨q2, he2, hr2⟩ := ih hr
    refine ⟨q2, by simp [enqueueAll, he, he2], ?_⟩
    simpa [specEnqueue] using hr2

theorem repr_dequeueN : ∀ (xs : List client) {q : Queue} {r : SpecQueue}, Repr q (xs ++ r) →
    ∃ q1, dequeueN xs.length q = some (xs, q1) ∧ Repr q1 r := by
  intro xs
  induction xs with
  | nil => intro q r h; exact ⟨q, rfl, by simpa using h⟩
  | cons x xs ih =>
    intro q r h
    obtain ⟨q1, hd, hr⟩ := repr_dequeue_cons (by simpa using h)
    obtain ⟨q2, hd2, hr2⟩ := ih hr
    exact ⟨q2, by simp [dequeueN, hd, hd2], hr2⟩

/-- C9: the linked queue refines a list of client ids.  `NewQueue` represents
the empty list with `Size` 0; `Enqueue` appends at the back; `Dequeue` on a
non-empty queue returns the front element with `ok = true` and leaves the rest;
`Dequeue` on an empty queue returns `("", false)` and the same queue; `Size` is
the length of the list; and after enqueuing `xs` on a new queue, `xs.length`
dequeues return `xs` in order and one more dequeue fails with `Size` 0. -/
theorem queue_refines_list :
    (Repr NewQueue [] ∧ NewQueue.Size = 0) ∧
    (∀ (q : Queue) (l : SpecQueue) (x : client), Repr q l →
      ∃ q1, q.Enqueue x = some q1 ∧ Repr q1 (specEnqueue l x)) ∧
    (∀ (q : Queue) (l : SpecQueue), Repr q l → l ≠ [] →
      ∃ q1, q.Dequeue = some ((specDequeue l).1, true, q1) ∧ (specDequeue l).2.1 = true ∧
        Repr q1 (specDequeue l).2.2) ∧
    (∀ (q : Queue), Repr q [] →
      q.Dequeue = some ("", false, q) ∧ specDequeue [] = ("", false, [])) ∧
    (∀ (q : Queue) (l : SpecQueue), Repr q l → q.Size = specSize l ∧ q.Size = (l.length : Int)) ∧
    (∀ xs : List client, ∃ q q1, enqueueAll NewQueue xs = some q ∧
      dequeueN xs.length q = some (xs, q1) ∧ q1.Dequeue = some ("", false, q1) ∧
      q1.Size = 0) := by
  refine ⟨⟨repr_new, rfl⟩, fun q l x h => repr_enqueue x h, ?_, ?_, ?_, ?_⟩
  · intro q l h hl
    cases l with
    | nil => exact absurd rfl hl
    | cons x xs =>
      obtain ⟨q1, hd, hr⟩ := repr_dequeue_cons h
      exact ⟨q1, hd, rfl, hr⟩
  · intro q h
    exact ⟨repr_dequeue_nil h, rfl⟩
  · intro q l h
    exact ⟨h.2.1, h.2.1⟩
  · intro xs
    obtain ⟨q, he, hr⟩ := repr_enqueueAll xs repr_new
    obtain ⟨q1, hd, hr1⟩ := repr_dequeueN xs (r := []) (by simpa using hr)
    exact ⟨q, q1, he, hd, repr_dequeue_nil hr1, by simpa [specSize] using hr1.2.1⟩

theorem queue_refines_list_witness :
    ∃ q q1, enqueueAll NewQueue ["item1", "item2"] = some q ∧
      dequeueN ["item1", "item2"].length q = some (["item1", "item2"], q1) ∧
      q1.Dequeue = some ("", false, q1) ∧ q1.Size = 0 :=
  queue_refines_list.2.2.2.2.2 ["item1", "item2"]

/-! ## Concrete runs -/

/-- C1: with one table, after `09:00 1 a` and `09:10 4 a` (a client who arrives
and leaves without sitting) the free-table counter is 2 while no table is
occupied, so counter plus occupied tables is 2 and not the table count 1. -/
theorem freeTables_after_unseated_leave :
    (processEvents (initOutputs walkThroughClub) walkThroughClub.events).map
      (fun c => (c.freeTables, c.tablesAndStartTime.length, c.countOfTables)) =
      some (2, 0, 1) := by
  rfl

set_option maxRecDepth 100000 in
/-- C2: on the worked example the output is the reference trace when the
billing loop visits the ledger in ascending table order, but when `range` starts
at the second entry (a permutation, which Go allows) the billing lines come out
as tables 2, 3, 1 and the output is not the reference trace. -/
theorem example_output_depends_on_range_order :
    (ProcessInput id exampleClub).map GetOutput = some exampleOutput ∧
    (∀ m, (rangeFromSecond m).Perm m) ∧
    (ProcessInput rangeFromSecond exampleClub).map GetOutput =
      some (exampleOutput.take 21 ++ ["2 30 02:18", "3 90 08:01", "1 70 05:58"]) ∧
    (ProcessInput rangeFromSecond exampleClub).map GetOutput ≠ some exampleOutput := by
  refine ⟨by rfl, fun m => List.rotate_perm m 1, by rfl, by decide⟩

/-- C7: with two tables used one after the other and a `range` over the ledger
that starts at its second entry (a permutation of the entries, which Go
allows), the billing lines are emitted as table 2 and then table 1, not in
ascending order of table id. -/
theorem billing_lines_follow_range_order :
    (∀ m, (rangeFromSecond m).Perm m) ∧
    (ProcessInput rangeFromSecond twoTablesClub).map GetOutput =
      some [ "09:00", "09:00 1 a", "09:00 2 a 1", "10:00 4 a", "10:00 1 b", "10:00 2 b 2",
             "10:30 4 b", "19:00", "2 10 00:30", "1 20 01:00" ] :=
  ⟨fun m => List.rotate_perm m 1, by rfl⟩

/-! ## Formatting facts -/

theorem fmtEvent_eq (t : Time) (k : Nat) (s : String) :
    fmtEvent t (k : Int) s = fmtTime t ++ (" " ++ toString k ++ " ") ++ s := by
  simp [fmtEvent, fmtD, String.append_assoc]
  rfl

theorem fmtEvent_exit (t : Time) (s : String) :
    fmtEvent t CLIENT_EXIT s = fmtTime t ++ " 11 " ++ s := fmtEvent_eq t 11 s

theorem fmtEvent_error (t : Time) (s : String) :
    fmtEvent t ERROR s = fmtTime t ++ " 13 " ++ s := fmtEvent_eq t 13 s

theorem fmtEvent_notOpenYet (t : Time) :
    fmtEvent t ERROR NOT_OPEN_YET = fmtTime t ++ " 13 NotOpenYet" := by
  rw [fmtEvent_error, String.append_assoc]
  rfl

/-! ## The end of the day -/

theorem updateTableUsage_eq (c : computerClub) (val : table) (t : Time) :
    updateTableUsage c val t =
      { c with tablesAndHours := (updateTableUsage c val t).tablesAndHours } := by
  unfold updateTableUsage
  cases GoMap.lookup c.tablesAndStartTime val <;> rfl

theorem flushUsage_eq (ks : List table) : ∀ c : computerClub,
    flushUsage c ks = { c with tablesAndHours := (flushUsage c ks).tablesAndHours } := by
  induction ks with
  | nil => intro c; rfl
  | cons k ks ih =>
    intro c
    have h1 : flushUsage c (k :: ks) = flushUsage (updateTableUsage c k c.endTime) ks := rfl
    rw [h1, ih, updateTableUsage_eq c k c.endTime]

theorem flushUsage_outputs (c : computerClub) (ks : List table) :
    (flushUsage c ks).outputs = c.outputs := by rw [flushUsage_eq]

theorem flushUsage_outputsAfterEnd (c : computerClub) (ks : List table) :
    (flushUsage c ks).outputsAfterEnd = c.outputsAfterEnd := by rw [flushUsage_eq]

theorem flushUsage_costOfHour (c : computerClub) (ks : List table) :
    (flushUsage c ks).costOfHour = c.costOfHour := by rw [flushUsage_eq]

theorem updateTableUsage_with_outputs (c : computerClub) (o : List String) (val : table)
    (t : Time) :
    updateTableUsage { c with outputs := o } val t =
      { updateTableUsage c val t with outputs := o } := by
  unfold updateTableUsage
  cases GoMap.lookup c.tablesAndStartTime val <;> rfl

theorem flushUsage_with_outputs (ks : List table) : ∀ (c : computerClub) (o : List String),
    flushUsage { c with outputs := o } ks = { flushUsage c ks with outputs := o } := by
  induction ks with
  | nil => intro c o; rfl
  | cons k ks ih =>
    intro c o
    have h1 : ∀ d : computerClub,
        flushUsage d (k :: ks) = flushUsage (updateTableUsage d k d.endTime) ks := fun _ => rfl
    rw [h1, h1, updateTableUsage_with_outputs, ih]

theorem billingLine_congr {c d : computerClub} (h : c.costOfHour = d.costOfHour) :
    billingLine c = billingLine d := by
  funext p
  simp [billingLine, calculatePrice, h]

/-- The lines of `processEndOfDay`: forced exits of the sorted clients, the
closing time, the billing lines in `range` order, the deferred lines. -/
theorem processEndOfDay_outputs (ro : RangeOrder) (c : computerClub) :
    (processEndOfDay ro c).outputs =
      c.outputs
        ++ (sortClients (GoMap.keys c.clients)).map (fun cl => fmtEvent c.endTime CLIENT_EXIT cl)
        ++ [fmtTime c.endTime]
        ++ (ro (flushUsage c (GoMap.keys c.tablesAndStartTime)).tablesAndHours).map
            (billingLine c)
        ++ c.outputsAfterEnd := by
  simp only [processEndOfDay, flushUsage_with_outputs, flushUsage_outputsAfterEnd]
  congr 2
  exact congrArg (fun f => List.map f _) (billingLine_congr (flushUsage_costOfHour c _))

/-! ## Sorting the clients -/

theorem clientLess_iff (a b : client) : clientLess a b = true ↔ a < b := by
  simp [clientLess, String.lt_iff_toList_lt, String.toList]

theorem insertClient_perm (x : client) : ∀ l : List client, (insertClient x l).Perm (x :: l) := by
  intro l
  induction l with
  | nil => exact List.Perm.refl _
  | cons y ys ih =>
    unfold insertClient
    by_cases h : clientLess y x = true
    · simp only [h, if_true]
      exact ((List.Perm.cons y ih).trans (List.Perm.swap x y ys))
    · simp only [h]
      exact List.Perm.refl _

theorem sortClients_perm : ∀ l : List client, (sortClients l).Perm l := by
  intro l
  induction l with
  | nil => exact List.Perm.refl _
  | cons x xs ih => exact (insertClient_perm x _).trans (List.Perm.cons x ih)

theorem insertClient_sorted (x : client) : ∀ l : List client,
    l.Sorted (fun a b => a ≤ b) → (insertClient x l).Sorted (fun a b => a ≤ b) := by
  intro l
  induction l with
  | nil => intro _; simp [insertClient]
  | cons y ys ih =>
    intro hs
    obtain ⟨hy, hys⟩ := List.sorted_cons.1 hs
    unfold insertClient
    by_cases h : clientLess y x = true
    · simp only [h, if_true]
      refine List.sorted_cons.2 ⟨?_, ih hys⟩
      intro z hz
      rcases List.mem_cons.1 ((insertClient_perm x ys).mem_iff.1 hz) with rfl | hz1
      · exact le_of_lt ((clientLess_iff y z).1 h)
      · exact hy z hz1
    · simp only [h]
      have hxy : x ≤ y := not_lt.1 (fun hlt => h ((clientLess_iff y x).2 hlt))
      refine List.sorted_cons.2 ⟨?_, hs⟩
      intro z hz
      rcases List.mem_cons.1 hz with rfl | hz1
      · exact hxy
      · exact le_trans hxy (hy z hz1)

theorem sortClients_sorted : ∀ l : List client, (sortClients l).Sorted (fun a b => a ≤ b) := by
  intro l
  induction l with
  | nil => simp [sortClients]
  | cons x xs ih => exact insertClient_sorted x _ ih

/-- The sorted slice does not depend on the order in which `range` delivered
the keys of the registry. -/
theorem sortClients_of_perm {l1 l2 : List client} (h : l1.Perm l2) :
    sortClients l1 = sortClients l2 :=
  List.eq_of_perm_of_sorted
    (((sortClients_perm l1).trans h).trans (sortClients_perm l2).symm)
    (sortClients_sorted l1) (sortClients_sorted l2)

/-- C8: at closing, for a registry with distinct keys, `processEndOfDay` appends
to the output one line `HH:MM 11 <client>` (HH:MM the closing time) per
registered client, in strictly ascending lexicographic order of client id,
directly followed by the closing-time line; after it come only the billing
lines and the deferred lines. -/
theorem processEndOfDay_forced_exits (ro : RangeOrder) (c : computerClub)
    (hnd : (GoMap.keys c.clients).Nodup) :
    ∃ cs : List client,
      cs.Perm (GoMap.keys c.clients) ∧ cs.Nodup ∧ cs.Sorted (fun a b => a < b) ∧
      (processEndOfDay ro c).outputs =
        c.outputs ++ cs.map (fun cl => fmtTime c.endTime ++ " 11 " ++ cl)
          ++ [fmtTime c.endTime]
          ++ (ro (flushUsage c (GoMap.keys c.tablesAndStartTime)).tablesAndHours).map
              (billingLine c)
          ++ c.outputsAfterEnd := by
  have hp := sortClients_perm (GoMap.keys c.clients)
  have hn : (sortClients (GoMap.keys c.clients)).Nodup := hp.nodup_iff.2 hnd
  refine ⟨sortClients (GoMap.keys c.clients), hp, hn,
    (sortClients_sorted _).lt_of_le hn, ?_⟩
  rw [processEndOfDay_outputs]
  simp only [fmtEvent_exit]

theorem processEndOfDay_forced_exits_witness :
    (GoMap.keys closingClub.clients).Nodup ∧
    ∃ cs : List client,
      cs.Perm (GoMap.keys closingClub.clients) ∧ cs.Nodup ∧ cs.Sorted (fun a b => a < b) ∧
      (processEndOfDay id closingClub).outputs =
        closingClub.outputs ++ cs.map (fun cl => fmtTime closingClub.endTime ++ " 11 " ++ cl)
          ++ [fmtTime closingClub.endTime]
          ++ (id (flushUsage closingClub
                (GoMap.keys closingClub.tablesAndStartTime)).tablesAndHours).map
              (billingLine closingClub)
          ++ closingClub.outputsAfterEnd :=
  ⟨by decide, processEndOfDay_forced_exits id closingClub (by decide)⟩

/-! ## Go maps as association lists -/

theorem GoMap.lookup_eq_none {κ ν : Type} [DecidableEq κ] (m : GoMap κ ν) (k : κ) :
    GoMap.lookup m k = none ↔ k ∉ GoMap.keys m := by
  induction m with
  | nil => simp [GoMap.lookup, GoMap.keys]
  | cons p m ih =>
    obtain ⟨k1, v1⟩ := p
    by_cases h : k1 = k
    · simp [GoMap.lookup, GoMap.keys, h]
    · have h2 : ¬ k = k1 := fun e => h e.symm
      simpa [GoMap.lookup, GoMap.keys, h, h2] using ih

theorem GoMap.mem_of_lookup {κ ν : Type} [DecidableEq κ] (m : GoMap κ ν) (k : κ) (v : ν)
    (h : GoMap.lookup m k = some v) : (k, v) ∈ m := by
  induction m with
  | nil => simp [GoMap.lookup] at h
  | cons p m ih =>
    obtain ⟨k1, v1⟩ := p
    by_cases hk : k1 = k
    · simp [GoMap.lookup, hk] at h
      simp [hk, h]
    · simp [GoMap.lookup, hk] at h
      exact List.mem_cons_of_mem _ (ih h)

theorem GoMap.mem_store {κ ν : Type} [DecidableEq κ] (m : GoMap κ ν) (k : κ) (v : ν)
    (p : κ × ν) (h : p ∈ GoMap.store m k v) : p = (k, v) ∨ p ∈ m := by
  induction m with
  | nil => simpa [GoMap.store] using h
  | cons q m ih =>
    obtain ⟨k1, v1⟩ := q
    by_cases hk : k1 = k
    · simp [GoMap.store, hk] at h
      rcases h with h | h
      · exact Or.inl h
      · exact Or.inr (List.mem_cons_of_mem _ h)
    · simp [GoMap.store, hk] at h
      rcases h with h | h
      · exact Or.inr (by simp [h])
      · rcases ih h with h1 | h1
        · exact Or.inl h1
        · exact Or.inr (List.mem_cons_of_mem _ h1)

theorem GoMap.keys_store_of_not_mem {κ ν : Type} [DecidableEq κ] (m : GoMap κ ν) (k : κ)
    (v : ν) (h : k ∉ GoMap.keys m) : GoMap.keys (GoMap.store m k v) = GoMap.keys m ++ [k] := by
  induction m with
  | nil => simp [GoMap.store, GoMap.keys]
  | cons q m ih =>
    obtain ⟨k1, v1⟩ := q
    have hk : ¬ k1 = k := by
      intro e
      apply h
      simp [GoMap.keys, e]
    have hm : k ∉ GoMap.keys m := by
      intro e
      apply h
      simp only [GoMap.keys, List.map_cons, List.mem_cons]
      exact Or.inr e
    have := ih hm
    simp only [GoMap.keys] at this
    simp [GoMap.store, GoMap.keys, hk, this]

theorem GoMap.keys_remove {κ ν : Type} [DecidableEq κ] (m : GoMap κ ν) (k : κ) :
    GoMap.keys (GoMap.remove m k) = (GoMap.keys m).filter (fun x => decide (x ≠ k)) := by
  simp only [GoMap.keys, GoMap.remove, List.filter_map]
  rfl

theorem GoMap.mem_remove {κ ν : Type} [DecidableEq κ] (m : GoMap κ ν) (k : κ) (p : κ × ν)
    (h : p ∈ GoMap.remove m k) : p ∈ m := List.mem_of_mem_filter h

theorem GoMap.length_keys {κ ν : Type} (m : GoMap κ ν) : (GoMap.keys m).length = m.length := by
  simp [GoMap.keys]

theorem GoMap.not_mem_keys_remove {κ ν : Type} [DecidableEq κ] (m : GoMap κ ν) (k : κ) :
    k ∉ GoMap.keys (GoMap.remove m k) := by
  simp [GoMap.keys_remove]

theorem GoMap.nodup_keys_remove {κ ν : Type} [DecidableEq κ] (m : GoMap κ ν) (k : κ)
    (h : (GoMap.keys m).Nodup) : (GoMap.keys (GoMap.remove m k)).Nodup := by
  rw [GoMap.keys_remove]
  exact h.filter _

theorem GoMap.length_remove_of_mem {κ ν : Type} [DecidableEq κ] (m : GoMap κ ν) (k : κ)
    (hnd : (GoMap.keys m).Nodup) (h : k ∈ GoMap.keys m) :
    (GoMap.remove m k).length + 1 = m.length := by
  have hf : (fun x : κ => decide (x ≠ k)) = (fun x => x != k) := by
    funext x
    by_cases hx : x = k <;> simp [hx]
  rw [← GoMap.length_keys, ← GoMap.length_keys, GoMap.keys_remove, hf,
    ← hnd.erase_eq_filter k, List.length_erase_of_mem h]
  have : 0 < (GoMap.keys m).length := List.length_pos_of_mem h
  omega

theorem GoMap.remove_of_not_mem {κ ν : Type} [DecidableEq κ] (m : GoMap κ ν) (k : κ)
    (h : k ∉ GoMap.keys m) : GoMap.remove m k = m := by
  unfold GoMap.remove
  rw [List.filter_eq_self]
  intro p hp
  have : p.1 ≠ k := by
    intro e
    apply h
    rw [← e]
    exact List.mem_map_of_mem _ hp
  simpa using this

/-! ## Invariants of the event loop -/

/-- An invariant that every iteration re-establishes holds after the loop. -/
theorem processEvents_invariant (P : computerClub → Prop) :
    ∀ (evs : List event) (c : computerClub),
      (∀ e ∈ evs, ∀ d, P d → ∃ d1, processOne d e = some d1 ∧ P d1) → P c →
      ∃ c1, processEvents c evs = some c1 ∧ P c1 := by
  intro evs
  induction evs with
  | nil => intro c _ hc; exact ⟨c, rfl, hc⟩
  | cons e es ih =>
    intro c hstep hc
    obtain ⟨d1, h1, hp1⟩ := hstep e (List.mem_cons_self e es) c hc
    obtain ⟨c1, h2, hp2⟩ := ih d1 (fun e1 he1 => hstep e1 (List.mem_cons_of_mem e he1)) hp1
    exact ⟨c1, by simp [processEvents, h1, h2], hp2⟩

theorem repr_size {q : Queue} {l : SpecQueue} (h : Repr q l) : q.Size = (l.length : Int) :=
  h.2.1

/-- A leave of a seated or unseated registered client while nobody waits. -/
theorem handleClientOut_of_repr_nil (c : computerClub) (e : event) (val : table)
    (hl : GoMap.lookup c.clients e.client = some val) (hq : Repr c.queueOfClients []) :
    handleClientOut c e = some
      { c with tablesAndHours := (updateTableUsage c val e.time).tablesAndHours,
               tablesAndStartTime := GoMap.remove c.tablesAndStartTime val,
               freeTables := wrapInt (c.freeTables + 1),
               clients := GoMap.remove c.clients e.client } := by
  have hs : c.queueOfClients.Size = 0 := by simpa using repr_size hq
  unfold handleClientOut
  rw [hl]
  simp only
  rw [updateTableUsage_eq]
  simp [processQueue, hs]

/-- A leave of a registered client while `x` is at the head of the queue. -/
theorem handleClientOut_of_repr_cons (c : computerClub) (e : event) (val : table)
    (x : client) (xs : SpecQueue)
    (hl : GoMap.lookup c.clients e.client = some val) (hq : Repr c.queueOfClients (x :: xs)) :
    ∃ q1, Repr q1 xs ∧ handleClientOut c e = some
      { c with tablesAndHours := (updateTableUsage c val e.time).tablesAndHours,
               tablesAndStartTime :=
                 GoMap.store (GoMap.remove c.tablesAndStartTime val) val e.time,
               freeTables := wrapInt (wrapInt (c.freeTables + 1) - 1),
               clients := GoMap.remove (GoMap.store (GoMap.store c.clients x val) x val) e.client,
               queueOfClients := q1,
               outputs := c.outputs ++ [fmtEventTable e.time CLIENT_POP_QUEUE x val] } := by
  have hs : c.queueOfClients.Size > 0 := by
    have := repr_size hq
    simp only [List.length_cons] at this
    omega
  obtain ⟨q1, hd, hr1⟩ := repr_dequeue_cons hq
  refine ⟨q1, hr1, ?_⟩
  unfold handleClientOut
  rw [hl]
  simp only
  rw [updateTableUsage_eq]
  simp [processQueue, hs, hd]

/-- A join of the queue when no table is free and the queue is not full. -/
theorem handleClientWait_enqueue (c : computerClub) (e : event) (l : SpecQueue)
    (hf : ¬ c.freeTables > 0) (hs : ¬ c.queueOfClients.Size = c.countOfTables)
    (hq : Repr c.queueOfClients l) :
    ∃ q1, Repr q1 (l ++ [e.client]) ∧
      handleClientWait c e = some { c with queueOfClients := q1 } := by
  obtain ⟨q1, he, hr1⟩ := repr_enqueue e.client hq
  refine ⟨q1, hr1, ?_⟩
  unfold handleClientWait
  simp [hf, hs, he]

theorem QueueInv_processOne (N : Int) (c : computerClub) (e : event) (h : QueueInv N c) :
    ∃ c1, processOne c e = some c1 ∧ QueueInv N c1 := by
  obtain ⟨hN, hsz, l, hr⟩ := h
  unfold processOne filterByTime
  split_ifs with h1 h2
  · exact ⟨_, rfl, hN, hsz, l, hr⟩
  · exact ⟨_, rfl, hN, hsz, l, hr⟩
  · simp only [processEvent]
    split_ifs with a1 a2 a3 a4
    · refine ⟨_, rfl, ?_⟩
      unfold handleClientIn
      split <;> exact ⟨hN, hsz, l, hr⟩
    · refine ⟨_, rfl, ?_⟩
      unfold handleClientTable
      split
      · exact ⟨hN, hsz, l, hr⟩
      · split <;> exact ⟨hN, hsz, l, hr⟩
    · by_cases w1 : c.freeTables > 0
      · simp only [handleClientWait, w1, if_true]
        exact ⟨_, rfl, hN, hsz, l, hr⟩
      · by_cases w2 : c.queueOfClients.Size = c.countOfTables
        · simp only [handleClientWait, w1, w2, if_true, if_false]
          exact ⟨_, rfl, hN, hsz, l, hr⟩
        · obtain ⟨q1, hr1, he⟩ := handleClientWait_enqueue
            { c with outputs := c.outputs ++ [e.source] } e l w1 w2 hr
          refine ⟨_, he, hN, ?_, _, hr1⟩
          have hs1 := repr_size hr1
          have hs0 := repr_size hr
          simp only [List.length_append, List.length_singleton] at hs1
          show q1.Size ≤ N
          rw [hN] at w2
          push_cast at hs1
          omega
    · cases hl : GoMap.lookup c.clients e.client with
      | none =>
        simp only [handleClientOut, hl]
        exact ⟨_, rfl, hN, hsz, l, hr⟩
      | some val =>
        cases l with
        | nil =>
          exact ⟨_, handleClientOut_of_repr_nil
            { c with outputs := c.outputs ++ [e.source] } e val hl hr, hN, hsz, [], hr⟩
        | cons x xs =>
          obtain ⟨q1, hr1, he⟩ := handleClientOut_of_repr_cons
            { c with outputs := c.outputs ++ [e.source] } e val x xs hl hr
          refine ⟨_, he, hN, ?_, _, hr1⟩
          have hs1 := repr_size hr1
          have hs0 := repr_size hr
          simp only [List.length_cons] at hs0
          show q1.Size ≤ N
          push_cast at hs0
          omega
    · exact ⟨_, rfl, hN, hsz, l, hr⟩

theorem QueueInv_init (N : Int) (start end_ : Time) (cost : Int) (evs : List event)
    (hN : 0 ≤ N) : QueueInv N (initOutputs (SetInput N start end_ cost evs)) :=
  ⟨rfl, hN, [], repr_new⟩

/-- C4: for a table count `N ≥ 0` and any events, the loop of `ProcessInput`
reaches a state after each event, and in it the wait queue's `Size` is at most
`N`. -/
theorem queue_size_le_countOfTables (N : Int) (start end_ : Time) (cost : Int)
    (evs : List event) (k : Nat) (hN : 0 ≤ N) :
    ∃ c, stateAfter (SetInput N start end_ cost evs) k = some c ∧
      c.queueOfClients.Size ≤ N := by
  obtain ⟨c, hc, hinv⟩ := processEvents_invariant (QueueInv N) (evs.take k) _
    (fun e _ d hd => QueueInv_processOne N d e hd) (QueueInv_init N start end_ cost evs hN)
  exact ⟨c, hc, hinv.2.1⟩

theorem queue_size_le_countOfTables_witness :
    (0 : Int) ≤ 3 ∧
    ∃ c, stateAfter (SetInput 3 (hm 9 0) (hm 19 0) 10 exampleEvents) 11 = some c ∧
      c.queueOfClients.Size ≤ 3 :=
  ⟨by decide, queue_size_le_countOfTables 3 (hm 9 0) (hm 19 0) 10 exampleEvents 11 (by decide)⟩

/-! ## The free-table counter -/

set_option maxRecDepth 100000 in
/-- C10: with the table count 9223372036854775807, which is not negative, and
the events `09:00 1 a`, `09:10 4 a`, none of which is a SitAtTable, the
free-table counter is the table count after the first event and
-9223372036854775808 after the second: the increment that `handleClientOut`
performs for a leaver without a table wraps around, and the counter is
negative. -/
theorem freeTables_negative_after_unseated_leave :
    (0 : Int) ≤ maxTablesClub.countOfTables ∧ isInt maxTablesClub.countOfTables ∧
    (∀ e ∈ maxTablesClub.events, e.action = CLIENT_TABLE →
      1 ≤ e.table ∧ e.table ≤ maxTablesClub.countOfTables) ∧
    (stateAfter maxTablesClub 1).map (fun c => c.freeTables) = some 9223372036854775807 ∧
    (stateAfter maxTablesClub 2).map (fun c => c.freeTables) = some (-9223372036854775808) ∧
    (stateAfter maxTablesClub 2).map (fun c => decide (c.freeTables < 0)) = some true := by
  refine ⟨by decide, by unfold isInt; decide, by decide, by rfl, by rfl, by rfl⟩

theorem length_le_of_nodup_bounds (l : List Int) (N : Int) (hN : 0 ≤ N) (hnd : l.Nodup)
    (hb : ∀ k ∈ l, 0 ≤ k ∧ k ≤ N) :
    (l.length : Int) ≤ N + (if (0 : Int) ∈ l then 1 else 0) := by
  have hcard : l.toFinset.card = l.length := List.toFinset_card_of_nodup hnd
  by_cases h0 : (0 : Int) ∈ l
  · have hsub : l.toFinset ⊆ Finset.Icc 0 N := by
      intro x hx
      have := hb x (List.mem_toFinset.1 hx)
      exact Finset.mem_Icc.2 this
    have := Finset.card_le_card hsub
    rw [hcard, Int.card_Icc] at this
    simp only [h0, if_true]
    omega
  · have hsub : l.toFinset ⊆ Finset.Icc 1 N := by
      intro x hx
      have hx1 := List.mem_toFinset.1 hx
      have := hb x hx1
      have hne : x ≠ 0 := fun e => h0 (e ▸ hx1)
      exact Finset.mem_Icc.2 ⟨by omega, this.2⟩
    have := Finset.card_le_card hsub
    rw [hcard, Int.card_Icc] at this
    simp only [h0, if_false]
    omega

theorem FreeInv_counter_nonneg {N : Int} {c : computerClub} (hN : 0 ≤ N)
    (h : FreeInv N c) : 0 ≤ c.freeTables := by
  obtain ⟨_, _, hnd, hb, _, hsum⟩ := h
  have := length_le_of_nodup_bounds _ N hN hnd hb
  rw [GoMap.length_keys] at this
  omega

theorem FreeInv_with_outputs {N : Int} {c : computerClub} (o : List String)
    (h : FreeInv N c) : FreeInv N { c with outputs := o } := h

theorem FreeInv_sit {N : Int} {c : computerClub} (e : event) (tb : Int)
    (ht : 1 ≤ tb ∧ tb ≤ N)
    (hfree : GoMap.lookup c.tablesAndStartTime tb = none) (h : FreeInv N c) :
    FreeInv N { c with
      tablesAndStartTime := GoMap.store c.tablesAndStartTime tb e.time,
      clients := GoMap.store c.clients e.client tb,
      freeTables := c.freeTables - 1 } := by
  obtain ⟨hN, hq, hnd, hb, hcl, hsum⟩ := h
  have hnot : tb ∉ GoMap.keys c.tablesAndStartTime :=
    (GoMap.lookup_eq_none _ _).1 hfree
  have hkeys := GoMap.keys_store_of_not_mem c.tablesAndStartTime tb e.time hnot
  have hlen : ((GoMap.store c.tablesAndStartTime tb e.time).length : Int)
      = (c.tablesAndStartTime.length : Int) + 1 := by
    rw [← GoMap.length_keys, hkeys, List.length_append, GoMap.length_keys]
    simp
  refine ⟨hN, hq, ?_, ?_, ?_, ?_⟩
  · show (GoMap.keys (GoMap.store c.tablesAndStartTime tb e.time)).Nodup
    rw [hkeys]
    exact List.Nodup.append hnd (List.nodup_singleton _) (by simpa using hnot)
  · intro k hk
    change k ∈ GoMap.keys (GoMap.store c.tablesAndStartTime tb e.time) at hk
    rw [hkeys, List.mem_append, List.mem_singleton] at hk
    rcases hk with hk | hk
    · exact hb k hk
    · subst hk
      exact ⟨by omega, ht.2⟩
  · intro x k hp
    rcases GoMap.mem_store _ _ _ _ hp with hp1 | hp1
    · have hk : k = tb := (Prod.mk.inj hp1).2
      subst hk
      exact ⟨by omega, ht.2⟩
    · exact hcl x k hp1
  · show N + (if (0 : Int) ∈ GoMap.keys (GoMap.store c.tablesAndStartTime tb e.time)
        then 1 else 0)
      ≤ c.freeTables - 1 + ((GoMap.store c.tablesAndStartTime tb e.time).length : Int)
    have hiff : (0 : Int) ∈ GoMap.keys (GoMap.store c.tablesAndStartTime tb e.time) ↔
        (0 : Int) ∈ GoMap.keys c.tablesAndStartTime := by
      rw [hkeys, List.mem_append, List.mem_singleton]
      constructor
      · rintro (h0 | h0)
        · exact h0
        · omega
      · exact Or.inl
    rw [hlen]
    simp only [hiff]
    omega

theorem FreeInv_leave_nil {N : Int} {c : computerClub} (cl : client) (val : Int)
    (hh : GoMap table Duration) (h : FreeInv N c) :
    FreeInv N { c with
      tablesAndHours := hh,
      tablesAndStartTime := GoMap.remove c.tablesAndStartTime val,
      freeTables := c.freeTables + 1,
      clients := GoMap.remove c.clients cl } := by
  obtain ⟨hN, hq, hnd, hb, hcl, hsum⟩ := h
  have hsubk : ∀ k : Int, k ∈ GoMap.keys (GoMap.remove c.tablesAndStartTime val) →
      k ∈ GoMap.keys c.tablesAndStartTime := by
    intro k hk
    rw [GoMap.keys_remove] at hk
    exact List.mem_of_mem_filter hk
  refine ⟨hN, hq, GoMap.nodup_keys_remove _ _ hnd, fun k hk => hb k (hsubk k hk),
    fun x k hp => hcl x k (GoMap.mem_remove _ _ _ hp), ?_⟩
  show N + (if (0 : Int) ∈ GoMap.keys (GoMap.remove c.tablesAndStartTime val) then 1 else 0)
    ≤ c.freeTables + 1 + ((GoMap.remove c.tablesAndStartTime val).length : Int)
  have hind : (if (0 : Int) ∈ GoMap.keys (GoMap.remove c.tablesAndStartTime val)
      then (1 : Int) else 0) ≤ (if (0 : Int) ∈ GoMap.keys c.tablesAndStartTime then 1 else 0) := by
    by_cases h0 : (0 : Int) ∈ GoMap.keys (GoMap.remove c.tablesAndStartTime val)
    · simp [h0, hsubk 0 h0]
    · simp only [h0, if_false]
      split_ifs <;> omega
  by_cases hv : val ∈ GoMap.keys c.tablesAndStartTime
  · have hlen := GoMap.length_remove_of_mem c.tablesAndStartTime val hnd hv
    omega
  · rw [GoMap.remove_of_not_mem _ _ hv] at hind ⊢
    omega

theorem FreeInv_leave_cons {N : Int} {c : computerClub} (cl x : client) (val : Int)
    (t : Time) (hh : GoMap table Duration) (o : List String) (q1 : Queue) (xs : SpecQueue)
    (hq1 : Repr q1 xs) (hval : 0 ≤ val ∧ val ≤ N) (h : FreeInv N c) :
    FreeInv N { c with
      tablesAndHours := hh,
      tablesAndStartTime := GoMap.store (GoMap.remove c.tablesAndStartTime val) val t,
      freeTables := c.freeTables + 1 - 1,
      clients := GoMap.remove (GoMap.store (GoMap.store c.clients x val) x val) cl,
      queueOfClients := q1,
      outputs := o } := by
  obtain ⟨hN, hq, hnd, hb, hcl, hsum⟩ := h
  have hsubk : ∀ k : Int, k ∈ GoMap.keys (GoMap.remove c.tablesAndStartTime val) →
      k ∈ GoMap.keys c.tablesAndStartTime := by
    intro k hk
    rw [GoMap.keys_remove] at hk
    exact List.mem_of_mem_filter hk
  have hnot := GoMap.not_mem_keys_remove c.tablesAndStartTime val
  have hkeys := GoMap.keys_store_of_not_mem (GoMap.remove c.tablesAndStartTime val) val t hnot
  have hlen : ((GoMap.store (GoMap.remove c.tablesAndStartTime val) val t).length : Int)
      = ((GoMap.remove c.tablesAndStartTime val).length : Int) + 1 := by
    rw [← GoMap.length_keys, hkeys, List.length_append, GoMap.length_keys]
    simp
  refine ⟨hN, ⟨xs, hq1⟩, ?_, ?_, ?_, ?_⟩
  · show (GoMap.keys (GoMap.store (GoMap.remove c.tablesAndStartTime val) val t)).Nodup
    rw [hkeys]
    exact List.Nodup.append (GoMap.nodup_keys_remove _ _ hnd) (List.nodup_singleton _)
      (by simpa using hnot)
  · intro k hk
    change k ∈ GoMap.keys (GoMap.store (GoMap.remove c.tablesAndStartTime val) val t) at hk
    rw [hkeys, List.mem_append, List.mem_singleton] at hk
    rcases hk with hk | hk
    · exact hb k (hsubk k hk)
    · subst hk
      exact hval
  · intro y k hp
    have hp1 := GoMap.mem_remove _ _ _ hp
    rcases GoMap.mem_store _ _ _ _ hp1 with hp2 | hp2
    · have hk : k = val := (Prod.mk.inj hp2).2
      subst hk
      exact hval
    · rcases GoMap.mem_store _ _ _ _ hp2 with hp3 | hp3
      · have hk : k = val := (Prod.mk.inj hp3).2
        subst hk
        exact hval
      · exact hcl y k hp3
  · show N + (if (0 : Int) ∈
        GoMap.keys (GoMap.store (GoMap.remove c.tablesAndStartTime val) val t) then 1 else 0)
      ≤ c.freeTables + 1 - 1 +
        ((GoMap.store (GoMap.remove c.tablesAndStartTime val) val t).length : Int)
    rw [hlen]
    by_cases hv : val ∈ GoMap.keys c.tablesAndStartTime
    · have hlen2 := GoMap.length_remove_of_mem c.tablesAndStartTime val hnd hv
      have hind : (if (0 : Int) ∈
          GoMap.keys (GoMap.store (GoMap.remove c.tablesAndStartTime val) val t)
          then (1 : Int) else 0)
          ≤ (if (0 : Int) ∈ GoMap.keys c.tablesAndStartTime then 1 else 0) := by
        by_cases h0 : (0 : Int) ∈
            GoMap.keys (GoMap.store (GoMap.remove c.tablesAndStartTime val) val t)
        · have h1 : (0 : Int) ∈ GoMap.keys c.tablesAndStartTime := by
            rw [hkeys, List.mem_append, List.mem_singleton] at h0
            rcases h0 with h0 | h0
            · exact hsubk 0 h0
            · rw [h0]; exact hv
          simp [h0, h1]
        · simp only [h0, if_false]
          split_ifs <;> omega
      omega
    · rw [GoMap.remove_of_not_mem _ _ hv]
      have hind : (if (0 : Int) ∈ GoMap.keys (GoMap.store c.tablesAndStartTime val t)
          then (1 : Int) else 0) ≤ 1 := by
        split_ifs <;> omega
      have hind2 : (0 : Int) ≤ (if (0 : Int) ∈ GoMap.keys c.tablesAndStartTime then 1 else 0) := by
        split_ifs <;> omega
      omega

/-- One dispatched event keeps the bookkeeping and raises the counter by at
most one, as long as the increment does not overflow. -/
theorem FreeInv_processEvent (N : Int) (hN0 : 0 ≤ N) (d : computerClub) (e : event)
    (ht : e.action = CLIENT_TABLE → 1 ≤ e.table ∧ e.table ≤ N) (h0 : FreeInv N d)
    (hU : d.freeTables + 1 < 2 ^ 63) :
    ∃ c1, processEvent d e = some c1 ∧ FreeInv N c1 ∧ c1.freeTables ≤ d.freeTables + 1 := by
  have hnn : 0 ≤ d.freeTables := FreeInv_counter_nonneg hN0 h0
  have hdec : wrapInt (d.freeTables - 1) = d.freeTables - 1 :=
    wrapInt_of_isInt (by unfold isInt; omega)
  have hinc : wrapInt (d.freeTables + 1) = d.freeTables + 1 :=
    wrapInt_of_isInt (by unfold isInt; omega)
  have hincdec : wrapInt (wrapInt (d.freeTables + 1) - 1) = d.freeTables + 1 - 1 := by
    rw [hinc]
    exact wrapInt_of_isInt (by unfold isInt; omega)
  simp only [processEvent]
  split_ifs with a1 a2 a3 a4
  · refine ⟨_, rfl, ?_, ?_⟩
    · unfold handleClientIn
      split
      · exact h0
      · obtain ⟨hN, hq, hnd, hb, hcl, hsum⟩ := h0
        refine ⟨hN, hq, hnd, hb, ?_, hsum⟩
        intro x k hp
        rcases GoMap.mem_store _ _ _ _ hp with hp1 | hp1
        · have hk : k = 0 := (Prod.mk.inj hp1).2
          subst hk
          exact ⟨le_refl _, hN0⟩
        · exact hcl x k hp1
    · unfold handleClientIn
      split
      · show d.freeTables ≤ d.freeTables + 1
        omega
      · show d.freeTables ≤ d.freeTables + 1
        omega
  · refine ⟨_, rfl, ?_, ?_⟩
    · unfold handleClientTable
      split
      · exact h0
      · split
        · exact h0
        · rename_i hfree
          rw [hdec]
          exact FreeInv_sit e e.table (ht a2) hfree h0
    · unfold handleClientTable
      split
      · show d.freeTables ≤ d.freeTables + 1
        omega
      · split
        · show d.freeTables ≤ d.freeTables + 1
          omega
        · show wrapInt (d.freeTables - 1) ≤ d.freeTables + 1
          rw [hdec]
          omega
  · obtain ⟨l, hr⟩ := h0.2.1
    by_cases w1 : d.freeTables > 0
    · simp only [handleClientWait, w1, if_true]
      exact ⟨_, rfl, h0, by show d.freeTables ≤ d.freeTables + 1; omega⟩
    · by_cases w2 : d.queueOfClients.Size = d.countOfTables
      · simp only [handleClientWait, w1, w2, if_true, if_false]
        exact ⟨_, rfl, h0, by show d.freeTables ≤ d.freeTables + 1; omega⟩
      · obtain ⟨q1, hr1, he⟩ := handleClientWait_enqueue d e l w1 w2 hr
        exact ⟨_, he, ⟨h0.1, ⟨_, hr1⟩, h0.2.2⟩,
          by show d.freeTables ≤ d.freeTables + 1; omega⟩
  · obtain ⟨l, hr⟩ := h0.2.1
    cases hl : GoMap.lookup d.clients e.client with
    | none =>
      simp only [handleClientOut, hl]
      exact ⟨_, rfl, h0, by show d.freeTables ≤ d.freeTables + 1; omega⟩
    | some val =>
      have hval : (0 : Int) ≤ val ∧ val ≤ N :=
        h0.2.2.2.2.1 e.client val (GoMap.mem_of_lookup _ _ _ hl)
      cases l with
      | nil =>
        have he := handleClientOut_of_repr_nil d e val hl hr
        rw [hinc] at he
        exact ⟨_, he, FreeInv_leave_nil e.client val _ h0, le_refl _⟩
      | cons x xs =>
        obtain ⟨q1, hr1, he⟩ := handleClientOut_of_repr_cons d e val x xs hl hr
        rw [hincdec] at he
        refine ⟨_, he, FreeInv_leave_cons e.client x val e.time _ _ q1 xs hr1 hval h0, ?_⟩
        show d.freeTables + 1 - 1 ≤ d.freeTables + 1
        omega
  · exact ⟨_, rfl, h0, by omega⟩

theorem FreeInv_processOne (N : Int) (hN0 : 0 ≤ N) (c : computerClub) (e : event)
    (ht : e.action = CLIENT_TABLE → 1 ≤ e.table ∧ e.table ≤ N) (h : FreeInv N c)
    (hU : c.freeTables + 1 < 2 ^ 63) :
    ∃ c1, processOne c e = some c1 ∧ FreeInv N c1 ∧ c1.freeTables ≤ c.freeTables + 1 := by
  unfold processOne filterByTime
  split_ifs with h1 h2
  · exact ⟨_, rfl, h, by show c.freeTables ≤ c.freeTables + 1; omega⟩
  · exact ⟨_, rfl, h, by show c.freeTables ≤ c.freeTables + 1; omega⟩
  · exact FreeInv_processEvent N hN0 _ e ht h hU

theorem FreeInv_init (N : Int) (start end_ : Time) (cost : Int) (evs : List event) :
    FreeInv N (initOutputs (SetInput N start end_ cost evs)) := by
  refine ⟨rfl, ⟨[], repr_new⟩, List.nodup_nil, ?_, ?_, ?_⟩
  · intro k hk
    exact absurd hk (List.not_mem_nil k)
  · intro x k hk
    exact absurd hk (List.not_mem_nil _)
  · show N + (if (0 : Int) ∈ ([] : List Int) then 1 else 0) ≤ N + ((0 : Nat) : Int)
    simp

theorem processEvents_freeTables (N : Int) (hN : 0 ≤ N) : ∀ (evs : List event)
    (c : computerClub), FreeInv N c → c.freeTables + (evs.length : Int) < 2 ^ 63 →
    (∀ e ∈ evs, e.action = CLIENT_TABLE → 1 ≤ e.table ∧ e.table ≤ N) →
    ∀ k : Nat, ∃ d, processEvents c (evs.take k) = some d ∧ 0 ≤ d.freeTables := by
  intro evs
  induction evs with
  | nil =>
    intro c h _ _ k
    exact ⟨c, by simp [processEvents], FreeInv_counter_nonneg hN h⟩
  | cons e es ih =>
    intro c h hB ht k
    cases k with
    | zero => exact ⟨c, by simp [processEvents], FreeInv_counter_nonneg hN h⟩
    | succ k =>
      have hlen : ((e :: es).length : Int) = (es.length : Int) + 1 := by simp
      have hnn : 0 ≤ c.freeTables := FreeInv_counter_nonneg hN h
      obtain ⟨c1, h1, hinv1, hle⟩ := FreeInv_processOne N hN c e
        (ht e (List.mem_cons_self e es)) h (by omega)
      obtain ⟨d, hd, hd0⟩ := ih c1 hinv1 (by omega)
        (fun e1 he1 => ht e1 (List.mem_cons_of_mem e he1)) k
      exact ⟨d, by simp [processEvents, h1, hd], hd0⟩

/-- Below the overflow of the counter it is never negative: for a table count
`N ≥ 0`, events whose SitAtTable events name a table in `1..N`, and
`N` plus the number of events below `2^63`, the loop of `ProcessInput` reaches a
state after each event, and in it the free-table counter is not negative. -/
theorem freeTables_nonneg_below_overflow (N : Int) (start end_ : Time) (cost : Int)
    (evs : List event) (k : Nat) (hN : 0 ≤ N) (hB : N + (evs.length : Int) < 2 ^ 63)
    (ht : ∀ e ∈ evs, e.action = CLIENT_TABLE → 1 ≤ e.table ∧ e.table ≤ N) :
    ∃ c, stateAfter (SetInput N start end_ cost evs) k = some c ∧ 0 ≤ c.freeTables :=
  processEvents_freeTables N hN evs (initOutputs (SetInput N start end_ cost evs))
    (FreeInv_init N start end_ cost evs) hB ht k

/-! ## Rejected events -/

theorem fmtEventTable_pop (t : Time) (x : client) (v : table) :
    fmtEventTable t CLIENT_POP_QUEUE x v = fmtTime t ++ " 12 " ++ (x ++ " " ++ fmtD v) := by
  have h := fmtEvent_eq t 12 (x ++ " " ++ fmtD v)
  simp only [fmtEvent, String.append_assoc] at h
  simp only [fmtEventTable, String.append_assoc]
  exact h

theorem pop_line_ne_error_line (t : Time) (x : client) (v : table) (msg : String) :
    fmtEventTable t CLIENT_POP_QUEUE x v ≠ fmtEvent t ERROR msg := by
  rw [fmtEventTable_pop, fmtEvent_error]
  intro h
  have hd := congrArg String.data h
  simp only [String.data_append, List.append_assoc] at hd
  have hd1 := List.append_cancel_left hd
  simp at hd1

theorem list_ne_append_two {α : Type} (l : List α) (a b : α) : l ≠ l ++ [a, b] := by
  intro h
  have := congrArg List.length h
  simp at this

theorem append_one_ne_append_two {α : Type} (l : List α) (a b d : α) :
    l ++ [a] ≠ l ++ [b, d] := by
  intro h
  have := congrArg List.length h
  simp at this

theorem not_error_of_source_only (c : computerClub) {c1 : computerClub} {e : event}
    {msg : String}
    (herr : c1.outputs = c.outputs ++ [e.source, fmtEvent e.time ERROR msg] ∨
      c1.outputsAfterEnd = c.outputsAfterEnd ++ [e.source, fmtEvent e.time ERROR msg])
    (ho : c1.outputs = c.outputs ++ [e.source])
    (ha : c1.outputsAfterEnd = c.outputsAfterEnd) :
    False := by
  rcases herr with h | h
  · rw [ho] at h
    exact append_one_ne_append_two _ _ _ _ h
  · rw [ha] at h
    exact list_ne_append_two _ _ _ h

theorem not_error_of_pop (c : computerClub) {c1 : computerClub} {e : event} {msg : String}
    (x : client) (v : table)
    (herr : c1.outputs = c.outputs ++ [e.source, fmtEvent e.time ERROR msg] ∨
      c1.outputsAfterEnd = c.outputsAfterEnd ++ [e.source, fmtEvent e.time ERROR msg])
    (ho : c1.outputs = c.outputs ++ [e.source] ++ [fmtEventTable e.time CLIENT_POP_QUEUE x v])
    (ha : c1.outputsAfterEnd = c.outputsAfterEnd) :
    False := by
  rcases herr with h | h
  · rw [ho] at h
    simp only [List.append_assoc, List.singleton_append] at h
    have h1 := List.append_cancel_left h
    simp only [List.cons.injEq, true_and, and_true] at h1
    exact pop_line_ne_error_line _ _ _ _ h1
  · rw [ha] at h
    exact list_ne_append_two _ _ _ h

/-- C5: if one iteration of the loop on event `e` appends an ERROR line (a
line `HH:MM 13 <message>` after the event's own text, in the output or in the
deferred buffer), then the registry, the occupancy map, the ledger, the queue
and the free-table counter are what they were before. -/
theorem error_line_keeps_state (c c1 : computerClub) (e : event) (msg : String)
    (hstep : processOne c e = some c1)
    (herr : c1.outputs = c.outputs ++ [e.source, fmtEvent e.time ERROR msg] ∨
      c1.outputsAfterEnd = c.outputsAfterEnd ++ [e.source, fmtEvent e.time ERROR msg]) :
    c1.clients = c.clients ∧ c1.tablesAndStartTime = c.tablesAndStartTime ∧
    c1.tablesAndHours = c.tablesAndHours ∧ c1.queueOfClients = c.queueOfClients ∧
    c1.freeTables = c.freeTables := by
  unfold processOne filterByTime at hstep
  split_ifs at hstep with h1 h2
  · cases hstep
    exact ⟨rfl, rfl, rfl, rfl, rfl⟩
  · cases hstep
    exact ⟨rfl, rfl, rfl, rfl, rfl⟩
  · simp only [processEvent] at hstep
    split_ifs at hstep with a1 a2 a3 a4
    · unfold handleClientIn at hstep
      split at hstep
      · cases hstep
        exact ⟨rfl, rfl, rfl, rfl, rfl⟩
      · cases hstep
        exact (not_error_of_source_only c herr rfl rfl).elim
    · unfold handleClientTable at hstep
      split at hstep
      · cases hstep
        exact ⟨rfl, rfl, rfl, rfl, rfl⟩
      · split at hstep
        · cases hstep
          exact ⟨rfl, rfl, rfl, rfl, rfl⟩
        · cases hstep
          exact (not_error_of_source_only c herr rfl rfl).elim
    · unfold handleClientWait at hstep
      split_ifs at hstep with w1 w2
      · cases hstep
        exact ⟨rfl, rfl, rfl, rfl, rfl⟩
      · cases hstep
        exact ⟨rfl, rfl, rfl, rfl, rfl⟩
      · cases hq : c.queueOfClients.Enqueue e.client with
        | none => simp [hq] at hstep
        | some q1 =>
          simp only [hq, Option.map_some'] at hstep
          cases hstep
          exact (not_error_of_source_only c herr rfl rfl).elim
    · unfold handleClientOut at hstep
      split at hstep
      · cases hstep
        exact ⟨rfl, rfl, rfl, rfl, rfl⟩
      · rename_i val hl
        simp only at hstep
        rw [updateTableUsage_eq] at hstep
        unfold processQueue at hstep
        simp only at hstep
        split_ifs at hstep with s1
        · cases hd : c.queueOfClients.Dequeue with
          | none => simp [hd] at hstep
          | some r =>
            obtain ⟨x, ok, q1⟩ := r
            cases ok with
            | true =>
              simp only [hd, if_true, Option.map_some'] at hstep
              cases hstep
              exact (not_error_of_pop c x val herr rfl rfl).elim
            | false =>
              simp only [hd, Option.map_some'] at hstep
              cases hstep
              exact (not_error_of_source_only c herr rfl rfl).elim
        · simp only [Option.map_some'] at hstep
          cases hstep
          exact (not_error_of_source_only c herr rfl rfl).elim
    · cases hstep
      exact (not_error_of_source_only c herr rfl rfl).elim

theorem error_line_keeps_state_witness :
    processOne busyClub busyEvent = some busyClubAfter ∧
    (busyClubAfter.outputs =
        busyClub.outputs ++ [busyEvent.source, fmtEvent busyEvent.time ERROR PLACE_IS_BUSY] ∨
      busyClubAfter.outputsAfterEnd = busyClub.outputsAfterEnd ++
        [busyEvent.source, fmtEvent busyEvent.time ERROR PLACE_IS_BUSY]) ∧
    (busyClubAfter.clients = busyClub.clients ∧
      busyClubAfter.tablesAndStartTime = busyClub.tablesAndStartTime ∧
      busyClubAfter.tablesAndHours = busyClub.tablesAndHours ∧
      busyClubAfter.queueOfClients = busyClub.queueOfClients ∧
      busyClubAfter.freeTables = busyClub.freeTables) :=
  ⟨by rfl, Or.inl (by rfl),
    error_line_keeps_state busyClub busyClubAfter busyEvent PLACE_IS_BUSY (by rfl)
      (Or.inl (by rfl))⟩

/-! ## Deferred lines -/

theorem updateTableUsage_withAfterEnd (a : List String) (c : computerClub) (val : table)
    (t : Time) :
    updateTableUsage (withAfterEnd a c) val t = withAfterEnd a (updateTableUsage c val t) := by
  unfold updateTableUsage withAfterEnd
  cases GoMap.lookup c.tablesAndStartTime val <;> rfl

theorem processQueue_withAfterEnd (a : List String) (c : computerClub) (e : event)
    (val : table) :
    processQueue (withAfterEnd a c) e val = (processQueue c e val).map (withAfterEnd a) := by
  unfold processQueue withAfterEnd
  simp only
  split_ifs with h
  · cases hd : c.queueOfClients.Dequeue with
    | none => rfl
    | some r =>
      obtain ⟨x, ok, q1⟩ := r
      cases ok <;> rfl
  · rfl

theorem handleClientOut_withAfterEnd (a : List String) (c : computerClub) (e : event) :
    handleClientOut (withAfterEnd a c) e = (handleClientOut c e).map (withAfterEnd a) := by
  unfold handleClientOut
  have hc : (withAfterEnd a c).clients = c.clients := rfl
  rw [hc]
  cases GoMap.lookup c.clients e.client with
  | none => rfl
  | some val =>
    simp only
    rw [updateTableUsage_withAfterEnd]
    have h := processQueue_withAfterEnd a
      { updateTableUsage c val e.time with
        tablesAndStartTime := GoMap.remove (updateTableUsage c val e.time).tablesAndStartTime val,
        freeTables := wrapInt ((updateTableUsage c val e.time).freeTables + 1) } e val
    simp only [withAfterEnd] at h ⊢
    rw [h]
    cases processQueue _ e val <;> rfl

theorem processEvent_withAfterEnd (a : List String) (c : computerClub) (e : event) :
    processEvent (withAfterEnd a c) e = (processEvent c e).map (withAfterEnd a) := by
  unfold processEvent
  split_ifs
  · unfold handleClientIn withAfterEnd
    simp only [Option.map_some']
    cases GoMap.lookup c.clients e.client <;> rfl
  · unfold handleClientTable withAfterEnd
    simp only [Option.map_some']
    cases GoMap.lookup c.clients e.client with
    | none => rfl
    | some v => cases GoMap.lookup c.tablesAndStartTime e.table <;> rfl
  · unfold handleClientWait withAfterEnd
    simp only
    split_ifs
    · rfl
    · rfl
    · cases c.queueOfClients.Enqueue e.client <;> rfl
  · exact handleClientOut_withAfterEnd a c e
  · rfl

theorem processOne_deferred (c : computerClub) (e : event)
    (h : isDeferred c.startTime c.endTime e = true) :
    processOne c e = some (withAfterEnd
      (c.outputsAfterEnd ++ [e.source, fmtTime e.time ++ " 13 NotOpenYet"]) c) := by
  simp only [isDeferred, decide_eq_true_eq] at h
  unfold processOne filterByTime
  simp only [h.1, h.2, if_true, if_false, fmtEvent_notOpenYet]
  rfl

theorem processOne_withAfterEnd (a : List String) (c : computerClub) (e : event)
    (h : isDeferred c.startTime c.endTime e = false) :
    processOne (withAfterEnd a c) e = (processOne c e).map (withAfterEnd a) := by
  simp only [isDeferred, decide_eq_false_iff_not, not_and, not_not] at h
  unfold processOne filterByTime
  have hs : (withAfterEnd a c).startTime = c.startTime := rfl
  have he : (withAfterEnd a c).endTime = c.endTime := rfl
  rw [hs, he]
  by_cases h1 : c.startTime > e.time
  · simp only [h1, if_true]
    rfl
  · have h2 : ¬ c.endTime < e.time := h h1
    simp only [h1, h2, if_false]
    exact processEvent_withAfterEnd a { c with outputs := c.outputs ++ [e.source] } e

theorem processOne_times (c c1 : computerClub) (e : event) (h : processOne c e = some c1) :
    c1.startTime = c.startTime ∧ c1.endTime = c.endTime := by
  unfold processOne filterByTime at h
  split_ifs at h with h1 h2
  · cases h; exact ⟨rfl, rfl⟩
  · cases h; exact ⟨rfl, rfl⟩
  · simp only [processEvent] at h
    split_ifs at h with a1 a2 a3 a4
    · unfold handleClientIn at h
      split at h <;> cases h <;> exact ⟨rfl, rfl⟩
    · unfold handleClientTable at h
      split at h
      · cases h; exact ⟨rfl, rfl⟩
      · split at h <;> cases h <;> exact ⟨rfl, rfl⟩
    · unfold handleClientWait at h
      split_ifs at h with w1 w2
      · cases h; exact ⟨rfl, rfl⟩
      · cases h; exact ⟨rfl, rfl⟩
      · cases hq : c.queueOfClients.Enqueue e.client with
        | none => simp [hq] at h
        | some q1 =>
          simp only [hq, Option.map_some'] at h
          cases h
          exact ⟨rfl, rfl⟩
    · unfold handleClientOut at h
      split at h
      · cases h; exact ⟨rfl, rfl⟩
      · rename_i val hl
        simp only at h
        rw [updateTableUsage_eq] at h
        unfold processQueue at h
        simp only at h
        split_ifs at h with s1
        · cases hd : c.queueOfClients.Dequeue with
          | none => simp [hd] at h
          | some r =>
            obtain ⟨x, ok, q1⟩ := r
            cases ok with
            | true =>
              simp only [hd, if_true, Option.map_some'] at h
              cases h
              exact ⟨rfl, rfl⟩
            | false =>
              simp only [hd, Option.map_some'] at h
              cases h
              exact ⟨rfl, rfl⟩
        · simp only [Option.map_some'] at h
          cases h
          exact ⟨rfl, rfl⟩
    · cases h; exact ⟨rfl, rfl⟩

/-- The loop on all events is the loop on the events that are not deferred,
with the deferred lines added to the buffer. -/
theorem processEvents_split (s en : Time) : ∀ (evs : List event) (c : computerClub)
    (a : List String), c.startTime = s → c.endTime = en →
    processEvents (withAfterEnd a c) evs =
      (processEvents c (evs.filter (fun e => !isDeferred s en e))).map
        (withAfterEnd (a ++ deferredLines s en evs)) := by
  intro evs
  induction evs with
  | nil =>
    intro c a _ _
    simp [processEvents, deferredLines]
  | cons e es ih =>
    intro c a hs he
    cases hdef : isDeferred s en e with
    | true =>
      have hdef1 : isDeferred (withAfterEnd a c).startTime (withAfterEnd a c).endTime e = true := by
        rw [← hs, ← he] at hdef
        exact hdef
      have h1 := processOne_deferred (withAfterEnd a c) e hdef1
      have hfil : (e :: es).filter (fun e => !isDeferred s en e)
          = es.filter (fun e => !isDeferred s en e) := by
        simp [List.filter_cons, hdef]
      have hlines : deferredLines s en (e :: es)
          = [e.source, fmtTime e.time ++ " 13 NotOpenYet"] ++ deferredLines s en es := by
        simp [deferredLines, List.filter_cons, hdef]
      rw [hfil, hlines, ← List.append_assoc, ← ih c _ hs he]
      simp only [processEvents, h1]
      rfl
    | false =>
      have hdef1 : isDeferred c.startTime c.endTime e = false := by
        rw [← hs, ← he] at hdef
        exact hdef
      have h1 := processOne_withAfterEnd a c e hdef1
      have hfil : (e :: es).filter (fun e => !isDeferred s en e)
          = e :: es.filter (fun e => !isDeferred s en e) := by
        simp [List.filter_cons, hdef]
      have hlines : deferredLines s en (e :: es) = deferredLines s en es := by
        simp [deferredLines, List.filter_cons, hdef]
      rw [hfil, hlines]
      simp only [processEvents, h1]
      cases hp : processOne c e with
      | none => rfl
      | some c1 =>
        obtain ⟨hs1, he1⟩ := processOne_times c c1 e hp
        simp only [Option.map_some']
        exact ih c1 a (hs1.trans hs) (he1.trans he)

theorem Repr_processOne (c : computerClub) (e : event) (h : ∃ l, Repr c.queueOfClients l) :
    ∃ c1, processOne c e = some c1 ∧ ∃ l, Repr c1.queueOfClients l := by
  obtain ⟨l, hr⟩ := h
  unfold processOne filterByTime
  split_ifs with h1 h2
  · exact ⟨_, rfl, l, hr⟩
  · exact ⟨_, rfl, l, hr⟩
  · simp only [processEvent]
    split_ifs with a1 a2 a3 a4
    · refine ⟨_, rfl, ?_⟩
      unfold handleClientIn
      split <;> exact ⟨l, hr⟩
    · refine ⟨_, rfl, ?_⟩
      unfold handleClientTable
      split
      · exact ⟨l, hr⟩
      · split <;> exact ⟨l, hr⟩
    · by_cases w1 : c.freeTables > 0
      · simp only [handleClientWait, w1, if_true]
        exact ⟨_, rfl, l, hr⟩
      · by_cases w2 : c.queueOfClients.Size = c.countOfTables
        · simp only [handleClientWait, w1, w2, if_true, if_false]
          exact ⟨_, rfl, l, hr⟩
        · obtain ⟨q1, hr1, he⟩ := handleClientWait_enqueue
            { c with outputs := c.outputs ++ [e.source] } e l w1 w2 hr
          exact ⟨_, he, _, hr1⟩
    · cases hl : GoMap.lookup c.clients e.client with
      | none =>
        simp only [handleClientOut, hl]
        exact ⟨_, rfl, l, hr⟩
      | some val =>
        cases l with
        | nil =>
          exact ⟨_, handleClientOut_of_repr_nil
            { c with outputs := c.outputs ++ [e.source] } e val hl hr, [], hr⟩
        | cons x xs =>
          obtain ⟨q1, hr1, he⟩ := handleClientOut_of_repr_cons
            { c with outputs := c.outputs ++ [e.source] } e val x xs hl hr
          exact ⟨_, he, _, hr1⟩
    · exact ⟨_, rfl, l, hr⟩

theorem flushUsage_withAfterEnd (a : List String) (ks : List table) : ∀ c : computerClub,
    flushUsage (withAfterEnd a c) ks = withAfterEnd a (flushUsage c ks) := by
  induction ks with
  | nil => intro c; rfl
  | cons k ks ih =>
    intro c
    have h1 : ∀ d : computerClub,
        flushUsage d (k :: ks) = flushUsage (updateTableUsage d k d.endTime) ks := fun _ => rfl
    rw [h1, h1]
    have h2 : (withAfterEnd a c).endTime = c.endTime := rfl
    rw [h2, updateTableUsage_withAfterEnd, ih]

/-- C6 (amended): the output of `ProcessInput` is the output of the loop on the
events that are not deferred, then the forced exits, the closing-time line and
the billing lines, and last the deferred lines: for each event that is after
closing time and not before opening time, in input order, its text followed by
`HH:MM 13 NotOpenYet`. -/
theorem deferred_lines_last (ro : RangeOrder) (N : Int) (s en : Time) (cost : Int)
    (evs : List event) :
    ∃ c1 c2, ProcessInput ro (SetInput N s en cost evs) = some c1 ∧
      processEvents (initOutputs (SetInput N s en cost evs))
        (evs.filter (fun e => !isDeferred s en e)) = some c2 ∧
      GetOutput c1 = c2.outputs
        ++ (sortClients (GoMap.keys c2.clients)).map (fun cl => fmtTime en ++ " 11 " ++ cl)
        ++ [fmtTime en]
        ++ (ro (flushUsage c2 (GoMap.keys c2.tablesAndStartTime)).tablesAndHours).map
            (billingLine c2)
        ++ deferredLines s en evs := by
  obtain ⟨c2, hc2, _, hen⟩ := processEvents_invariant
    (fun c => (∃ l, Repr c.queueOfClients l) ∧ c.endTime = en)
    (evs.filter (fun e => !isDeferred s en e)) (initOutputs (SetInput N s en cost evs))
    (fun e _ d hd => by
      obtain ⟨d1, hp, hr⟩ := Repr_processOne d e hd.1
      exact ⟨d1, hp, hr, (processOne_times d d1 e hp).2.trans hd.2⟩)
    ⟨⟨[], repr_new⟩, rfl⟩
  have hsplit := processEvents_split s en evs (initOutputs (SetInput N s en cost evs)) [] rfl rfl
  have hinit : withAfterEnd [] (initOutputs (SetInput N s en cost evs))
      = initOutputs (SetInput N s en cost evs) := rfl
  rw [hinit, hc2] at hsplit
  simp only [Option.map_some', List.nil_append] at hsplit
  refine ⟨processEndOfDay ro (withAfterEnd (deferredLines s en evs) c2), c2, ?_, hc2, ?_⟩
  · unfold ProcessInput
    have hev : (SetInput N s en cost evs).events = evs := rfl
    rw [hev, hsplit]
    rfl
  · unfold GetOutput
    rw [processEndOfDay_outputs]
    have hk : (withAfterEnd (deferredLines s en evs) c2).tablesAndStartTime
        = c2.tablesAndStartTime := rfl
    have hb : billingLine (withAfterEnd (deferredLines s en evs) c2) = billingLine c2 :=
      billingLine_congr rfl
    have he2 : (withAfterEnd (deferredLines s en evs) c2).endTime = en := hen
    rw [hk, flushUsage_withAfterEnd, hb, he2]
    simp only [fmtEvent_exit]
    rfl

/-- C6 (as stated): with opening time 22:00 and closing time 06:00, the event
`12:00 1 a` is timestamped after closing time, yet its two lines are printed in
place, before the closing-time line, and the output does not end with them. -/
theorem after_closing_event_not_deferred :
    (ProcessInput id nightClub).map GetOutput
      = some ["22:00", "12:00 1 a", "12:00 13 NotOpenYet", "06:00"] ∧
    afterClosingLines nightClub.endTime nightClub.events
      = ["12:00 1 a", "12:00 13 NotOpenYet"] ∧
    ¬ ∃ c1 pre, ProcessInput id nightClub = some c1 ∧
        GetOutput c1 = pre ++ afterClosingLines nightClub.endTime nightClub.events := by
  have h1 : (ProcessInput id nightClub).map GetOutput
      = some ["22:00", "12:00 1 a", "12:00 13 NotOpenYet", "06:00"] := by rfl
  have h2 : afterClosingLines nightClub.endTime nightClub.events
      = ["12:00 1 a", "12:00 13 NotOpenYet"] := by rfl
  refine ⟨h1, h2, ?_⟩
  rintro ⟨c1, pre, hc1, hout⟩
  rw [hc1] at h1
  rw [h2] at hout
  simp only [Option.map_some', Option.some.injEq] at h1
  rw [h1] at hout
  have hlast := congrArg List.getLast? hout
  simp at hlast

/-! ## More concrete runs -/

/-- C12: with two tables, after `09:00 1 a`, `09:10 2 a 1`, `09:20 2 a 2` the
registry maps `a` to table 2 only, while tables 1 and 2 are both occupied:
table 1 is occupied and is the table of no client; it is billed until closing. -/
theorem reseat_keeps_old_table_occupied :
    (stateAfter reseatClub 3).map
        (fun c => (c.clients, GoMap.keys c.tablesAndStartTime, c.freeTables))
      = some ([("a", 2)], [1, 2], 0) ∧
    (ProcessInput id reseatClub).map GetOutput =
      some [ "09:00", "09:00 1 a", "09:10 2 a 1", "09:20 2 a 2", "19:00 11 a", "19:00",
             "1 110 09:50", "2 110 09:40" ] :=
  ⟨by rfl, by rfl⟩

/-- C17: with one table taken and one client waiting, the JoinQueue of `d` at
09:20 prints `09:20 11 d` and does not enqueue `d`, but `d` stays in the
registry and is printed as leaving a second time at closing. -/
theorem full_queue_exit_keeps_client :
    (stateAfter fullQueueClub 6).map (fun c => GoMap.lookup c.clients "d") = some (some 0) ∧
    (ProcessInput id fullQueueClub).map GetOutput =
      some [ "09:00", "09:00 1 a", "09:00 2 a 1", "09:10 1 b", "09:10 3 b", "09:20 1 d",
             "09:20 3 d", "09:20 11 d", "19:00 11 a", "19:00 11 b", "19:00 11 d", "19:00",
             "1 110 10:00" ] :=
  ⟨by rfl, by rfl⟩

/-- C19: with one table taken by `a` and `b` waiting, the leave of `d`, who
never sat down, pops `b` from the queue and seats it at table 0: the line
`09:30 12 b 0` is printed, table 0 is occupied from then on and billed. -/
theorem unseated_leave_pops_to_table_zero :
    (stateAfter unseatedLeaverClub 6).map
        (fun c => (c.clients, c.tablesAndStartTime, c.freeTables))
      = some ([("a", 1), ("b", 0)], [(1, hm 9 0), (0, hm 9 30)], 0) ∧
    (ProcessInput id unseatedLeaverClub).map GetOutput =
      some [ "09:00", "09:00 1 a", "09:00 2 a 1", "09:10 1 b", "09:10 3 b", "09:20 1 d",
             "09:30 4 d", "09:30 12 b 0", "19:00 11 a", "19:00 11 b", "19:00",
             "1 110 10:00", "0 100 09:30" ] :=
  ⟨by rfl, by rfl⟩

/-! ## The time window -/

/-- C20 (as stated): with opening time 22:00 and closing time 06:00, an event
timestamped exactly at opening time does not pass `filterByTime`; its lines go
to the deferred buffer. -/
theorem opening_time_event_filtered :
    nightOpeningEvent.time = nightClub.startTime ∧
    (filterByTime nightClub nightOpeningEvent).2 = false ∧
    processOne nightClub nightOpeningEvent =
      some (withAfterEnd ["22:00 1 a", "22:00 13 NotOpenYet"] nightClub) :=
  ⟨by rfl, by rfl, by rfl⟩

theorem processOne_of_window (c : computerClub) (e : event)
    (h : c.startTime ≤ e.time ∧ e.time ≤ c.endTime) :
    (filterByTime c e).2 = true ∧
    processOne c e = processEvent { c with outputs := c.outputs ++ [e.source] } e := by
  have h1 : ¬ c.startTime > e.time := not_lt.mpr h.1
  have h2 : ¬ c.endTime < e.time := not_lt.mpr h.2
  simp [processOne, filterByTime, h1, h2]

theorem filterByTime_true_iff (c : computerClub) (e : event) :
    (filterByTime c e).2 = true ↔ c.startTime ≤ e.time ∧ e.time ≤ c.endTime := by
  constructor
  · intro h
    by_cases h1 : c.startTime > e.time
    · simp [filterByTime, h1] at h
    · by_cases h2 : c.endTime < e.time
      · simp [filterByTime, h1, h2] at h
      · exact ⟨not_lt.mp h1, not_lt.mp h2⟩
  · intro h
    exact (processOne_of_window c e h).1

theorem processOne_of_pass (c : computerClub) (e : event) (h : (filterByTime c e).2 = true) :
    processOne c e = processEvent { c with outputs := c.outputs ++ [e.source] } e :=
  (processOne_of_window c e ((filterByTime_true_iff c e).1 h)).2

/-- C20 (amended): an event passes `filterByTime` exactly when it is neither
strictly before opening time nor strictly after closing time; an event that
passes has its original line appended in place and is dispatched to its
handler; and when opening time is not after closing time, an event stamped
exactly at opening time or exactly at closing time passes. -/
theorem filterByTime_inclusive (c : computerClub) (e : event) :
    ((filterByTime c e).2 = true ↔ c.startTime ≤ e.time ∧ e.time ≤ c.endTime) ∧
    ((filterByTime c e).2 = false ↔ e.time < c.startTime ∨ c.endTime < e.time) ∧
    ((filterByTime c e).2 = true →
      processOne c e = processEvent { c with outputs := c.outputs ++ [e.source] } e) ∧
    (c.startTime ≤ c.endTime → (e.time = c.startTime ∨ e.time = c.endTime) →
      (filterByTime c e).2 = true ∧
      processOne c e = processEvent { c with outputs := c.outputs ++ [e.source] } e) := by
  have hiff := filterByTime_true_iff c e
  refine ⟨hiff, ?_, processOne_of_pass c e, ?_⟩
  · rw [← Bool.not_eq_true, hiff, not_and_or, not_le, not_le]
  · intro hle ht
    apply processOne_of_window
    rcases ht with ht | ht
    · rw [ht]
      exact ⟨le_refl _, hle⟩
    · rw [ht]
      exact ⟨hle, le_refl _⟩

/-! ## One loop iteration, by cases -/

theorem processOne_step (c : computerClub) (e : event) (l : SpecQueue)
    (hr : Repr c.queueOfClients l) :
    ∃ c1 l1, processOne c e = some c1 ∧ Step c e l c1 l1 ∧ Repr c1.queueOfClients l1 := by
  by_cases hp : (filterByTime c e).2 = true
  · have hpo := processOne_of_pass c e hp
    rw [hpo]
    simp only [processEvent]
    split_ifs with a1 a2 a3 a4
    · cases hl : GoMap.lookup c.clients e.client with
      | some v =>
        refine ⟨_, l, rfl, ?_, ?_⟩
        · simp only [handleClientIn, hl]
          exact Step.quiet _ _
        · simp only [handleClientIn, hl]
          exact hr
      | none =>
        refine ⟨_, l, rfl, ?_, ?_⟩
        · simp only [handleClientIn, hl]
          exact Step.arrive hp a1 hl
        · simp only [handleClientIn, hl]
          exact hr
    · cases hl : GoMap.lookup c.clients e.client with
      | none =>
        refine ⟨_, l, rfl, ?_, ?_⟩
        · simp only [handleClientTable, hl]
          exact Step.quiet _ _
        · simp only [handleClientTable, hl]
          exact hr
      | some t0 =>
        cases ht : GoMap.lookup c.tablesAndStartTime e.table with
        | some s0 =>
          refine ⟨_, l, rfl, ?_, ?_⟩
          · simp only [handleClientTable, hl, ht]
            exact Step.quiet _ _
          · simp only [handleClientTable, hl, ht]
            exact hr
        | none =>
          refine ⟨_, l, rfl, ?_, ?_⟩
          · simp only [handleClientTable, hl, ht]
            exact Step.sit t0 hp a2 hl ht
          · simp only [handleClientTable, hl, ht]
            exact hr
    · by_cases w1 : c.freeTables > 0
      · simp only [handleClientWait, w1, if_true]
        exact ⟨_, l, rfl, Step.quiet _ _, hr⟩
      · by_cases w2 : c.queueOfClients.Size = c.countOfTables
        · simp only [handleClientWait, w1, w2, if_true, if_false]
          exact ⟨_, l, rfl, Step.quiet _ _, hr⟩
        · obtain ⟨q1, hr1, he⟩ := handleClientWait_enqueue
            { c with outputs := c.outputs ++ [e.source] } e l w1 w2 hr
          exact ⟨_, _, he, Step.wait q1 hp a3 w1 w2 hr1, hr1⟩
    · cases hl : GoMap.lookup c.clients e.client with
      | none =>
        simp only [handleClientOut, hl]
        exact ⟨_, l, rfl, Step.quiet _ _, hr⟩
      | some val =>
        cases l with
        | nil =>
          have he := handleClientOut_of_repr_nil
            { c with outputs := c.outputs ++ [e.source] } e val hl hr
          rw [updateTableUsage_with_outputs] at he
          exact ⟨_, [], he, Step.leaveEmpty val hp a4 hl rfl, hr⟩
        | cons x xs =>
          obtain ⟨q1, hr1, he⟩ := handleClientOut_of_repr_cons
            { c with outputs := c.outputs ++ [e.source] } e val x xs hl hr
          rw [updateTableUsage_with_outputs] at he
          exact ⟨_, xs, he, Step.leavePop val x xs q1 hp a4 hl rfl hr1, hr1⟩
    · exact ⟨_, l, rfl, Step.quiet _ _, hr⟩
  · unfold processOne
    unfold filterByTime at hp ⊢
    split_ifs at hp ⊢ with h1 h2
    · exact ⟨_, l, rfl, Step.quiet _ _, hr⟩
    · exact ⟨_, l, rfl, Step.quiet _ _, hr⟩
    · exact absurd rfl hp

/-! ## Lookups in Go maps -/

theorem GoMap.lookup_store {κ ν : Type} [DecidableEq κ] (m : GoMap κ ν) (k : κ) (v : ν)
    (k1 : κ) :
    GoMap.lookup (GoMap.store m k v) k1 = if k = k1 then some v else GoMap.lookup m k1 := by
  induction m with
  | nil => simp [GoMap.store, GoMap.lookup]
  | cons p m ih =>
    obtain ⟨k0, v0⟩ := p
    by_cases h0 : k0 = k
    · subst h0
      by_cases h1 : k0 = k1
      · simp [GoMap.store, GoMap.lookup, h1]
      · simp [GoMap.store, GoMap.lookup, h1]
    · by_cases h1 : k0 = k1
      · subst h1
        have h2 : ¬ k = k0 := fun h => h0 h.symm
        simp [GoMap.store, GoMap.lookup, h0, h2]
      · simp [GoMap.store, GoMap.lookup, h0, h1, ih]

theorem GoMap.lookup_remove {κ ν : Type} [DecidableEq κ] (m : GoMap κ ν) (k k1 : κ) :
    GoMap.lookup (GoMap.remove m k) k1 = if k1 = k then none else GoMap.lookup m k1 := by
  induction m with
  | nil => simp [GoMap.remove, GoMap.lookup]
  | cons p m ih =>
    obtain ⟨k0, v0⟩ := p
    have hcons : GoMap.remove ((k0, v0) :: m) k
        = if k0 = k then GoMap.remove m k else (k0, v0) :: GoMap.remove m k := by
      by_cases h0 : k0 = k <;> simp [GoMap.remove, List.filter_cons, h0]
    rw [hcons]
    by_cases h0 : k0 = k
    · subst h0
      by_cases h1 : k1 = k0
      · subst h1
        simp [ih]
      · have h2 : ¬ k0 = k1 := fun h => h1 h.symm
        simp [ih, h1, GoMap.lookup, h2]
    · by_cases h1 : k0 = k1
      · subst h1
        simp [h0, GoMap.lookup]
      · simp [h0, GoMap.lookup, h1, ih]

theorem GoMap.lookup_of_mem {κ ν : Type} [DecidableEq κ] (m : GoMap κ ν) (k : κ) (v : ν)
    (hnd : (GoMap.keys m).Nodup) (h : (k, v) ∈ m) : GoMap.lookup m k = some v := by
  induction m with
  | nil => simp at h
  | cons p m ih =>
    obtain ⟨k0, v0⟩ := p
    simp only [GoMap.keys, List.map_cons, List.nodup_cons] at hnd
    rcases List.mem_cons.1 h with h1 | h1
    · cases h1
      simp [GoMap.lookup]
    · have hk : k0 ≠ k := by
        intro e
        apply hnd.1
        rw [e]
        exact List.mem_map_of_mem Prod.fst h1
      simpa [GoMap.lookup, hk] using ih hnd.2 h1

theorem GoMap.mem_keys_iff {κ ν : Type} [DecidableEq κ] (m : GoMap κ ν) (k : κ) :
    k ∈ GoMap.keys m ↔ ∃ v, GoMap.lookup m k = some v := by
  have h := GoMap.lookup_eq_none m k
  cases hl : GoMap.lookup m k with
  | none =>
    rw [hl] at h
    simp [h.1 rfl]
  | some v =>
    rw [hl] at h
    simp only [Option.some.injEq, exists_eq', iff_true]
    by_contra hn
    have := h.2 hn
    simp at this

theorem GoMap.mem_keys_store {κ ν : Type} [DecidableEq κ] (m : GoMap κ ν) (k : κ) (v : ν)
    (k1 : κ) : k1 ∈ GoMap.keys (GoMap.store m k v) ↔ k1 = k ∨ k1 ∈ GoMap.keys m := by
  rw [GoMap.mem_keys_iff, GoMap.mem_keys_iff, GoMap.lookup_store]
  by_cases h : k = k1
  · simp [h]
  · have h2 : ¬ k1 = k := fun e => h e.symm
    simp [h, h2]

theorem GoMap.mem_keys_remove {κ ν : Type} [DecidableEq κ] (m : GoMap κ ν) (k k1 : κ) :
    k1 ∈ GoMap.keys (GoMap.remove m k) ↔ k1 ≠ k ∧ k1 ∈ GoMap.keys m := by
  rw [GoMap.keys_remove, List.mem_filter]
  simp [and_comm]

/-! ## The queue as a list -/

theorem walk_of_chain {heap : List Node} {last : Option Nat} :
    ∀ {l : List client} {p : Option Nat}, chain heap last p l → walk heap l.length p = l := by
  intro l
  induction l with
  | nil => intro p _; rfl
  | cons x xs ih =>
    intro p h
    obtain ⟨i, n, hp, hget, hv, hch, _⟩ := h
    subst hp
    simp [walk, hget, hv, ih hch]

theorem toList_of_repr {q : Queue} {l : SpecQueue} (h : Repr q l) : q.toList = l := by
  unfold Queue.toList
  rw [repr_size h]
  exact walk_of_chain h.1

/-! ## The usage ledger -/

theorem isInt_wrapInt (x : Int) : isInt (wrapInt x) := by
  unfold isInt wrapInt
  omega

theorem wrapInt_add_wrapInt (a b : Int) : wrapInt (wrapInt a + b) = wrapInt (a + b) := by
  unfold wrapInt
  omega

theorem updateTableUsage_ledger_some (c : computerClub) (val : Int) (t s : Time)
    (h : GoMap.lookup c.tablesAndStartTime val = some s) :
    (updateTableUsage c val t).tablesAndHours =
      GoMap.store c.tablesAndHours val (wrapInt (usage c val + Sub t s)) := by
  simp [updateTableUsage, h, usage]

theorem updateTableUsage_ledger_none (c : computerClub) (val : Int) (t : Time)
    (h : GoMap.lookup c.tablesAndStartTime val = none) :
    (updateTableUsage c val t).tablesAndHours = c.tablesAndHours := by
  simp [updateTableUsage, h]

theorem usage_updateTableUsage (c : computerClub) (val : Int) (t s : Time) (T : Int)
    (h : GoMap.lookup c.tablesAndStartTime val = some s) :
    (GoMap.lookup (updateTableUsage c val t).tablesAndHours T).getD 0 =
      if val = T then wrapInt (usage c T + Sub t s) else usage c T := by
  rw [updateTableUsage_ledger_some c val t s h, GoMap.lookup_store]
  by_cases hv : val = T
  · subst hv
    simp
  · simp [hv, usage]

/-- C14 (amended): for a club in which `e.client` is registered and seated at
table `T` occupied since `s`, a Leave event within opening hours adds
`e.time - s` to the ledger entry of `T` with the `+=` of `time.Duration`, an
`int64` of nanoseconds (the entry becomes the wrapped sum, which is the exact
sum whenever that fits), adds nothing to the other entries, and removes the
client from the registry.  With an empty queue `T` becomes free, the counter
is incremented (by one exactly, unless it stood at the largest `int`) and only
the event's line is printed.  With `h` at the head of the queue, `h` is
dequeued, `T` is occupied since `e.time`, the counter is incremented and
decremented (so unchanged), the line `HH:MM 12 h T` is printed after the
event's line, and `h` is mapped to `T` unless `h` is the leaving client
itself. -/
theorem leave_of_seated_client (c : computerClub) (e : event) (T : Int) (s : Time)
    (l : SpecQueue)
    (hpass : c.startTime ≤ e.time ∧ e.time ≤ c.endTime) (ha : e.action = CLIENT_OUT)
    (hc : GoMap.lookup c.clients e.client = some T)
    (hs : GoMap.lookup c.tablesAndStartTime T = some s)
    (hq : Repr c.queueOfClients l) :
    ∃ c1, processOne c e = some c1 ∧
      usage c1 T = wrapInt (usage c T + Sub e.time s) ∧
      (isInt (usage c T + Sub e.time s) → usage c1 T = usage c T + Sub e.time s) ∧
      (∀ T1 : Int, T1 ≠ T → usage c1 T1 = usage c T1) ∧
      GoMap.lookup c1.clients e.client = none ∧
      (l = [] →
        GoMap.lookup c1.tablesAndStartTime T = none ∧
        c1.freeTables = wrapInt (c.freeTables + 1) ∧
        (isInt (c.freeTables + 1) → c1.freeTables = c.freeTables + 1) ∧
        c1.outputs = c.outputs ++ [e.source] ∧ Repr c1.queueOfClients []) ∧
      (∀ (h : client) (rest : SpecQueue), l = h :: rest →
        Repr c1.queueOfClients rest ∧
        (h ≠ e.client → GoMap.lookup c1.clients h = some T) ∧
        GoMap.lookup c1.tablesAndStartTime T = some e.time ∧
        c1.freeTables = wrapInt (wrapInt (c.freeTables + 1) - 1) ∧
        (isInt c.freeTables → c1.freeTables = c.freeTables) ∧
        c1.outputs = c.outputs ++
          [e.source, fmtTime e.time ++ " 12 " ++ (h ++ " " ++ fmtD T)]) := by
  have hpo := (processOne_of_window c e hpass).2
  have hev : processEvent { c with outputs := c.outputs ++ [e.source] } e
      = handleClientOut { c with outputs := c.outputs ++ [e.source] } e := by
    simp [processEvent, ha, CLIENT_OUT, CLIENT_IN, CLIENT_TABLE, CLIENT_WAIT]
  rw [hpo, hev]
  have hu : ∀ T1 : Int, (GoMap.lookup
      (updateTableUsage { c with outputs := c.outputs ++ [e.source] } T e.time).tablesAndHours
      T1).getD 0 = if T = T1 then wrapInt (usage c T1 + Sub e.time s) else usage c T1 :=
    fun T1 => usage_updateTableUsage { c with outputs := c.outputs ++ [e.source] } T e.time s T1 hs
  have huT : (GoMap.lookup
      (updateTableUsage { c with outputs := c.outputs ++ [e.source] } T e.time).tablesAndHours
      T).getD 0 = wrapInt (usage c T + Sub e.time s) := by simpa using hu T
  cases l with
  | nil =>
    refine ⟨_, handleClientOut_of_repr_nil { c with outputs := c.outputs ++ [e.source] }
      e T hc hq, huT, ?_, ?_, ?_, ?_, ?_⟩
    · intro hfit
      exact huT.trans (wrapInt_of_isInt hfit)
    · intro T1 h1
      have h2 : ¬ T = T1 := fun h => h1 h.symm
      simpa [h2] using hu T1
    · simp [GoMap.lookup_remove]
    · intro _
      exact ⟨by simp [GoMap.lookup_remove], rfl, fun hfit => wrapInt_of_isInt hfit, rfl, hq⟩
    · intro h rest hl
      cases hl
  | cons x xs =>
    obtain ⟨q1, hr1, he⟩ := handleClientOut_of_repr_cons
      { c with outputs := c.outputs ++ [e.source] } e T x xs hc hq
    refine ⟨_, he, huT, ?_, ?_, ?_, ?_, ?_⟩
    · intro hfit
      exact huT.trans (wrapInt_of_isInt hfit)
    · intro T1 h1
      have h2 : ¬ T = T1 := fun h => h1 h.symm
      simpa [h2] using hu T1
    · simp [GoMap.lookup_remove]
    · intro hl
      cases hl
    · intro h rest hl
      cases hl
      refine ⟨hr1, ?_, ?_, rfl, ?_, ?_⟩
      · intro hne
        simp [GoMap.lookup_remove, GoMap.lookup_store, hne]
      · simp [GoMap.lookup_store]
      · intro hfit
        show wrapInt (wrapInt (c.freeTables + 1) - 1) = c.freeTables
        unfold isInt at hfit
        unfold wrapInt
        omega
      · show c.outputs ++ [e.source] ++ [fmtEventTable e.time CLIENT_POP_QUEUE x T] = _
        rw [fmtEventTable_pop]
        simp

set_option maxRecDepth 100000 in
theorem leave_of_seated_client_witness :
    stateAfter exampleClub 11 = some waitingClub ∧
    (waitingClub.startTime ≤ waitingLeave.time ∧ waitingLeave.time ≤ waitingClub.endTime) ∧
    waitingLeave.action = CLIENT_OUT ∧
    GoMap.lookup waitingClub.clients waitingLeave.client = some 1 ∧
    GoMap.lookup waitingClub.tablesAndStartTime 1 = some (hm 9 54) ∧
    Repr waitingClub.queueOfClients ["client4"] ∧
    ∃ c1, processOne waitingClub waitingLeave = some c1 ∧
      usage c1 1 = usage waitingClub 1 + Sub waitingLeave.time (hm 9 54) ∧
      GoMap.lookup c1.clients "client1" = none ∧
      Repr c1.queueOfClients [] ∧
      GoMap.lookup c1.clients "client4" = some 1 ∧
      GoMap.lookup c1.tablesAndStartTime 1 = some (hm 12 33) ∧
      c1.freeTables = waitingClub.freeTables ∧
      c1.outputs = waitingClub.outputs ++ ["12:33 4 client1", "12:33 12 client4 1"] := by
  have hr : Repr waitingClub.queueOfClients ["client4"] :=
    ⟨⟨0, ⟨"client4", none⟩, rfl, rfl, rfl, rfl, fun _ => rfl⟩, rfl, fun h => by cases h⟩
  refine ⟨by rfl, by decide, by rfl, by rfl, by rfl, hr, ?_⟩
  obtain ⟨c1, h1, _, h3, _, h5, _, h7⟩ :=
    leave_of_seated_client waitingClub waitingLeave 1 (hm 9 54) ["client4"] (by decide)
      (by rfl) (by rfl) (by rfl) hr
  obtain ⟨g1, g2, g3, _, g5, g6⟩ := h7 "client4" [] rfl
  exact ⟨c1, h1, h3 (by unfold isInt; decide), h5, g1, g2 (by decide), g3,
    g5 (by unfold isInt; decide), g6⟩

set_option maxRecDepth 100000 in
/-- C14 (as stated): with one table, after `09:00 1 a`, `09:00 2 a 1`,
`09:10 3 a` the client `a` is registered, seated at table 1 since 09:00 and at
the head of the queue.  Its leave at 09:30 dequeues `a`, prints `09:30 12 a 1`
and marks table 1 occupied since 09:30, but the head `a` is not mapped to
table 1 afterwards: it is absent from the registry.  And a Leave stamped after
closing time (in `busyClub`, where `a` is seated at table 1 since 09:30) is
filtered: the ledger and the registry stay as they are and the event goes to
the deferred lines. -/
theorem popped_leaver_not_mapped :
    (stateAfter selfQueuedClub 3).map
        (fun c => (GoMap.lookup c.clients "a", GoMap.lookup c.tablesAndStartTime 1,
          c.queueOfClients.toList))
      = some (some 1, some (hm 9 0), ["a"]) ∧
    (stateAfter selfQueuedClub 4).map
        (fun c => (GoMap.lookup c.clients "a", GoMap.lookup c.tablesAndStartTime 1,
          c.queueOfClients.toList, c.freeTables, c.outputs.drop 4))
      = some (none, some (hm 9 30), [], 0, ["09:30 4 a", "09:30 12 a 1"]) ∧
    (GoMap.lookup busyClub.clients "a", GoMap.lookup busyClub.tablesAndStartTime 1)
      = (some 1, some (hm 9 30)) ∧
    (processOne busyClub lateLeave).map
        (fun c => (GoMap.lookup c.clients "a", GoMap.lookup c.tablesAndHours 1,
          c.outputs, c.outputsAfterEnd))
      = some (some 1, none, ["09:00"], ["19:30 4 a", "19:30 13 NotOpenYet"]) :=
  ⟨by rfl, by rfl, by rfl, by rfl⟩

/-! ## The flush at the end of the day -/

theorem GoMap.store_lookup_self {κ ν : Type} [DecidableEq κ] (m : GoMap κ ν) (k : κ) (v : ν)
    (h : GoMap.lookup m k = some v) : GoMap.store m k v = m := by
  induction m with
  | nil => simp [GoMap.lookup] at h
  | cons p m ih =>
    obtain ⟨k0, v0⟩ := p
    by_cases h0 : k0 = k
    · subst h0
      simp [GoMap.lookup] at h
      simp [GoMap.store, h]
    · simp [GoMap.lookup, h0] at h
      simp [GoMap.store, h0, ih h]

theorem flushUsage_cons (c : computerClub) (k : table) (ks : List table) :
    flushUsage c (k :: ks) = flushUsage (updateTableUsage c k c.endTime) ks := rfl

theorem updateTableUsage_tst (c : computerClub) (val : table) (t : Time) :
    (updateTableUsage c val t).tablesAndStartTime = c.tablesAndStartTime := by
  rw [updateTableUsage_eq]

theorem updateTableUsage_endTime (c : computerClub) (val : table) (t : Time) :
    (updateTableUsage c val t).endTime = c.endTime := by
  rw [updateTableUsage_eq]

theorem flushUsage_tst (c : computerClub) (ks : List table) :
    (flushUsage c ks).tablesAndStartTime = c.tablesAndStartTime := by rw [flushUsage_eq]

theorem flushUsage_endTime (c : computerClub) (ks : List table) :
    (flushUsage c ks).endTime = c.endTime := by rw [flushUsage_eq]

/-- The ledger entry of `T` after the flush of the distinct tables `ks`. -/
theorem lookup_flushUsage (T : Int) : ∀ (ks : List Int) (c : computerClub), ks.Nodup →
    GoMap.lookup (flushUsage c ks).tablesAndHours T =
      match GoMap.lookup c.tablesAndStartTime T with
      | some s => if T ∈ ks then some (wrapInt (usage c T + Sub c.endTime s))
                  else GoMap.lookup c.tablesAndHours T
      | none => GoMap.lookup c.tablesAndHours T := by
  intro ks
  induction ks with
  | nil =>
    intro c _
    cases GoMap.lookup c.tablesAndStartTime T <;> simp [flushUsage]
  | cons k ks ih =>
    intro c hnd
    obtain ⟨hk, hks⟩ := List.nodup_cons.1 hnd
    rw [flushUsage_cons, ih _ hks, updateTableUsage_tst, updateTableUsage_endTime]
    cases hT : GoMap.lookup c.tablesAndStartTime T with
    | none =>
      simp only
      cases hkl : GoMap.lookup c.tablesAndStartTime k with
      | none => rw [updateTableUsage_ledger_none c k _ hkl]
      | some s1 =>
        have hne : ¬ k = T := by
          intro e
          rw [e, hT] at hkl
          cases hkl
        rw [updateTableUsage_ledger_some c k _ s1 hkl, GoMap.lookup_store]
        simp [hne]
    | some s =>
      simp only
      by_cases hkT : k = T
      · subst hkT
        have h1 : (GoMap.lookup (updateTableUsage c k c.endTime).tablesAndHours k)
            = some (wrapInt (usage c k + Sub c.endTime s)) := by
          rw [updateTableUsage_ledger_some c k _ s hT, GoMap.lookup_store]
          simp
        simp [hk, h1]
      · have hne : ¬ T = k := fun e => hkT e.symm
        have h1 : GoMap.lookup (updateTableUsage c k c.endTime).tablesAndHours T
            = GoMap.lookup c.tablesAndHours T := by
          cases hkl : GoMap.lookup c.tablesAndStartTime k with
          | none => rw [updateTableUsage_ledger_none c k _ hkl]
          | some s1 =>
            rw [updateTableUsage_ledger_some c k _ s1 hkl, GoMap.lookup_store]
            simp [hkT]
        have h2 : usage (updateTableUsage c k c.endTime) T = usage c T := by
          simp [usage, h1]
        simp [hne, h1, h2]

theorem processEndOfDay_eq (ro : RangeOrder) (c : computerClub) :
    processEndOfDay ro c =
      { c with tablesAndHours :=
                 (flushUsage c (GoMap.keys c.tablesAndStartTime)).tablesAndHours,
               outputs := (processEndOfDay ro c).outputs } := by
  simp only [processEndOfDay, flushUsage_with_outputs]
  rw [flushUsage_eq]

theorem processEndOfDay_ledger (ro : RangeOrder) (c : computerClub) :
    (processEndOfDay ro c).tablesAndHours =
      (flushUsage c (GoMap.keys c.tablesAndStartTime)).tablesAndHours := by
  rw [processEndOfDay_eq]

theorem usage_processEndOfDay (ro : RangeOrder) (c : computerClub) (T : Int) :
    usage (processEndOfDay ro c) T = usage (flushUsage c (GoMap.keys c.tablesAndStartTime)) T := by
  unfold usage
  rw [processEndOfDay_ledger]

theorem mem_keys_updateTableUsage (c : computerClub) (val : Int) (t : Time) (k : Int) :
    k ∈ GoMap.keys (updateTableUsage c val t).tablesAndHours ↔
      k ∈ GoMap.keys c.tablesAndHours ∨
        (k = val ∧ val ∈ GoMap.keys c.tablesAndStartTime) := by
  cases h : GoMap.lookup c.tablesAndStartTime val with
  | none =>
    rw [updateTableUsage_ledger_none c val t h]
    have hn : val ∉ GoMap.keys c.tablesAndStartTime := (GoMap.lookup_eq_none _ _).1 h
    simp [hn]
  | some s =>
    rw [updateTableUsage_ledger_some c val t s h, GoMap.mem_keys_store]
    have hm : val ∈ GoMap.keys c.tablesAndStartTime := (GoMap.mem_keys_iff _ _).2 ⟨s, h⟩
    simp [hm, or_comm]

theorem mem_keys_flushUsage (k : Int) : ∀ (ks : List Int) (c : computerClub),
    k ∈ GoMap.keys (flushUsage c ks).tablesAndHours ↔
      k ∈ GoMap.keys c.tablesAndHours ∨ (k ∈ ks ∧ k ∈ GoMap.keys c.tablesAndStartTime) := by
  intro ks
  induction ks with
  | nil => intro c; simp [flushUsage]
  | cons k0 ks ih =>
    intro c
    rw [flushUsage_cons, ih, mem_keys_updateTableUsage, updateTableUsage_tst]
    constructor
    · rintro ((h | ⟨h1, h2⟩) | ⟨h1, h2⟩)
      · exact Or.inl h
      · exact Or.inr ⟨by simp [h1], by rw [h1]; exact h2⟩
      · exact Or.inr ⟨List.mem_cons_of_mem _ h1, h2⟩
    · rintro (h | ⟨h1, h2⟩)
      · exact Or.inl (Or.inl h)
      · rcases List.mem_cons.1 h1 with h3 | h3
        · exact Or.inl (Or.inr ⟨h3, by rw [← h3]; exact h2⟩)
        · exact Or.inr ⟨h3, h2⟩

/-! ## A second run of the finalizer -/

theorem Sub_self (t : Time) : Sub t t = 0 := by
  simp [Sub]

/-- An update of the ledger keeps an entry that holds an `int64`. -/
theorem updateTableUsage_entry_isInt (c : computerClub) (k k1 : Int) (t : Time)
    (h : ∃ v, GoMap.lookup c.tablesAndHours k = some v ∧ isInt v) :
    ∃ v, GoMap.lookup (updateTableUsage c k1 t).tablesAndHours k = some v ∧ isInt v := by
  cases hl : GoMap.lookup c.tablesAndStartTime k1 with
  | none =>
    rw [updateTableUsage_ledger_none c k1 t hl]
    exact h
  | some s =>
    rw [updateTableUsage_ledger_some c k1 t s hl, GoMap.lookup_store]
    by_cases hk : k1 = k
    · subst hk
      refine ⟨wrapInt (usage c k1 + Sub t s), ?_, isInt_wrapInt _⟩
      simp
    · simpa [hk] using h

theorem flushUsage_entry_isInt (k : Int) : ∀ (ks : List Int) (c : computerClub),
    (∃ v, GoMap.lookup c.tablesAndHours k = some v ∧ isInt v) →
    ∃ v, GoMap.lookup (flushUsage c ks).tablesAndHours k = some v ∧ isInt v := by
  intro ks
  induction ks with
  | nil => intro c h; exact h
  | cons k0 ks ih =>
    intro c h
    rw [flushUsage_cons]
    exact ih _ (updateTableUsage_entry_isInt c k k0 _ h)

/-- After the flush, the entry of a flushed table holds an `int64`. -/
theorem flushUsage_flushed_isInt (k : Int) : ∀ (ks : List Int) (c : computerClub),
    k ∈ ks → k ∈ GoMap.keys c.tablesAndStartTime →
    ∃ v, GoMap.lookup (flushUsage c ks).tablesAndHours k = some v ∧ isInt v := by
  intro ks
  induction ks with
  | nil => intro c h; cases h
  | cons k0 ks ih =>
    intro c hk hocc
    rw [flushUsage_cons]
    by_cases h0 : k = k0
    · subst h0
      obtain ⟨s, hs⟩ := (GoMap.mem_keys_iff _ _).1 hocc
      apply flushUsage_entry_isInt
      rw [updateTableUsage_ledger_some c k _ s hs, GoMap.lookup_store]
      refine ⟨wrapInt (usage c k + Sub c.endTime s), ?_, isInt_wrapInt _⟩
      simp
    · have hk1 : k ∈ ks := by
        rcases List.mem_cons.1 hk with h | h
        · exact absurd h h0
        · exact h
      apply ih _ hk1
      rw [updateTableUsage_tst]
      exact hocc

/-- A flush changes nothing when every occupied table has an entry already,
holding an `int64`, and has been occupied since closing time only. -/
theorem flushUsage_eq_self : ∀ (ks : List Int) (c : computerClub),
    (∀ p ∈ c.tablesAndStartTime, p.2 = c.endTime) →
    (∀ k ∈ ks, k ∈ GoMap.keys c.tablesAndStartTime →
      ∃ v, GoMap.lookup c.tablesAndHours k = some v ∧ isInt v) →
    flushUsage c ks = c := by
  intro ks
  induction ks with
  | nil => intro c _ _; rfl
  | cons k ks ih =>
    intro c h1 h2
    have hu : updateTableUsage c k c.endTime = c := by
      rw [updateTableUsage_eq]
      cases hl : GoMap.lookup c.tablesAndStartTime k with
      | none => rw [updateTableUsage_ledger_none c k _ hl]
      | some s =>
        have hs : s = c.endTime := h1 (k, s) (GoMap.mem_of_lookup _ _ _ hl)
        obtain ⟨v, hv, hvi⟩ :=
          h2 k (List.mem_cons_self k ks) ((GoMap.mem_keys_iff _ _).2 ⟨s, hl⟩)
        rw [updateTableUsage_ledger_some c k _ s hl, hs]
        have h0 : wrapInt (usage c k + Sub c.endTime c.endTime) = v := by
          rw [Sub_self]
          simp only [usage, hv, Option.getD_some, add_zero]
          exact wrapInt_of_isInt hvi
        rw [h0, GoMap.store_lookup_self _ _ _ hv]
    rw [flushUsage_cons, hu]
    exact ih c h1 (fun k1 hk1 => h2 k1 (List.mem_cons_of_mem k hk1))

set_option maxRecDepth 100000 in
/-- C13 (as stated): on the worked example, at closing table 3 is occupied
since 10:59; the first run of the finalizer bills it `3 90 08:01`, a second run
on the state left by the first adds the eight hours again and bills
`3 170 16:02`. -/
theorem second_finalizer_run_differs :
    (stateAfter exampleClub 14).map
        (fun c => (billingLines id c, billingLines id (processEndOfDay id c)))
      = some (["1 70 05:58", "2 30 02:18", "3 90 08:01"],
              ["1 70 05:58", "2 30 02:18", "3 170 16:02"]) := by
  rfl

/-- C13 (amended): when no table has been occupied since before closing time
(every recorded start is the closing time; in particular when no table is
occupied), a second run of `processEndOfDay` on the state left by the first
produces the same billing lines: identical when `range` visits the ledger in
the same order, and a permutation of them for any other order. -/
theorem second_finalizer_run_same (ro : RangeOrder) (c : computerClub)
    (h : ∀ p ∈ c.tablesAndStartTime, p.2 = c.endTime) :
    (processEndOfDay ro c).tablesAndHours
      = (flushUsage c (GoMap.keys c.tablesAndStartTime)).tablesAndHours ∧
    (flushUsage (processEndOfDay ro c)
        (GoMap.keys (processEndOfDay ro c).tablesAndStartTime)).tablesAndHours
      = (processEndOfDay ro c).tablesAndHours ∧
    billingLines ro (processEndOfDay ro c) = billingLines ro c ∧
    (∀ ro2 : RangeOrder, (∀ m, (ro m).Perm m) → (∀ m, (ro2 m).Perm m) →
      (billingLines ro2 (processEndOfDay ro c)).Perm (billingLines ro c)) := by
  have h1 := processEndOfDay_eq ro c
  have htst : (processEndOfDay ro c).tablesAndStartTime = c.tablesAndStartTime := by rw [h1]
  have hend : (processEndOfDay ro c).endTime = c.endTime := by rw [h1]
  have hcost : (processEndOfDay ro c).costOfHour = c.costOfHour := by rw [h1]
  have hled := processEndOfDay_ledger ro c
  have hself : flushUsage (processEndOfDay ro c)
      (GoMap.keys (processEndOfDay ro c).tablesAndStartTime) = processEndOfDay ro c := by
    apply flushUsage_eq_self
    · intro p hp
      rw [htst] at hp
      rw [hend]
      exact h p hp
    · intro k hk _
      rw [htst] at hk
      rw [hled]
      exact flushUsage_flushed_isInt k _ c hk hk
  have hb : billingLine (processEndOfDay ro c) = billingLine c := billingLine_congr hcost
  have hlines : ∀ ro2 : RangeOrder, billingLines ro2 (processEndOfDay ro c)
      = (ro2 (flushUsage c (GoMap.keys c.tablesAndStartTime)).tablesAndHours).map
          (billingLine c) := by
    intro ro2
    unfold billingLines
    rw [hself, hb, hled]
  refine ⟨hled, by rw [hself], hlines ro, ?_⟩
  intro ro2 hp hp2
  rw [hlines ro2]
  unfold billingLines
  exact List.Perm.map _ ((hp2 _).trans (hp _).symm)

theorem second_finalizer_run_same_witness :
    (∀ p ∈ settledClub.tablesAndStartTime, p.2 = settledClub.endTime) ∧
    billingLines id (processEndOfDay id settledClub) = billingLines id settledClub :=
  ⟨by decide, (second_finalizer_run_same id settledClub (by decide)).2.2.1⟩

/-! ## Occupancy intervals -/

theorem intervalsLength_nil : intervalsLength [] = 0 := rfl

theorem intervalsLength_append (a b : List (Time × Time)) :
    intervalsLength (a ++ b) = intervalsLength a + intervalsLength b := by
  simp [intervalsLength]

theorem intervalsLength_single (s t : Time) : intervalsLength [(s, t)] = Sub t s := by
  simp [intervalsLength]

theorem closedInterval_nil {T : Int} {c c1 : computerClub} {e : event}
    (h : GoMap.lookup c1.tablesAndStartTime T = GoMap.lookup c.tablesAndStartTime T ∨
      GoMap.lookup c.tablesAndStartTime T = none) :
    closedInterval T c c1 e = [] := by
  unfold closedInterval
  cases hl : GoMap.lookup c.tablesAndStartTime T with
  | none => rfl
  | some s =>
    rcases h with h | h
    · rw [hl] at h
      simp [h]
    · rw [hl] at h
      cases h

theorem closedInterval_length {T : Int} {c c1 : computerClub} {e : event} (s : Time)
    (hs : GoMap.lookup c.tablesAndStartTime T = some s)
    (h1 : GoMap.lookup c1.tablesAndStartTime T = none ∨
      GoMap.lookup c1.tablesAndStartTime T = some e.time) :
    intervalsLength (closedInterval T c c1 e) = Sub e.time s := by
  unfold closedInterval
  rw [hs]
  simp only
  split_ifs with h
  · rcases h1 with h2 | h2
    · rw [h2] at h
      cases h
    · rw [h2] at h
      cases h
      rw [Sub_self]
      rfl
  · exact intervalsLength_single s e.time

theorem Step_config {c c1 : computerClub} {e : event} {l l1 : SpecQueue}
    (hst : Step c e l c1 l1) :
    c1.costOfHour = c.costOfHour ∧ c1.startTime = c.startTime ∧ c1.endTime = c.endTime ∧
    c1.countOfTables = c.countOfTables := by
  cases hst <;> exact ⟨rfl, rfl, rfl, rfl⟩

/-- One iteration leaves the occupancy start of a table as it is, or removes
it, or sets it to the time of the event, which then lies in opening hours. -/
theorem Step_tst {c c1 : computerClub} {e : event} {l l1 : SpecQueue}
    (hst : Step c e l c1 l1) (T : Int) :
    GoMap.lookup c1.tablesAndStartTime T = GoMap.lookup c.tablesAndStartTime T ∨
    GoMap.lookup c1.tablesAndStartTime T = none ∨
    (GoMap.lookup c1.tablesAndStartTime T = some e.time ∧ (filterByTime c e).2 = true) := by
  cases hst with
  | quiet o oa => exact Or.inl rfl
  | arrive hp ha hl => exact Or.inl rfl
  | sit t0 hp ha hl ht =>
    show GoMap.lookup (GoMap.store c.tablesAndStartTime e.table e.time) T = _ ∨ _
    rw [GoMap.lookup_store]
    by_cases h : e.table = T
    · exact Or.inr (Or.inr ⟨by simp [h], hp⟩)
    · exact Or.inl (by simp [h])
  | wait q1 hp ha w1 w2 hr => exact Or.inl rfl
  | leaveEmpty val hp ha hl hnil =>
    show GoMap.lookup (GoMap.remove c.tablesAndStartTime val) T = _ ∨ _
    rw [GoMap.lookup_remove]
    by_cases h : T = val
    · exact Or.inr (Or.inl (by simp [h]))
    · exact Or.inl (by simp [h])
  | leavePop val x xs q1 hp ha hl hcons hr =>
    show GoMap.lookup (GoMap.store (GoMap.remove c.tablesAndStartTime val) val e.time) T = _ ∨ _
    rw [GoMap.lookup_store, GoMap.lookup_remove]
    by_cases h : val = T
    · exact Or.inr (Or.inr ⟨by simp [h], hp⟩)
    · have h2 : ¬ T = val := fun h3 => h h3.symm
      exact Or.inl (by simp [h, h2])

theorem Step_nodup {c c1 : computerClub} {e : event} {l l1 : SpecQueue}
    (hst : Step c e l c1 l1) (h : (GoMap.keys c.tablesAndStartTime).Nodup) :
    (GoMap.keys c1.tablesAndStartTime).Nodup := by
  cases hst with
  | quiet o oa => exact h
  | arrive hp ha hl => exact h
  | sit t0 hp ha hl ht =>
    show (GoMap.keys (GoMap.store c.tablesAndStartTime e.table e.time)).Nodup
    have hn : e.table ∉ GoMap.keys c.tablesAndStartTime := (GoMap.lookup_eq_none _ _).1 ht
    rw [GoMap.keys_store_of_not_mem _ _ _ hn]
    exact List.Nodup.append h (List.nodup_singleton _) (by simpa using hn)
  | wait q1 hp ha w1 w2 hr => exact h
  | leaveEmpty val hp ha hl hnil => exact GoMap.nodup_keys_remove _ _ h
  | leavePop val x xs q1 hp ha hl hcons hr =>
    show (GoMap.keys (GoMap.store (GoMap.remove c.tablesAndStartTime val) val e.time)).Nodup
    have hn := GoMap.not_mem_keys_remove c.tablesAndStartTime val
    rw [GoMap.keys_store_of_not_mem _ _ _ hn]
    exact List.Nodup.append (GoMap.nodup_keys_remove _ _ h) (List.nodup_singleton _)
      (by simpa using hn)

/-- The ledger after a leave of a client whose registry value is `val`. -/
theorem leave_ledger (c d : computerClub) (e : event) (val T : Int)
    (hled : d.tablesAndHours = (updateTableUsage c val e.time).tablesAndHours)
    (hval : GoMap.lookup d.tablesAndStartTime val = none ∨
      GoMap.lookup d.tablesAndStartTime val = some e.time)
    (hoth : ∀ T1 : Int, T1 ≠ val →
      GoMap.lookup d.tablesAndStartTime T1 = GoMap.lookup c.tablesAndStartTime T1)
    (hI : isInt (usage c T)) :
    usage d T = wrapInt (usage c T + intervalsLength (closedInterval T c d e)) := by
  have hu : usage d T = (GoMap.lookup (updateTableUsage c val e.time).tablesAndHours T).getD 0 := by
    unfold usage
    rw [hled]
  have hw : usage c T = wrapInt (usage c T + intervalsLength []) := by
    rw [intervalsLength_nil, add_zero]
    exact (wrapInt_of_isInt hI).symm
  by_cases hv : T = val
  · subst hv
    cases hs : GoMap.lookup c.tablesAndStartTime T with
    | none =>
      rw [hu, updateTableUsage_ledger_none c T _ hs, closedInterval_nil (Or.inr hs)]
      exact hw
    | some s =>
      rw [hu, usage_updateTableUsage c T e.time s T hs, closedInterval_length s hs hval]
      simp
  · have hv2 : ¬ val = T := fun h => hv h.symm
    rw [closedInterval_nil (Or.inl (hoth T hv))]
    cases hs : GoMap.lookup c.tablesAndStartTime val with
    | none =>
      rw [hu, updateTableUsage_ledger_none c val _ hs]
      exact hw
    | some s =>
      rw [hu, usage_updateTableUsage c val e.time s T hs]
      simp only [hv2, if_false]
      exact hw

/-- One iteration adds to the ledger entry of `T`, with the wrapping `+=` of
`time.Duration`, the length of the occupancy interval of `T` that it closes. -/
theorem Step_ledger {c c1 : computerClub} {e : event} {l l1 : SpecQueue}
    (hst : Step c e l c1 l1) (T : Int) (hI : isInt (usage c T)) :
    usage c1 T = wrapInt (usage c T + intervalsLength (closedInterval T c c1 e)) := by
  have hq : ∀ d : computerClub,
      (GoMap.lookup d.tablesAndStartTime T = GoMap.lookup c.tablesAndStartTime T ∨
        GoMap.lookup c.tablesAndStartTime T = none) →
      usage d T = usage c T →
      usage d T = wrapInt (usage c T + intervalsLength (closedInterval T c d e)) := by
    intro d h1 h2
    rw [closedInterval_nil h1, h2, intervalsLength_nil, add_zero]
    exact (wrapInt_of_isInt hI).symm
  cases hst with
  | quiet o oa => exact hq _ (Or.inl rfl) rfl
  | arrive hp ha hl => exact hq _ (Or.inl rfl) rfl
  | sit t0 hp ha hl ht =>
    refine hq _ ?_ rfl
    by_cases h : e.table = T
    · exact Or.inr (h ▸ ht)
    · left
      show GoMap.lookup (GoMap.store c.tablesAndStartTime e.table e.time) T = _
      rw [GoMap.lookup_store]
      simp [h]
  | wait q1 hp ha w1 w2 hr => exact hq _ (Or.inl rfl) rfl
  | leaveEmpty val hp ha hl hnil =>
    refine leave_ledger c _ e val T rfl (Or.inl ?_) ?_ hI
    · show GoMap.lookup (GoMap.remove c.tablesAndStartTime val) val = none
      simp [GoMap.lookup_remove]
    · intro T1 h1
      show GoMap.lookup (GoMap.remove c.tablesAndStartTime val) T1 = _
      simp [GoMap.lookup_remove, h1]
  | leavePop val x xs q1 hp ha hl hcons hr =>
    refine leave_ledger c _ e val T rfl (Or.inr ?_) ?_ hI
    · show GoMap.lookup (GoMap.store (GoMap.remove c.tablesAndStartTime val) val e.time) val = _
      simp [GoMap.lookup_store]
    · intro T1 h1
      have h2 : ¬ val = T1 := fun h => h1 h.symm
      show GoMap.lookup (GoMap.store (GoMap.remove c.tablesAndStartTime val) val e.time) T1 = _
      simp [GoMap.lookup_store, GoMap.lookup_remove, h1, h2]

theorem occupancyIntervals_cons (T : Int) (c c1 : computerClub) (e : event) (es : List event)
    (h : processOne c e = some c1) :
    occupancyIntervals T c (e :: es) = closedInterval T c c1 e ++ occupancyIntervals T c1 es := by
  simp [occupancyIntervals, h]

/-- The ledger entry of `T` after the flush of all occupied tables. -/
theorem usage_flushUsage_keys (c : computerClub)
    (hnd : (GoMap.keys c.tablesAndStartTime).Nodup) (T : Int) :
    usage (flushUsage c (GoMap.keys c.tablesAndStartTime)) T =
      match GoMap.lookup c.tablesAndStartTime T with
      | some s => wrapInt (usage c T + Sub c.endTime s)
      | none => usage c T := by
  have hl := lookup_flushUsage T _ c hnd
  cases hs : GoMap.lookup c.tablesAndStartTime T with
  | none =>
    rw [hs] at hl
    simp only at hl ⊢
    unfold usage
    rw [hl]
  | some s =>
    have hmem : T ∈ GoMap.keys c.tablesAndStartTime := (GoMap.mem_keys_iff _ _).2 ⟨s, hs⟩
    rw [hs] at hl
    simp only [hmem, if_true] at hl ⊢
    unfold usage at hl ⊢
    rw [hl]
    rfl

theorem processEvents_nodup : ∀ (evs : List event) (c : computerClub) (l : SpecQueue),
    Repr c.queueOfClients l → (GoMap.keys c.tablesAndStartTime).Nodup →
    ∀ f, processEvents c evs = some f → (GoMap.keys f.tablesAndStartTime).Nodup := by
  intro evs
  induction evs with
  | nil =>
    intro c l _ h f hf
    simp [processEvents] at hf
    subst hf
    exact h
  | cons e es ih =>
    intro c l hr h f hf
    obtain ⟨c1, l1, h1, hst, hr1⟩ := processOne_step c e l hr
    simp only [processEvents, h1] at hf
    exact ih c1 l1 hr1 (Step_nodup hst h) f hf

/-- For every list of events the loop reaches a state, and after the flush at
the end of the day the ledger entry of `T` is its entry at the start plus the
lengths of the occupancy intervals of `T`, summed with the wrapping `+=` of
`time.Duration`. -/
theorem processEvents_intervals (T : Int) : ∀ (evs : List event) (c : computerClub)
    (l : SpecQueue),
    Repr c.queueOfClients l → (GoMap.keys c.tablesAndStartTime).Nodup →
    isInt (usage c T) →
    ∃ f, processEvents c evs = some f ∧
      usage (flushUsage f (GoMap.keys f.tablesAndStartTime)) T
        = wrapInt (usage c T + intervalsLength (occupancyIntervals T c evs)) := by
  intro evs
  induction evs with
  | nil =>
    intro c l _ hnd hI
    refine ⟨c, rfl, ?_⟩
    rw [usage_flushUsage_keys c hnd T]
    cases hs : GoMap.lookup c.tablesAndStartTime T with
    | none =>
      simp only [occupancyIntervals, hs, intervalsLength_nil, add_zero]
      exact (wrapInt_of_isInt hI).symm
    | some s =>
      simp only [occupancyIntervals, hs, intervalsLength_single]
  | cons e es ih =>
    intro c l hr hnd hI
    obtain ⟨c1, l1, h1, hst, hr1⟩ := processOne_step c e l hr
    have hled := Step_ledger hst T hI
    have hI1 : isInt (usage c1 T) := by
      rw [hled]
      exact isInt_wrapInt _
    obtain ⟨f, hf, hfin⟩ := ih c1 l1 hr1 (Step_nodup hst hnd) hI1
    refine ⟨f, by simp [processEvents, h1, hf], ?_⟩
    rw [hfin, hled, wrapInt_add_wrapInt, occupancyIntervals_cons T c c1 e es h1,
      intervalsLength_append, add_assoc]

/-! ## Monotone usage -/

theorem isInt_of_bounds {u : Int} (t : Time) (h0 : 0 ≤ u) (h1 : u ≤ (t.val : Int) * minuteNs) :
    isInt u := by
  have ht : (t.val : Int) < 1440 := Int.ofNat_lt.2 t.isLt
  unfold minuteNs at h1
  unfold isInt
  omega

theorem mul_minuteNs_mono {s t : Time} (h : s ≤ t) :
    (s.val : Int) * minuteNs ≤ (t.val : Int) * minuteNs := by
  have h1 : (s.val : Int) ≤ (t.val : Int) := Int.ofNat_le.2 h
  unfold minuteNs
  omega

theorem Sub_nonneg {s t : Time} (h : s ≤ t) : 0 ≤ Sub t s := by
  have h1 : (s.val : Int) ≤ (t.val : Int) := Int.ofNat_le.2 h
  unfold Sub minuteNs
  nlinarith

theorem add_Sub_le {u : Int} (s t : Time) (h : u ≤ (s.val : Int) * minuteNs) :
    u + Sub t s ≤ (t.val : Int) * minuteNs := by
  unfold Sub minuteNs at *
  nlinarith

/-- One iteration at an event that is not stamped earlier than the events
before it never lowers a ledger entry, adds to it exactly the length of the
occupancy interval it closes, and keeps the bounds on the ledger. -/
theorem Step_usage {c c1 : computerClub} {e : event} {l l1 : SpecQueue}
    (hst : Step c e l c1 l1) (b : Time) (hb : b ≤ e.time) (hinv : UsageInv b c) :
    UsageInv e.time c1 ∧
    ∀ T : Int, usage c T ≤ usage c1 T ∧
      usage c1 T = usage c T + intervalsLength (closedInterval T c c1 e) := by
  have hend : c1.endTime = c.endTime := (Step_config hst).2.2.1
  have key : ∀ T : Int,
      usage c T ≤ usage c1 T ∧
      usage c1 T = usage c T + intervalsLength (closedInterval T c c1 e) ∧
      0 ≤ usage c1 T ∧
      (∀ s1 : Time, GoMap.lookup c1.tablesAndStartTime T = some s1 →
        s1 ≤ e.time ∧ s1 ≤ c1.endTime ∧ usage c1 T ≤ (s1.val : Int) * minuteNs) ∧
      (GoMap.lookup c1.tablesAndStartTime T = none →
        usage c1 T ≤ (e.time.val : Int) * minuteNs) := by
    intro T
    obtain ⟨h0, hocc, hfree⟩ := hinv T
    have htst := Step_tst hst T
    cases hl : GoMap.lookup c.tablesAndStartTime T with
    | none =>
      have hu := hfree hl
      have hI : isInt (usage c T) := isInt_of_bounds b h0 hu
      have hsame : usage c1 T = usage c T := by
        rw [Step_ledger hst T hI, closedInterval_nil (Or.inr hl), intervalsLength_nil, add_zero]
        exact wrapInt_of_isInt hI
      have hue : usage c T ≤ (e.time.val : Int) * minuteNs := le_trans hu (mul_minuteNs_mono hb)
      refine ⟨le_of_eq hsame.symm, ?_, by rw [hsame]; exact h0, ?_, ?_⟩
      · rw [hsame, closedInterval_nil (Or.inr hl), intervalsLength_nil, add_zero]
      · intro s1 hs1
        rcases htst with h | h | ⟨h, hp⟩
        · rw [h, hl] at hs1
          cases hs1
        · rw [h] at hs1
          cases hs1
        · rw [h] at hs1
          cases hs1
          refine ⟨le_refl _, ?_, ?_⟩
          · rw [hend]
            exact ((filterByTime_true_iff c e).1 hp).2
          · rw [hsame]
            exact hue
      · intro _
        rw [hsame]
        exact hue
    | some s =>
      obtain ⟨hsb, hse, hus⟩ := hocc s hl
      have hI : isInt (usage c T) := isInt_of_bounds s h0 hus
      have hled := Step_ledger hst T hI
      by_cases hsame : GoMap.lookup c1.tablesAndStartTime T = some s
      · have hnil : closedInterval T c c1 e = [] := closedInterval_nil (Or.inl (hsame.trans hl.symm))
        have hu1 : usage c1 T = usage c T := by
          rw [hled, hnil, intervalsLength_nil, add_zero]
          exact wrapInt_of_isInt hI
        refine ⟨le_of_eq hu1.symm, ?_, by rw [hu1]; exact h0, ?_, ?_⟩
        · rw [hu1, hnil, intervalsLength_nil, add_zero]
        · intro s1 hs1
          rw [hsame] at hs1
          cases hs1
          exact ⟨le_trans hsb hb, by rw [hend]; exact hse, by rw [hu1]; exact hus⟩
        · intro hn
          rw [hn] at hsame
          cases hsame
      · have hlen : intervalsLength (closedInterval T c c1 e) = Sub e.time s := by
          unfold closedInterval
          rw [hl]
          simp only [hsame, if_false]
          exact intervalsLength_single s e.time
        have hse1 : s ≤ e.time := le_trans hsb hb
        have hnn : 0 ≤ Sub e.time s := Sub_nonneg hse1
        have hle : usage c T + Sub e.time s ≤ (e.time.val : Int) * minuteNs :=
          add_Sub_le s e.time hus
        have hfit : isInt (usage c T + Sub e.time s) :=
          isInt_of_bounds e.time (add_nonneg h0 hnn) hle
        have hu1 : usage c1 T = usage c T + Sub e.time s := by
          rw [hled, hlen]
          exact wrapInt_of_isInt hfit
        refine ⟨?_, ?_, ?_, ?_, ?_⟩
        · rw [hu1]
          exact le_add_of_nonneg_right hnn
        · rw [hu1, hlen]
        · rw [hu1]
          exact add_nonneg h0 hnn
        · intro s1 hs1
          rcases htst with h | h | ⟨h, hp⟩
          · exact absurd (h.trans hl) hsame
          · rw [h] at hs1
            cases hs1
          · rw [h] at hs1
            cases hs1
            refine ⟨le_refl _, ?_, ?_⟩
            · rw [hend]
              exact ((filterByTime_true_iff c e).1 hp).2
            · rw [hu1]
              exact hle
        · intro _
          rw [hu1]
          exact hle
  exact ⟨fun T => ⟨(key T).2.2.1, (key T).2.2.2.1, (key T).2.2.2.2⟩,
    fun T => ⟨(key T).1, (key T).2.1⟩⟩

/-- Under the bounds on the ledger the flush at the end of the day never lowers
an entry and adds exactly the length of the last occupancy interval. -/
theorem flushUsage_usage {b : Time} (c : computerClub)
    (hnd : (GoMap.keys c.tablesAndStartTime).Nodup) (hinv : UsageInv b c) (T : Int) :
    usage c T ≤ usage (flushUsage c (GoMap.keys c.tablesAndStartTime)) T ∧
    usage (flushUsage c (GoMap.keys c.tablesAndStartTime)) T
      = usage c T + intervalsLength (occupancyIntervals T c []) := by
  obtain ⟨h0, hocc, _⟩ := hinv T
  rw [usage_flushUsage_keys c hnd T]
  cases hs : GoMap.lookup c.tablesAndStartTime T with
  | none =>
    simp only [occupancyIntervals, hs, intervalsLength_nil, add_zero]
    exact ⟨le_refl _, trivial⟩
  | some s =>
    obtain ⟨_, hse, hus⟩ := hocc s hs
    have hnn : 0 ≤ Sub c.endTime s := Sub_nonneg hse
    have hfit : isInt (usage c T + Sub c.endTime s) :=
      isInt_of_bounds c.endTime (add_nonneg h0 hnn) (add_Sub_le s c.endTime hus)
    simp only [occupancyIntervals, hs, intervalsLength_single]
    rw [wrapInt_of_isInt hfit]
    exact ⟨le_add_of_nonneg_right hnn, rfl⟩

theorem processEvents_usage_mono : ∀ (evs : List event) (c : computerClub) (l : SpecQueue)
    (b : Time),
    Repr c.queueOfClients l →
    evs.Pairwise (fun a b => a.time ≤ b.time) →
    (∀ e ∈ evs, b ≤ e.time) →
    UsageInv b c →
    (∀ (k : Nat) (T : Int), ∃ d d1, processEvents c (evs.take k) = some d ∧
      processEvents c (evs.take (k + 1)) = some d1 ∧ usage d T ≤ usage d1 T) ∧
    ∃ f b1, processEvents c evs = some f ∧ UsageInv b1 f ∧
      ∀ T : Int, usage f T + intervalsLength (occupancyIntervals T f [])
        = usage c T + intervalsLength (occupancyIntervals T c evs) := by
  intro evs
  induction evs with
  | nil =>
    intro c l b _ _ _ hinv
    exact ⟨fun k T => ⟨c, c, by simp [processEvents], by simp [processEvents], le_refl _⟩,
      c, b, rfl, hinv, fun T => rfl⟩
  | cons e es ih =>
    intro c l b hr hsorted hb hinv
    obtain ⟨c1, l1, h1, hst, hr1⟩ := processOne_step c e l hr
    obtain ⟨hinv1, hstep⟩ := Step_usage hst b (hb e (List.mem_cons_self e es)) hinv
    obtain ⟨hhead, htail⟩ := List.pairwise_cons.1 hsorted
    obtain ⟨ihk, f, b1, hf, hfinv, hfin⟩ := ih c1 l1 e.time hr1 htail hhead hinv1
    refine ⟨?_, f, b1, by simp [processEvents, h1, hf], hfinv, ?_⟩
    · intro k T
      cases k with
      | zero =>
        exact ⟨c, c1, by simp [processEvents], by simp [processEvents, h1], (hstep T).1⟩
      | succ k =>
        obtain ⟨d, d1, hd, hd1, hle⟩ := ihk k T
        exact ⟨d, d1, by simp [processEvents, h1, hd], by simp [processEvents, h1, hd1], hle⟩
    · intro T
      rw [hfin T, (hstep T).2, occupancyIntervals_cons T c c1 e es h1, intervalsLength_append,
        add_assoc]

theorem UsageInv_init (N : Int) (s en : Time) (cost : Int) (evs : List event) :
    UsageInv 0 (initOutputs (SetInput N s en cost evs)) := by
  intro T
  refine ⟨le_refl _, ?_, ?_⟩
  · intro s1 hs1
    cases hs1
  · intro _
    exact le_refl _

/-- C16: for events with non-decreasing timestamps, the loop of `ProcessInput`
reaches a state after each event, no ledger entry is lower after an event than
before it, and the flush of `processEndOfDay` does not lower any entry
either. -/
theorem usage_monotone (ro : RangeOrder) (N : Int) (s en : Time) (cost : Int)
    (evs : List event) (hsorted : evs.Pairwise (fun a b => a.time ≤ b.time)) :
    (∀ (k : Nat) (T : Int), ∃ d d1,
      stateAfter (SetInput N s en cost evs) k = some d ∧
      stateAfter (SetInput N s en cost evs) (k + 1) = some d1 ∧ usage d T ≤ usage d1 T) ∧
    ∃ f, stateAfter (SetInput N s en cost evs) evs.length = some f ∧
      ProcessInput ro (SetInput N s en cost evs) = some (processEndOfDay ro f) ∧
      ∀ T : Int, usage f T ≤ usage (processEndOfDay ro f) T := by
  obtain ⟨hk, f, b1, hf, hfinv, _⟩ := processEvents_usage_mono evs
    (initOutputs (SetInput N s en cost evs)) [] 0 repr_new hsorted
    (fun e _ => Fin.zero_le e.time) (UsageInv_init N s en cost evs)
  have hnd : (GoMap.keys f.tablesAndStartTime).Nodup :=
    processEvents_nodup evs (initOutputs (SetInput N s en cost evs)) [] repr_new
      List.nodup_nil f hf
  refine ⟨hk, f, ?_, ?_, ?_⟩
  · unfold stateAfter
    have hev : (SetInput N s en cost evs).events = evs := rfl
    rw [hev, List.take_length]
    exact hf
  · unfold ProcessInput
    have hev : (SetInput N s en cost evs).events = evs := rfl
    rw [hev, hf]
    rfl
  · intro T
    rw [usage_processEndOfDay]
    exact (flushUsage_usage f hnd hfinv T).1

theorem usage_monotone_witness :
    exampleEvents.Pairwise (fun a b => a.time ≤ b.time) ∧
    ∃ d d1,
      stateAfter (SetInput 3 (hm 9 0) (hm 19 0) 10 exampleEvents) 11 = some d ∧
      stateAfter (SetInput 3 (hm 9 0) (hm 19 0) 10 exampleEvents) (11 + 1) = some d1 ∧
      usage d 1 ≤ usage d1 1 :=
  ⟨by decide, (usage_monotone id 3 (hm 9 0) (hm 19 0) 10 exampleEvents (by decide)).1 11 1⟩

/-! ## The finalizer and the occupancy intervals -/

theorem intervalsLength_whole_minutes (l : List (Time × Time)) :
    ∃ k : Int, intervalsLength l = k * minuteNs := by
  induction l with
  | nil => exact ⟨0, by simp [intervalsLength]⟩
  | cons p l ih =>
    obtain ⟨k, hk⟩ := ih
    refine ⟨((p.2.val : Int) - (p.1.val : Int)) + k, ?_⟩
    have h1 : intervalsLength (p :: l) = Sub p.2 p.1 + intervalsLength l := by
      simp [intervalsLength]
    rw [h1, hk, Sub, add_mul]

/-- After every run the billed ledger entries are sums of whole minutes, taken
in `int64`: the entry of every table after the finalizer is the wrap-around of
a whole number of minutes. -/
theorem billed_entry_whole_minutes (ro : RangeOrder) (N : Int) (st en : Time) (cost : Int)
    (evs : List event) (T : Int) :
    ∃ f k, ProcessInput ro (SetInput N st en cost evs) = some (processEndOfDay ro f) ∧
      usage (processEndOfDay ro f) T = wrapInt (k * minuteNs) := by
  have hI : isInt (usage (initOutputs (SetInput N st en cost evs)) T) := by
    have h0 : usage (initOutputs (SetInput N st en cost evs)) T = 0 := rfl
    rw [h0]
    unfold isInt
    omega
  obtain ⟨f, hf, hfin⟩ := processEvents_intervals T evs
    (initOutputs (SetInput N st en cost evs)) [] repr_new List.nodup_nil hI
  obtain ⟨k, hk⟩ := intervalsLength_whole_minutes
    (occupancyIntervals T (initOutputs (SetInput N st en cost evs)) evs)
  have hev : (SetInput N st en cost evs).events = evs := rfl
  refine ⟨f, k, ?_, ?_⟩
  · unfold ProcessInput
    rw [hev, hf]
    rfl
  · have h0 : usage (initOutputs (SetInput N st en cost evs)) T = 0 := rfl
    rw [usage_processEndOfDay, hfin, h0, zero_add, hk]

/-- C15: for any `range` order that is a permutation.  First, for every state
with an occupancy map of distinct keys and a table `T` occupied since `s`:
`processEndOfDay` adds `closing - s` to the ledger entry of `T` with the `+=`
of `time.Duration`, an `int64` of nanoseconds (the entry becomes the wrapped
sum, which is the exact sum whenever that fits), leaves the entries of the
tables that are not occupied as they are, and computes the billing lines from
the ledger after this flush, the line of `T` among them.  Second, for every
run of `ProcessInput`: the loop reaches a final state, and after the finalizer
the ledger entry of every table `T` is the total length of the occupancy
intervals of `T`, each running to its release or to closing time (summed in
`int64`; exactly their sum when the timestamps are non-decreasing), and the
billing line of a table with an entry is printed for this total. -/
theorem finalizer_adds_elapsed (ro : RangeOrder) (hro : ∀ m, (ro m).Perm m) :
    (∀ (c : computerClub) (T : Int) (s : Time),
      (GoMap.keys c.tablesAndStartTime).Nodup →
      GoMap.lookup c.tablesAndStartTime T = some s →
      GoMap.lookup (processEndOfDay ro c).tablesAndHours T
        = some (wrapInt (usage c T + Sub c.endTime s)) ∧
      (isInt (usage c T + Sub c.endTime s) →
        usage (processEndOfDay ro c) T = usage c T + Sub c.endTime s) ∧
      (∀ T1 : Int, GoMap.lookup c.tablesAndStartTime T1 = none →
        GoMap.lookup (processEndOfDay ro c).tablesAndHours T1
          = GoMap.lookup c.tablesAndHours T1) ∧
      (processEndOfDay ro c).outputs =
        c.outputs
          ++ (sortClients (GoMap.keys c.clients)).map
              (fun cl => fmtTime c.endTime ++ " 11 " ++ cl)
          ++ [fmtTime c.endTime]
          ++ (ro (processEndOfDay ro c).tablesAndHours).map (billingLine c)
          ++ c.outputsAfterEnd ∧
      billingLine c (T, wrapInt (usage c T + Sub c.endTime s)) ∈
        (ro (processEndOfDay ro c).tablesAndHours).map (billingLine c)) ∧
    (∀ (N : Int) (st en : Time) (cost : Int) (evs : List event),
      ∃ f, stateAfter (SetInput N st en cost evs) evs.length = some f ∧
        ProcessInput ro (SetInput N st en cost evs) = some (processEndOfDay ro f) ∧
        ∀ T : Int,
          usage (processEndOfDay ro f) T = wrapInt (intervalsLength
            (occupancyIntervals T (initOutputs (SetInput N st en cost evs)) evs)) ∧
          (evs.Pairwise (fun a b => a.time ≤ b.time) →
            usage (processEndOfDay ro f) T = intervalsLength
              (occupancyIntervals T (initOutputs (SetInput N st en cost evs)) evs)) ∧
          (T ∈ GoMap.keys (processEndOfDay ro f).tablesAndHours →
            billingLine f (T, usage (processEndOfDay ro f) T)
              ∈ (processEndOfDay ro f).outputs)) := by
  constructor
  · intro c T s hnd hT
    have hmem : T ∈ GoMap.keys c.tablesAndStartTime := (GoMap.mem_keys_iff _ _).2 ⟨s, hT⟩
    have hl : GoMap.lookup (processEndOfDay ro c).tablesAndHours T
        = some (wrapInt (usage c T + Sub c.endTime s)) := by
      rw [processEndOfDay_ledger, lookup_flushUsage T _ c hnd, hT]
      simp [hmem]
    refine ⟨hl, ?_, ?_, ?_, ?_⟩
    · intro hfit
      simp only [usage, hl, Option.getD_some]
      exact wrapInt_of_isInt hfit
    · intro T1 h1
      rw [processEndOfDay_ledger, lookup_flushUsage T1 _ c hnd, h1]
    · rw [processEndOfDay_outputs, processEndOfDay_ledger]
      simp only [fmtEvent_exit]
    · apply List.mem_map_of_mem
      exact (hro _).mem_iff.2 (GoMap.mem_of_lookup _ _ _ hl)
  · intro N st en cost evs
    have hinit0 : ∀ T : Int, usage (initOutputs (SetInput N st en cost evs)) T = 0 :=
      fun _ => rfl
    have hI : ∀ T : Int, isInt (usage (initOutputs (SetInput N st en cost evs)) T) := by
      intro T
      rw [hinit0]
      unfold isInt
      omega
    obtain ⟨f, hf, _⟩ := processEvents_intervals 0 evs
      (initOutputs (SetInput N st en cost evs)) [] repr_new List.nodup_nil (hI 0)
    have hnd : (GoMap.keys f.tablesAndStartTime).Nodup :=
      processEvents_nodup evs (initOutputs (SetInput N st en cost evs)) [] repr_new
        List.nodup_nil f hf
    have hev : (SetInput N st en cost evs).events = evs := rfl
    refine ⟨f, ?_, ?_, ?_⟩
    · unfold stateAfter
      rw [hev, List.take_length]
      exact hf
    · unfold ProcessInput
      rw [hev, hf]
      rfl
    · intro T
      refine ⟨?_, ?_, ?_⟩
      · obtain ⟨f1, hf1, hfin⟩ := processEvents_intervals T evs
          (initOutputs (SetInput N st en cost evs)) [] repr_new List.nodup_nil (hI T)
        rw [hf] at hf1
        cases hf1
        rw [usage_processEndOfDay, hfin, hinit0, zero_add]
      · intro hsorted
        obtain ⟨_, f1, b1, hf1, hfinv, hfin⟩ := processEvents_usage_mono evs
          (initOutputs (SetInput N st en cost evs)) [] 0 repr_new hsorted
          (fun e _ => Fin.zero_le e.time) (UsageInv_init N st en cost evs)
        rw [hf] at hf1
        cases hf1
        rw [usage_processEndOfDay, (flushUsage_usage f hnd hfinv T).2, hfin T, hinit0, zero_add]
      · intro hk
        obtain ⟨v, hv⟩ := (GoMap.mem_keys_iff _ _).1 hk
        have hu : usage (processEndOfDay ro f) T = v := by simp [usage, hv]
        rw [hu, processEndOfDay_outputs, ← processEndOfDay_ledger ro f]
        apply List.mem_append_left
        apply List.mem_append_right
        apply List.mem_map_of_mem
        exact (hro _).mem_iff.2 (GoMap.mem_of_lookup _ _ _ hv)

set_option maxRecDepth 100000 in
theorem finalizer_adds_elapsed_witness :
    (∀ m : GoMap table Duration, (id m).Perm m) ∧
    (GoMap.keys closingClub.tablesAndStartTime).Nodup ∧
    GoMap.lookup closingClub.tablesAndStartTime 1 = some (hm 18 0) ∧
    usage (processEndOfDay id closingClub) 1
      = usage closingClub 1 + Sub closingClub.endTime (hm 18 0) ∧
    exampleEvents.Pairwise (fun a b => a.time ≤ b.time) ∧
    occupancyIntervals 1 (initOutputs exampleClub) exampleEvents
      = [(hm 9 54, hm 12 33), (hm 12 33, hm 15 52)] ∧
    intervalsLength [(hm 9 54, hm 12 33), (hm 12 33, hm 15 52)] = (5 * 60 + 58) * minuteNs ∧
    ∃ f, stateAfter exampleClub exampleEvents.length = some f ∧
      usage (processEndOfDay id f) 1
        = intervalsLength (occupancyIntervals 1 (initOutputs exampleClub) exampleEvents) := by
  have h := finalizer_adds_elapsed id (fun m => List.Perm.refl m)
  refine ⟨fun m => List.Perm.refl m, by decide, by rfl, ?_, by decide, by rfl, by rfl, ?_⟩
  · exact (h.1 closingClub 1 (hm 18 0) (by decide) (by rfl)).2.1 (by unfold isInt; decide)
  · obtain ⟨f, hf, _, hT⟩ := h.2 3 (hm 9 0) (hm 19 0) 10 exampleEvents
    exact ⟨f, hf, (hT 1).2.1 (by decide)⟩

/-! ## Which tables are billed -/

theorem Step_touched {c c1 : computerClub} {e : event} {l l1 : SpecQueue}
    (hst : Step c e l c1 l1) (T : Int) :
    (touched c T → touched c1 T) ∧
    (T ∈ GoMap.keys c1.tablesAndHours → touched c T) := by
  cases hst with
  | quiet o oa => exact ⟨id, Or.inl⟩
  | arrive hp ha hl => exact ⟨id, Or.inl⟩
  | sit t0 hp ha hl ht =>
    refine ⟨?_, Or.inl⟩
    rintro (h | h)
    · exact Or.inl h
    · exact Or.inr ((GoMap.mem_keys_store _ _ _ _).2 (Or.inr h))
  | wait q1 hp ha w1 w2 hr => exact ⟨id, Or.inl⟩
  | leaveEmpty val hp ha hl hnil =>
    constructor
    · rintro (h | h)
      · exact Or.inl ((mem_keys_updateTableUsage c val e.time T).2 (Or.inl h))
      · by_cases hv : T = val
        · exact Or.inl ((mem_keys_updateTableUsage c val e.time T).2
            (Or.inr ⟨hv, hv ▸ h⟩))
        · exact Or.inr ((GoMap.mem_keys_remove _ _ _).2 ⟨hv, h⟩)
    · intro h
      rcases (mem_keys_updateTableUsage c val e.time T).1 h with h1 | ⟨h1, h2⟩
      · exact Or.inl h1
      · exact Or.inr (h1 ▸ h2)
  | leavePop val x xs q1 hp ha hl hcons hr =>
    constructor
    · rintro (h | h)
      · exact Or.inl ((mem_keys_updateTableUsage c val e.time T).2 (Or.inl h))
      · by_cases hv : T = val
        · exact Or.inr ((GoMap.mem_keys_store _ _ _ _).2 (Or.inl hv))
        · exact Or.inr ((GoMap.mem_keys_store _ _ _ _).2
            (Or.inr ((GoMap.mem_keys_remove _ _ _).2 ⟨hv, h⟩)))
    · intro h
      rcases (mem_keys_updateTableUsage c val e.time T).1 h with h1 | ⟨h1, h2⟩
      · exact Or.inl h1
      · exact Or.inr (h1 ▸ h2)

theorem processEvents_touched : ∀ (evs : List event) (c : computerClub) (l : SpecQueue),
    Repr c.queueOfClients l →
    ∃ f, processEvents c evs = some f ∧ f.costOfHour = c.costOfHour ∧
      f.endTime = c.endTime ∧
      ∀ T : Int, touched f T ↔
        (touched c T ∨ ∃ k d, processEvents c (evs.take k) = some d ∧
          T ∈ GoMap.keys d.tablesAndStartTime) := by
  intro evs
  induction evs with
  | nil =>
    intro c l _
    refine ⟨c, rfl, rfl, rfl, fun T => ⟨Or.inl, ?_⟩⟩
    rintro (h | ⟨k, d, hd, hT⟩)
    · exact h
    · simp [processEvents] at hd
      subst hd
      exact Or.inr hT
  | cons e es ih =>
    intro c l hr
    obtain ⟨c1, l1, h1, hst, hr1⟩ := processOne_step c e l hr
    obtain ⟨f, hf, hcost, hend, hiff⟩ := ih c1 l1 hr1
    obtain ⟨hc1, _, he1, _⟩ := Step_config hst
    refine ⟨f, by simp [processEvents, h1, hf], hcost.trans hc1, hend.trans he1, fun T => ?_⟩
    rw [hiff T]
    constructor
    · rintro (h | ⟨k, d, hd, hT⟩)
      · rcases h with h | h
        · exact Or.inl ((Step_touched hst T).2 h)
        · exact Or.inr ⟨1, c1, by simp [processEvents, h1], h⟩
      · exact Or.inr ⟨k + 1, d, by simp [processEvents, h1, hd], hT⟩
    · rintro (h | ⟨k, d, hd, hT⟩)
      · exact Or.inl ((Step_touched hst T).1 h)
      · cases k with
        | zero =>
          simp [processEvents] at hd
          subst hd
          exact Or.inl ((Step_touched hst T).1 (Or.inr hT))
        | succ k =>
          simp only [List.take_succ_cons, processEvents, h1] at hd
          exact Or.inr ⟨k, d, hd, hT⟩

theorem Minutes_mul (D : Int) : Minutes (D * minuteNs) = D := by
  unfold Minutes minuteNs
  exact Int.mul_tdiv_cancel D (by norm_num)

/-- The billing line of a ledger entry of `D` whole minutes: the amount is
`calculatePrice` of `D` minutes, the duration is `D` split into hours and
minutes. -/
theorem billingLine_whole_minutes (c : computerClub) (T D : Int) :
    billingLine c (T, D * minuteNs) =
      fmtD T ++ " " ++ fmtD (calculatePrice c D) ++ " " ++
        fmt02d (Int.tdiv D 60) ++ ":" ++ fmt02d (Int.tmod D 60) := by
  simp only [billingLine, Minutes_mul]

theorem billingLine_zero (c : computerClub) (T : Int) (h : isInt c.costOfHour) :
    billingLine c (T, 0) = fmtD T ++ " " ++ fmtD c.costOfHour ++ " 00:00" := by
  have hp : calculatePrice c 0 = c.costOfHour := by
    have h1 : calculatePrice c 0 = wrapInt c.costOfHour := by
      simp [calculatePrice]
    rw [h1, wrapInt_of_isInt h]
  have hm0 : Minutes 0 = 0 := by simp [Minutes]
  simp only [billingLine, hm0, hp, String.append_assoc]
  rfl

theorem mem_keys_iff_exists {κ ν : Type} (m : GoMap κ ν) (k : κ) :
    k ∈ GoMap.keys m ↔ ∃ v, (k, v) ∈ m := by
  unfold GoMap.keys
  rw [List.mem_map]
  constructor
  · rintro ⟨p, hp, rfl⟩
    exact ⟨p.2, hp⟩
  · rintro ⟨v, hv⟩
    exact ⟨(k, v), hv, rfl⟩

theorem billingLines_emitted (ro : RangeOrder) (c : computerClub) :
    (processEndOfDay ro c).outputs =
      c.outputs
        ++ (sortClients (GoMap.keys c.clients)).map (fun cl => fmtTime c.endTime ++ " 11 " ++ cl)
        ++ [fmtTime c.endTime] ++ billingLines ro c ++ c.outputsAfterEnd := by
  rw [processEndOfDay_outputs]
  simp only [fmtEvent_exit, billingLines]

/-- C18: for every run (with a `range` order that is a permutation and a rate
that is a Go `int`), the billing summary printed after the closing-time line has
a line for table `T` exactly when `T` was occupied after some event of the
run; a table whose ledger entry is zero is reported as `T R 00:00` with `R` the
hourly rate; a table never occupied has no entry and no line. -/
theorem billing_iff_occupied (ro : RangeOrder) (N : Int) (s en : Time) (cost : Int)
    (evs : List event) (hro : ∀ m, (ro m).Perm m) (hcost : isInt cost) :
    ∃ f, stateAfter (SetInput N s en cost evs) evs.length = some f ∧
      ProcessInput ro (SetInput N s en cost evs) = some (processEndOfDay ro f) ∧
      GetOutput (processEndOfDay ro f) =
        f.outputs
          ++ (sortClients (GoMap.keys f.clients)).map (fun cl => fmtTime f.endTime ++ " 11 " ++ cl)
          ++ [fmtTime f.endTime] ++ billingLines ro f ++ f.outputsAfterEnd ∧
      billingLines ro f = (ro (processEndOfDay ro f).tablesAndHours).map (billingLine f) ∧
      (∀ T : Int, (∃ d, (T, d) ∈ ro (processEndOfDay ro f).tablesAndHours) ↔
        ∃ k c, stateAfter (SetInput N s en cost evs) k = some c ∧
          T ∈ GoMap.keys c.tablesAndStartTime) ∧
      (∀ T : Int, (T, 0) ∈ (processEndOfDay ro f).tablesAndHours →
        fmtD T ++ " " ++ fmtD cost ++ " 00:00" ∈ billingLines ro f) := by
  obtain ⟨f, hf, hfc, _, hiff⟩ := processEvents_touched evs
    (initOutputs (SetInput N s en cost evs)) [] repr_new
  have hev : (SetInput N s en cost evs).events = evs := rfl
  have hlines : billingLines ro f
      = (ro (processEndOfDay ro f).tablesAndHours).map (billingLine f) := by
    rw [processEndOfDay_ledger]
    rfl
  refine ⟨f, ?_, ?_, billingLines_emitted ro f, hlines, ?_, ?_⟩
  · unfold stateAfter
    rw [hev, List.take_length]
    exact hf
  · unfold ProcessInput
    rw [hev, hf]
    rfl
  · intro T
    have h0 : ¬ touched (initOutputs (SetInput N s en cost evs)) T := by
      rintro (h | h) <;> exact absurd h (List.not_mem_nil T)
    have h1 : (∃ d, (T, d) ∈ ro (processEndOfDay ro f).tablesAndHours) ↔ touched f T := by
      rw [processEndOfDay_ledger]
      constructor
      · rintro ⟨d, hd⟩
        have hm : T ∈ GoMap.keys
            (flushUsage f (GoMap.keys f.tablesAndStartTime)).tablesAndHours :=
          (mem_keys_iff_exists _ _).2 ⟨d, (hro _).mem_iff.1 hd⟩
        rcases (mem_keys_flushUsage T _ f).1 hm with h | ⟨h, _⟩
        · exact Or.inl h
        · exact Or.inr h
      · intro ht
        have hm : T ∈ GoMap.keys
            (flushUsage f (GoMap.keys f.tablesAndStartTime)).tablesAndHours := by
          rw [mem_keys_flushUsage]
          rcases ht with h | h
          · exact Or.inl h
          · exact Or.inr ⟨h, h⟩
        obtain ⟨d, hd⟩ := (mem_keys_iff_exists _ _).1 hm
        exact ⟨d, (hro _).mem_iff.2 hd⟩
    rw [h1, hiff T]
    unfold stateAfter
    rw [hev]
    constructor
    · rintro (h | h)
      · exact absurd h h0
      · exact h
    · exact Or.inr
  · intro T hT
    have hfc1 : f.costOfHour = cost := hfc
    have hline := billingLine_zero f T (by rw [hfc1]; exact hcost)
    rw [hfc1] at hline
    rw [hlines, ← hline]
    exact List.mem_map_of_mem _ ((hro _).mem_iff.2 hT)

theorem billing_iff_occupied_witness :
    (∀ m : GoMap table Duration, (id m).Perm m) ∧ isInt 10 ∧
    ∃ f, stateAfter (SetInput 3 (hm 9 0) (hm 19 0) 10 exampleEvents) exampleEvents.length
        = some f ∧
      ProcessInput id (SetInput 3 (hm 9 0) (hm 19 0) 10 exampleEvents)
        = some (processEndOfDay id f) ∧
      (∀ T : Int, (∃ d, (T, d) ∈ id (processEndOfDay id f).tablesAndHours) ↔
        ∃ k c, stateAfter (SetInput 3 (hm 9 0) (hm 19 0) 10 exampleEvents) k = some c ∧
          T ∈ GoMap.keys c.tablesAndStartTime) := by
  have hi : isInt 10 := by unfold isInt; decide
  obtain ⟨f, h1, h2, _, _, h5, _⟩ :=
    billing_iff_occupied id 3 (hm 9 0) (hm 19 0) 10 exampleEvents
      (fun m => List.Perm.refl m) hi
  exact ⟨fun m => List.Perm.refl m, hi, f, h1, h2, h5⟩

/-! ## The queue and the registry -/

set_option maxRecDepth 100000 in
/-- C11 (as stated): the exclusivity fails after each of these events.
With one table taken by `a`, the JoinQueue of `b`, who never arrived, puts `b`
in the queue while it is absent from the registry.  The JoinQueue of the
seated client `a` puts `a` in the queue while it occupies table 1.  A client
`b` that joins the queue twice is seated at table 1 by the next release and is
still in the queue.  A waiting client `b` that sits down at a table numbered 2
is in the queue while it occupies that table.  A client that sat down at a
table numbered 0 joins the queue while it occupies table 0.  A waiting client
`g` that leaves behind the head of the queue is removed from the registry and
stays in the queue.  And the leave of an unseated client `d` while `b` waits
seats `b` at table 0, after which `b` joins the queue again while it occupies
table 0. -/
theorem queued_while_absent_or_seated :
    (stateAfter strangerClub 3).map (fun c => (waiting c "b", absent c "b"))
      = some (true, true) ∧
    (stateAfter selfQueuedClub 3).map (fun c => (waiting c "a", occupying c "a"))
      = some (true, true) ∧
    (stateAfter doubleJoinClub 8).map
        (fun c => (waiting c "b", occupying c "b", GoMap.lookup c.clients "b"))
      = some (true, true, some 1) ∧
    (stateAfter waitingSitsClub 5).map
        (fun c => (waiting c "b", occupying c "b", GoMap.lookup c.clients "b"))
      = some (true, true, some 2) ∧
    (stateAfter tableZeroClub 3).map
        (fun c => (waiting c "a", occupying c "a", GoMap.lookup c.clients "a"))
      = some (true, true, some 0) ∧
    (stateAfter waitingLeavesClub 9).map (fun c => (waiting c "g", absent c "g"))
      = some (true, true) ∧
    (stateAfter rejoinClub 7).map
        (fun c => (waiting c "b", occupying c "b", GoMap.lookup c.clients "b",
          c.outputs.drop 7))
      = some (true, true, some 0, ["09:30 12 b 0", "09:40 3 b"]) :=
  ⟨by rfl, by rfl, by rfl, by rfl, by rfl, by rfl, by rfl⟩

set_option maxRecDepth 100000 in
/-- Each of the seven runs of the preceding theorem respects the discipline of
the queue up to one event and breaks one condition of it with that event: the
JoinQueue of a client that is not registered, of a seated client, of a client
that is waiting already; the SitAtTable of a waiting client, and the
SitAtTable at table 0; the Leave of a waiting client, and the Leave of an
unseated client while another client waits.  The events after it (the release
that seats the client queued twice, the JoinQueue of the client at table 0)
respect the discipline in the state in which they are handled. -/
theorem discipline_broken_once :
    (disciplined (initOutputs strangerClub) (strangerClub.events.take 2) = true ∧
      disciplined (initOutputs strangerClub) (strangerClub.events.take 3) = false) ∧
    (disciplined (initOutputs selfQueuedClub) (selfQueuedClub.events.take 2) = true ∧
      disciplined (initOutputs selfQueuedClub) (selfQueuedClub.events.take 3) = false) ∧
    (disciplined (initOutputs doubleJoinClub) (doubleJoinClub.events.take 6) = true ∧
      disciplined (initOutputs doubleJoinClub) (doubleJoinClub.events.take 7) = false ∧
      (stateAfter doubleJoinClub 7).map (fun c => disciplined c (doubleJoinClub.events.drop 7))
        = some true) ∧
    (disciplined (initOutputs waitingSitsClub) (waitingSitsClub.events.take 4) = true ∧
      disciplined (initOutputs waitingSitsClub) (waitingSitsClub.events.take 5) = false) ∧
    (disciplined (initOutputs tableZeroClub) (tableZeroClub.events.take 1) = true ∧
      disciplined (initOutputs tableZeroClub) (tableZeroClub.events.take 2) = false ∧
      (stateAfter tableZeroClub 2).map (fun c => disciplined c (tableZeroClub.events.drop 2))
        = some true) ∧
    (disciplined (initOutputs waitingLeavesClub) (waitingLeavesClub.events.take 8) = true ∧
      disciplined (initOutputs waitingLeavesClub) (waitingLeavesClub.events.take 9) = false) ∧
    (disciplined (initOutputs rejoinClub) (rejoinClub.events.take 5) = true ∧
      disciplined (initOutputs rejoinClub) (rejoinClub.events.take 6) = false ∧
      (stateAfter rejoinClub 6).map (fun c => disciplined c (rejoinClub.events.drop 6))
        = some true) :=
  ⟨⟨by rfl, by rfl⟩, ⟨by rfl, by rfl⟩, ⟨by rfl, by rfl, by rfl⟩, ⟨by rfl, by rfl⟩,
    ⟨by rfl, by rfl, by rfl⟩, ⟨by rfl, by rfl⟩, ⟨by rfl, by rfl, by rfl⟩⟩

/-- One iteration at an event that respects the discipline keeps the queue
free of repetitions, its clients registered with the sentinel 0, and table 0
unoccupied. -/
theorem Step_queued {c c1 : computerClub} {e : event} {l l1 : SpecQueue}
    (hst : Step c e l c1 l1) (hl : c.queueOfClients.toList = l)
    (hok : eventOK c e = true) (hnd : l.Nodup)
    (hreg : ∀ x ∈ l, GoMap.lookup c.clients x = some 0)
    (h0 : GoMap.lookup c.tablesAndStartTime 0 = none) :
    l1.Nodup ∧ (∀ x ∈ l1, GoMap.lookup c1.clients x = some 0) ∧
      GoMap.lookup c1.tablesAndStartTime 0 = none := by
  cases hst with
  | quiet o oa => exact ⟨hnd, hreg, h0⟩
  | arrive hp ha hlk =>
    refine ⟨hnd, fun x hx => ?_, h0⟩
    show GoMap.lookup (GoMap.store c.clients e.client 0) x = some 0
    rw [GoMap.lookup_store]
    split_ifs
    · rfl
    · exact hreg x hx
  | sit t0 hp ha hlk ht =>
    have hok1 : e.client ∉ l ∧ ¬ e.table = 0 := by
      have h2 : ¬ e.action = CLIENT_WAIT := by rw [ha]; decide
      simpa [eventOK, hp, ha, h2, hl] using hok
    refine ⟨hnd, fun x hx => ?_, ?_⟩
    · show GoMap.lookup (GoMap.store c.clients e.client e.table) x = some 0
      rw [GoMap.lookup_store]
      have hne : ¬ e.client = x := fun h => hok1.1 (h ▸ hx)
      simp only [hne, if_false]
      exact hreg x hx
    · show GoMap.lookup (GoMap.store c.tablesAndStartTime e.table e.time) 0 = none
      rw [GoMap.lookup_store]
      simp only [hok1.2, if_false]
      exact h0
  | wait q1 hp ha w1 w2 hr =>
    have hok1 : GoMap.lookup c.clients e.client = some 0 ∧ e.client ∉ l := by
      simpa [eventOK, hp, ha, hl] using hok
    refine ⟨?_, fun x hx => ?_, h0⟩
    · exact List.Nodup.append hnd (List.nodup_singleton _) (by simpa using hok1.2)
    · rcases List.mem_append.1 hx with h | h
      · exact hreg x h
      · rw [List.mem_singleton.1 h]
        exact hok1.1
  | leaveEmpty val hp ha hlk hnil =>
    subst hnil
    refine ⟨List.nodup_nil, fun x hx => absurd hx (List.not_mem_nil x), ?_⟩
    show GoMap.lookup (GoMap.remove c.tablesAndStartTime val) 0 = none
    rw [GoMap.lookup_remove]
    split_ifs
    · rfl
    · exact h0
  | leavePop val x xs q1 hp ha hlk hcons hr =>
    subst hcons
    have hval : ¬ val = 0 := by
      have h2 : ¬ e.action = CLIENT_WAIT := by rw [ha]; decide
      have h3 : ¬ e.action = CLIENT_TABLE := by rw [ha]; decide
      have h4 : ¬ GoMap.lookup c.clients e.client = some 0 := by
        simpa [eventOK, hp, ha, h2, h3, hl] using hok
      intro hv
      exact h4 (hv ▸ hlk)
    have hnot : e.client ∉ x :: l1 := by
      intro hmem
      have h5 := hreg e.client hmem
      rw [hlk] at h5
      exact hval (Option.some.inj h5)
    obtain ⟨hx, hxs⟩ := List.nodup_cons.1 hnd
    refine ⟨hxs, fun y hy => ?_, ?_⟩
    · show GoMap.lookup
        (GoMap.remove (GoMap.store (GoMap.store c.clients x val) x val) e.client) y = some 0
      have h1 : ¬ y = e.client := fun h => hnot (h ▸ List.mem_cons_of_mem x hy)
      have h2 : ¬ x = y := fun h => hx (h ▸ hy)
      rw [GoMap.lookup_remove, GoMap.lookup_store, GoMap.lookup_store]
      simp only [h1, h2, if_false]
      exact hreg y (List.mem_cons_of_mem x hy)
    · show GoMap.lookup
        (GoMap.store (GoMap.remove c.tablesAndStartTime val) val e.time) 0 = none
      have hval2 : ¬ (0 : Int) = val := fun h => hval h.symm
      rw [GoMap.lookup_store, GoMap.lookup_remove]
      simp only [hval, hval2, if_false]
      exact h0

theorem processEvents_queued : ∀ (evs : List event) (c : computerClub) (l : SpecQueue),
    Repr c.queueOfClients l → l.Nodup →
    (∀ x ∈ l, GoMap.lookup c.clients x = some 0) →
    GoMap.lookup c.tablesAndStartTime 0 = none → disciplined c evs = true →
    ∀ k : Nat, ∃ d l1, processEvents c (evs.take k) = some d ∧ Repr d.queueOfClients l1 ∧
      l1.Nodup ∧ (∀ x ∈ l1, GoMap.lookup d.clients x = some 0) ∧
      GoMap.lookup d.tablesAndStartTime 0 = none := by
  intro evs
  induction evs with
  | nil =>
    intro c l hr hnd hreg h0 _ k
    exact ⟨c, l, by simp [processEvents], hr, hnd, hreg, h0⟩
  | cons e es ih =>
    intro c l hr hnd hreg h0 hdis k
    cases k with
    | zero => exact ⟨c, l, by simp [processEvents], hr, hnd, hreg, h0⟩
    | succ k =>
      obtain ⟨c1, l1, h1, hst, hr1⟩ := processOne_step c e l hr
      have hd : eventOK c e = true ∧ disciplined c1 es = true := by
        simpa [disciplined, h1] using hdis
      obtain ⟨hnd1, hreg1, h01⟩ := Step_queued hst (toList_of_repr hr) hd.1 hnd hreg h0
      obtain ⟨d, l2, hd2, hr2, hnd2, hreg2, h02⟩ := ih c1 l1 hr1 hnd1 hreg1 h01 hd.2 k
      exact ⟨d, l2, by simp [processEvents, h1, hd2], hr2, hnd2, hreg2, h02⟩

/-- C11 (amended): when every event respects the discipline of the queue
(inside opening hours, JoinQueue only from registered, unseated clients that
are not waiting; SitAtTable only from clients that are not waiting, at a table
other than 0; a Leave that arrives while clients are waiting only from a
client that is seated or not registered), the loop of `ProcessInput` reaches a
state after each event, and in it every client of the wait queue is in the
registry with the unseated sentinel 0 as its table and table 0 is not
occupied; so a waiting client is neither absent nor occupying a table, an
absent client occupies no table, and no client is in the queue twice. -/
theorem queued_clients_registered_unseated (N : Int) (s en : Time) (cost : Int)
    (evs : List event) (k : Nat)
    (hdis : disciplined (initOutputs (SetInput N s en cost evs)) evs = true) :
    ∃ c, stateAfter (SetInput N s en cost evs) k = some c ∧
      c.queueOfClients.toList.Nodup ∧
      GoMap.lookup c.tablesAndStartTime 0 = none ∧
      (∀ x ∈ c.queueOfClients.toList, GoMap.lookup c.clients x = some 0) ∧
      (∀ x : client, waiting c x = true → absent c x = false ∧ occupying c x = false) ∧
      (∀ x : client, absent c x = true → occupying c x = false) := by
  obtain ⟨d, l1, hd, hr, hnd, hreg, h0⟩ := processEvents_queued evs
    (initOutputs (SetInput N s en cost evs)) [] repr_new List.nodup_nil
    (fun x hx => absurd hx (List.not_mem_nil x)) rfl hdis k
  have hreg1 : ∀ x ∈ d.queueOfClients.toList, GoMap.lookup d.clients x = some 0 := by
    rw [toList_of_repr hr]
    exact hreg
  refine ⟨d, hd, ?_, h0, hreg1, ?_, ?_⟩
  · rw [toList_of_repr hr]
    exact hnd
  · intro x hx
    have hx1 : x ∈ d.queueOfClients.toList := by simpa [waiting] using hx
    have h1 := hreg1 x hx1
    simp [absent, occupying, h1, h0]
  · intro x hx
    have h1 : GoMap.lookup d.clients x = none := by simpa [absent] using hx
    simp [occupying, h1]

set_option maxRecDepth 100000 in
theorem queued_clients_registered_unseated_witness :
    disciplined (initOutputs (SetInput 3 (hm 9 0) (hm 19 0) 10 exampleEvents)) exampleEvents
      = true ∧
    (stateAfter (SetInput 3 (hm 9 0) (hm 19 0) 10 exampleEvents) 11).map
        (fun c => c.queueOfClients.toList) = some ["client4"] ∧
    ∃ c, stateAfter (SetInput 3 (hm 9 0) (hm 19 0) 10 exampleEvents) 11 = some c ∧
      c.queueOfClients.toList.Nodup ∧
      (∀ x : client, waiting c x = true → absent c x = false ∧ occupying c x = false) := by
  obtain ⟨c, h1, h2, _, _, h5, _⟩ :=
    queued_clients_registered_unseated 3 (hm 9 0) (hm 19 0) 10 exampleEvents 11 (by rfl)
  exact ⟨by rfl, by rfl, c, h1, h2, h5⟩

end ComputerClub
